import Mathlib

/-!
Page replacement simulation (lab3) and cache lab (lab2)

A shallow embedding of the three page replacement policies of `algorithms.c`
(`fifo`, `lru` and `extra`, the lookahead-optimal policy) together with their
helpers `search`, `increment_arr`, `find_max`, `find_opt` and `display`, and of
the parts of the drivers that decide how the policies are called.

Conventions of the embedding.

* A C `int` array is a `List Int`; reading `arr[i]` is `arr.getD i 0` and writing
  `arr[i] = v` is `arr.set i v`.  All reads and writes made by the code are in
  bounds when `frame_num ≥ 1` and `arr_size` is the length of the trace.
* A `for` loop that runs a known number of iterations is a recursion on the
  number of iterations that remain, carrying the loop index.
* Values stored in arrays (pages, ages, distances) and the two statistics are
  `Int`; loop indices and the allocation counter, which the code only ever
  increments from `0`, are `Nat`.  No counter can exceed `arr_size`, which is
  itself an `int`, so no arithmetic of the code overflows.
* `fifo`, `lru` and `extra` below are the computation of `stats`.  `fifo_v`,
  `lru_v` and `extra_v` are a second transcription of the three functions,
  with the flag `verbose`, the call of `display`, the caller's trace array,
  the text printed, and every array access checked against the array size.
* Of the drivers pagesim.c and pagestats.c the embedding covers the argument
  checks, the frame-count sweeps and the computation of the miss rate in
  `double` (binary64, rounding to nearest); of pagegenerator.c the argument
  checks and the generating loop, the values of `random()` being supplied as
  a list.  `exit(1)` is `Except.error 1`.
* Of the cache lab (lab2) the embedding covers `level_3`, `level_4` and `level_5` of
  optimized.c and `level_4` and `level_5` of refcode.c, under the names
  `optimized.level_3` and so on; its conventions are stated with the definitions.
-/

namespace PageSim

/-- The constant `INT_MAX` of `<limits.h>` for a 32-bit `int`. -/
def INT_MAX : Int := 2147483647

/-! ## Helpers -/

/-- The loop of `search`: `fuel` iterations remain and `i` is the loop index. -/
def search_loop (arr : List Int) (item : Int) : Nat → Nat → Int
  | 0, _ => -1
  | fuel + 1, i =>
    if arr.getD i 0 = item then (i : Int) else search_loop arr item fuel (i + 1)

/-- The function `search(arr, size, item)`: index of `item` in `arr`, `-1` if it is absent. -/
def search (arr : List Int) (size : Nat) (item : Int) : Int :=
  search_loop arr item size 0

/-- The loop of `increment_arr`. -/
def increment_loop : List Int → Nat → Nat → List Int
  | arr, 0, _ => arr
  | arr, fuel + 1, i => increment_loop (arr.set i (arr.getD i 0 + 1)) fuel (i + 1)

/-- The function `increment_arr(arr, size)`: adds one to each of the first `size` entries. -/
def increment_arr (arr : List Int) (size : Nat) : List Int :=
  increment_loop arr size 0

/-- The loop of `find_max`, carrying `max_index`. -/
def find_max_loop (arr : List Int) : Nat → Nat → Nat → Nat
  | 0, _, max_index => max_index
  | fuel + 1, i, max_index =>
    find_max_loop arr fuel (i + 1)
      (if arr.getD i 0 > arr.getD max_index 0 then i else max_index)

/-- The function `find_max(arr, size)`: the loop starts at `i = 1` with `max_index = 0`. -/
def find_max (arr : List Int) (size : Nat) : Nat :=
  find_max_loop arr (size - 1) 1 0

/-- The inner loop of `find_opt` for one frame: scans `pages[j ..]` counting `dist`;
the result is the final value of that frame's entry of `dist_from_use`, which
stays `INT_MAX` when the loop ends without a match. -/
def find_opt_scan (pages : List Int) (frame : Int) : Nat → Nat → Int → Int
  | 0, _, _ => INT_MAX
  | fuel + 1, j, dist =>
    if pages.getD j 0 = frame then dist
    else find_opt_scan pages frame fuel (j + 1) (dist + 1)

/-- The outer loop of `find_opt`, filling `dist_from_use`. -/
def find_opt_loop (pages : List Int) (num_pages : Nat) (frames : List Int)
    (num_read : Nat) : List Int → Nat → Nat → List Int
  | dist_from_use, 0, _ => dist_from_use
  | dist_from_use, fuel + 1, i =>
    find_opt_loop pages num_pages frames num_read
      (dist_from_use.set i
        (find_opt_scan pages (frames.getD i 0) (num_pages - (num_read - 1)) (num_read - 1) 0))
      fuel (i + 1)

/-- The function `find_opt(pages, num_pages, frames, num_frames, num_read)`: the slot whose
entry of `dist_from_use` is the largest, the first such slot on ties. -/
def find_opt (pages : List Int) (num_pages : Nat) (frames : List Int)
    (num_frames : Nat) (num_read : Nat) : Nat :=
  find_max
    (find_opt_loop pages num_pages frames num_read
      (List.replicate num_frames INT_MAX) num_frames 0)
    num_frames

/-! ## FIFO -/

/-- The local variables of `fifo` that live across iterations. -/
structure FifoState where
  frames : List Int
  num_faults : Int
  num_refs : Int
  is_filled : Bool
  num_allocated : Nat
  pointer : Nat
  deriving DecidableEq, Repr

/-- State of `fifo` when the main loop is entered. -/
def fifo_init (frame_num : Nat) : FifoState :=
  { frames := List.replicate frame_num (-1), num_faults := 0, num_refs := 0,
    is_filled := false, num_allocated := 0, pointer := 0 }

/-- One iteration of the main loop of `fifo`, for loop index `i`. -/
def fifo_body (arr : List Int) (frame_num : Nat) (i : Nat) (s : FifoState) : FifoState :=
  let page := arr.getD i 0
  let res := search s.frames frame_num page
  let is_filled := s.is_filled || decide (frame_num ≤ s.num_allocated)
  let num_refs := if is_filled then s.num_refs + 1 else s.num_refs
  let faulted := decide (res = -1)
  { frames := if faulted then s.frames.set s.pointer page else s.frames
    num_faults := if is_filled && faulted then s.num_faults + 1 else s.num_faults
    num_refs := num_refs
    is_filled := is_filled
    num_allocated := if faulted then s.num_allocated + 1 else s.num_allocated
    pointer := if faulted then (s.pointer + 1) % frame_num else s.pointer }

/-- The main loop of `fifo`: `fuel` iterations remain, the next index is `i`. -/
def fifo_loop (arr : List Int) (frame_num : Nat) : Nat → Nat → FifoState → FifoState
  | 0, _, s => s
  | fuel + 1, i, s => fifo_loop arr frame_num fuel (i + 1) (fifo_body arr frame_num i s)

/-- The state of `fifo` after its first `k` iterations. -/
def fifo_run (arr : List Int) (frame_num : Nat) (k : Nat) : FifoState :=
  fifo_loop arr frame_num k 0 (fifo_init frame_num)

/-- The function `fifo(arr, arr_size, frame_num, stats, verbose)`: the pair
`(stats[0], stats[1])` it stores. -/
def fifo (arr : List Int) (arr_size : Nat) (frame_num : Nat) : Int × Int :=
  let s := fifo_run arr frame_num arr_size
  (s.num_faults, s.num_refs)

/-! ## LRU -/

/-- The local variables of `lru` that live across iterations. -/
structure LruState where
  frames : List Int
  last_used : List Int
  num_faults : Int
  num_refs : Int
  is_filled : Bool
  num_allocated : Nat
  deriving DecidableEq, Repr

/-- State of `lru` when the main loop is entered. -/
def lru_init (frame_num : Nat) : LruState :=
  { frames := List.replicate frame_num (-1), last_used := List.replicate frame_num 0,
    num_faults := 0, num_refs := 0, is_filled := false, num_allocated := 0 }

/-- One iteration of the main loop of `lru`, for loop index `i`.  The local `index` is
the result of `find_max`, which the code computes, and which is used, on a miss only. -/
def lru_body (arr : List Int) (frame_num : Nat) (i : Nat) (s : LruState) : LruState :=
  let page := arr.getD i 0
  let last_used := increment_arr s.last_used frame_num
  let res := search s.frames frame_num page
  let is_filled := s.is_filled || decide (frame_num ≤ s.num_allocated)
  let num_refs := if is_filled then s.num_refs + 1 else s.num_refs
  let faulted := decide (res = -1)
  let index := find_max last_used frame_num
  { frames := if faulted then s.frames.set index page else s.frames
    last_used := if faulted then last_used.set index 0 else last_used.set res.toNat 0
    num_faults := if is_filled && faulted then s.num_faults + 1 else s.num_faults
    num_refs := num_refs
    is_filled := is_filled
    num_allocated := if faulted then s.num_allocated + 1 else s.num_allocated }

/-- The main loop of `lru`. -/
def lru_loop (arr : List Int) (frame_num : Nat) : Nat → Nat → LruState → LruState
  | 0, _, s => s
  | fuel + 1, i, s => lru_loop arr frame_num fuel (i + 1) (lru_body arr frame_num i s)

/-- The state of `lru` after its first `k` iterations. -/
def lru_run (arr : List Int) (frame_num : Nat) (k : Nat) : LruState :=
  lru_loop arr frame_num k 0 (lru_init frame_num)

/-- The function `lru(arr, arr_size, frame_num, stats, verbose)`: the pair
`(stats[0], stats[1])` it stores. -/
def lru (arr : List Int) (arr_size : Nat) (frame_num : Nat) : Int × Int :=
  let s := lru_run arr frame_num arr_size
  (s.num_faults, s.num_refs)

/-! ## OPT (`extra`) -/

/-- The local variables of `extra` that live across iterations. -/
structure ExtraState where
  frames : List Int
  num_faults : Int
  num_refs : Int
  is_filled : Bool
  count : Nat
  num_allocated : Nat
  deriving DecidableEq, Repr

/-- State of `extra` when the main loop is entered. -/
def extra_init (frame_num : Nat) : ExtraState :=
  { frames := List.replicate frame_num (-1), num_faults := 0, num_refs := 0,
    is_filled := false, count := 0, num_allocated := 0 }

/-- One iteration of the main loop of `extra`, for loop index `i`.  The local `index` is
computed, and used, on a miss only. -/
def extra_body (arr : List Int) (arr_size : Nat) (frame_num : Nat) (i : Nat)
    (s : ExtraState) : ExtraState :=
  let page := arr.getD i 0
  let res := search s.frames frame_num page
  let count := s.count + 1
  let is_filled := s.is_filled || decide (frame_num ≤ s.num_allocated)
  let num_refs := if is_filled then s.num_refs + 1 else s.num_refs
  let faulted := decide (res = -1)
  let index :=
    if !is_filled then s.num_allocated
    else find_opt arr arr_size s.frames frame_num count
  { frames := if faulted then s.frames.set index page else s.frames
    num_faults := if is_filled && faulted then s.num_faults + 1 else s.num_faults
    num_refs := num_refs
    is_filled := is_filled
    count := count
    num_allocated := if faulted then s.num_allocated + 1 else s.num_allocated }

/-- The main loop of `extra`. -/
def extra_loop (arr : List Int) (arr_size : Nat) (frame_num : Nat) :
    Nat → Nat → ExtraState → ExtraState
  | 0, _, s => s
  | fuel + 1, i, s =>
    extra_loop arr arr_size frame_num fuel (i + 1) (extra_body arr arr_size frame_num i s)

/-- The state of `extra` after its first `k` iterations. -/
def extra_run (arr : List Int) (arr_size : Nat) (frame_num : Nat) (k : Nat) : ExtraState :=
  extra_loop arr arr_size frame_num k 0 (extra_init frame_num)

/-- The function `extra(arr, arr_size, frame_num, stats, verbose)`: the pair
`(stats[0], stats[1])` it stores. -/
def extra (arr : List Int) (arr_size : Nat) (frame_num : Nat) : Int × Int :=
  let s := extra_run arr arr_size frame_num arr_size
  (s.num_faults, s.num_refs)

/-! ## Auxiliary notions used to state and prove the properties -/

/-- The variables that the three policies share and update in the same way. -/
structure Core where
  frames : List Int
  num_faults : Int
  num_refs : Int
  is_filled : Bool
  num_allocated : Nat

/-- The common initial state. -/
def core_init (frame_num : Nat) : Core :=
  { frames := List.replicate frame_num (-1), num_faults := 0, num_refs := 0,
    is_filled := false, num_allocated := 0 }

/-- The part of the loop body common to `fifo`, `lru` and `extra`, where `index` is the
slot the policy writes on a miss. -/
def core_step (frame_num : Nat) (page : Int) (index : Nat) (c : Core) : Core :=
  let res := search c.frames frame_num page
  let is_filled := c.is_filled || decide (frame_num ≤ c.num_allocated)
  let num_refs := if is_filled then c.num_refs + 1 else c.num_refs
  let faulted := decide (res = -1)
  { frames := if faulted then c.frames.set index page else c.frames
    num_faults := if is_filled && faulted then c.num_faults + 1 else c.num_faults
    num_refs := num_refs
    is_filled := is_filled
    num_allocated := if faulted then c.num_allocated + 1 else c.num_allocated }

/-- The shared variables of a `fifo` state. -/
def FifoState.core (s : FifoState) : Core :=
  { frames := s.frames, num_faults := s.num_faults, num_refs := s.num_refs,
    is_filled := s.is_filled, num_allocated := s.num_allocated }

/-- The shared variables of an `lru` state. -/
def LruState.core (s : LruState) : Core :=
  { frames := s.frames, num_faults := s.num_faults, num_refs := s.num_refs,
    is_filled := s.is_filled, num_allocated := s.num_allocated }

/-- The shared variables of an `extra` state. -/
def ExtraState.core (s : ExtraState) : Core :=
  { frames := s.frames, num_faults := s.num_faults, num_refs := s.num_refs,
    is_filled := s.is_filled, num_allocated := s.num_allocated }

/-- The slot `extra` writes on a miss at loop index `i`. -/
def extra_index (arr : List Int) (arr_size : Nat) (frame_num : Nat) (s : ExtraState) : Nat :=
  if !(s.is_filled || decide (frame_num ≤ s.num_allocated)) then s.num_allocated
  else find_opt arr arr_size s.frames frame_num (s.count + 1)

/-- States reachable after `k` references by a demand-paging run over `arr` with
`frame_num` slots: on a miss the page is written into some slot `index`, which is
the next free slot `num_allocated` as long as one exists. -/
inductive Reach (arr : List Int) (frame_num : Nat) : Nat → Core → Prop
  | init : Reach arr frame_num 0 (core_init frame_num)
  | step (k : Nat) (c : Core) (index : Nat) :
      Reach arr frame_num k c → k < arr.length → index < frame_num →
      (c.num_allocated < frame_num → index = c.num_allocated) →
      Reach arr frame_num (k + 1) (core_step frame_num (arr.getD k 0) index c)

/-- The distinct pages of a trace, in order of first occurrence. -/
def distinctPages (tr : List Int) : List Int := tr.reverse.dedup.reverse

/-- Number of slots of `frames` whose page is referenced among the next `j` references
of the remaining trace `rest`. -/
def futureCount (frames : List Int) (rest : List Int) (j : Nat) : Nat :=
  frames.countP (fun x => decide (x ∈ rest.take j))

/-- No page identifier occupies two slots; only the sentinel `-1` may repeat. -/
def UniquePages (frames : List Int) : Prop :=
  ∀ i j, i < j → j < frames.length → frames.getD i 0 = frames.getD j 0 →
    frames.getD i 0 = -1

/-- Facts that hold of every reachable state after `k` references. -/
structure GInv (arr : List Int) (n k : Nat) (c : Core) : Prop where
  len : c.frames.length = n
  uniq : ∀ x, x ≠ -1 → c.frames.count x ≤ 1
  sub : ∀ x ∈ c.frames, x = -1 ∨ x ∈ arr.take k
  filled_le : c.is_filled = true → n ≤ c.num_allocated
  dle : (distinctPages (arr.take k)).length ≤ c.num_allocated
  wu : (distinctPages (arr.take k)).length ≤ n →
    c.num_allocated = (distinctPages (arr.take k)).length ∧
    c.frames = distinctPages (arr.take k) ++
      List.replicate (n - (distinctPages (arr.take k)).length) (-1) ∧
    c.num_faults = 0
  full : n ≤ (distinctPages (arr.take k)).length → (-1 : Int) ∉ c.frames
  acct : 0 ≤ c.num_faults ∧ c.num_faults ≤ c.num_refs ∧ c.num_refs ≤ k

/-- The ages kept by `lru` after `k` references: an empty slot has age `k`, an occupied
slot has the number of references made since its page was last referenced. -/
def LruAges (arr : List Int) (k : Nat) (s : LruState) : Prop :=
  s.last_used.length = s.frames.length ∧
  ∀ j, j < s.frames.length →
    (s.frames.getD j 0 = -1 → s.last_used.getD j 0 = (k : Int)) ∧
    (s.frames.getD j 0 ≠ -1 →
      s.last_used.getD j 0 = (((arr.take k).reverse.indexOf (s.frames.getD j 0) : Nat) : Int))

/-- The next-use distance of page `x` in the words of the specification: the offset of
the first occurrence of `x` in `pages[num_read-1 .. num_pages-1]`, and infinite (`⊤`)
when `x` does not occur there. -/
def next_use_distance (pages : List Int) (num_pages num_read : Nat) (x : Int) : WithTop Nat :=
  if x ∈ (pages.take num_pages).drop (num_read - 1)
  then ((((pages.take num_pages).drop (num_read - 1)).indexOf x : Nat) : WithTop Nat)
  else ⊤


/-! ## Verbose mode: the runs on the caller's memory

The runs below are a second transcription of `fifo`, `lru` and `extra`, statement by
statement, on everything a call can reach: its local variables, the caller's array `arr`
and the text on stdout, with the flag `verbose`.  Every access `a[k]` made by the bodies
and by `display` is checked against the size of `a`, and `%` against a zero divisor: `none`
stands for undefined behaviour.  A callee that is passed an array may write to it, so
`display` returns the array `frames` together with the text. -/

/-- The conversion `%2d` of `printf`: the decimal digits, padded on the left to two
characters. -/
def fmt_2d (x : Int) : String :=
  if (toString x).length < 2 then " " ++ toString x else toString x

/-- A checked write `a[k] = v`. -/
def checked_set (a : List Int) (k : Nat) (v : Int) : Option (List Int) :=
  if k < a.length then some (a.set k v) else none

/-- A checked remainder `a % b` of non-negative `int`s. -/
def checked_mod (a b : Nat) : Option Nat :=
  if b = 0 then none else some (a % b)

/-- The loop `for (i = 0; i < num_frames-1; i++)` of `display`, on the array `frames` and
the text printed so far. -/
def display_loop : Nat → Nat → List Int × String → Option (List Int × String)
  | 0, _, d => some d
  | fuel + 1, i, d =>
    (d.1[i]?).bind fun v =>
    display_loop fuel (i + 1) (d.1, d.2 ++ (if v = -1 then "  |" else fmt_2d v ++ "|"))

/-- The function `display(frames, num_frames, page, faulted)`, called with the text `out`
on stdout: the array `frames` and the text after the call.  After the loop `i` is
`num_frames - 1`, and `0` when `num_frames` is `0`. -/
def display (frames : List Int) (num_frames : Nat) (page : Int) (faulted : Bool)
    (out : String) : Option (List Int × String) :=
  (display_loop (num_frames - 1) 0 (frames, out ++ (fmt_2d page ++ ": ["))).bind fun d =>
  (d.1[num_frames - 1]?).bind fun v =>
  some (d.1, (d.2 ++ (if v = -1 then "  " else fmt_2d v)) ++
    (if faulted then "] F\n" else "]\n"))

/-- A policy run together with what lies outside its local variables: the caller's trace
array and the text written to stdout. -/
structure Machine (σ : Type) where
  vars : σ
  arr : List Int
  stdout : String

/-- One iteration of the main loop of `fifo`, statement by statement, ending with
`if (verbose) display(frames, frame_num, arr[i], (faulted && is_filled));`. -/
def fifo_body_v (frame_num : Nat) (verbose : Bool) (i : Nat) (m : Machine FifoState) :
    Option (Machine FifoState) :=
  (m.arr[i]?).bind fun page =>
  let res := search m.vars.frames frame_num page
  let is_filled := m.vars.is_filled || decide (frame_num ≤ m.vars.num_allocated)
  let num_refs := if is_filled then m.vars.num_refs + 1 else m.vars.num_refs
  (if res = -1 then
    (checked_set m.vars.frames m.vars.pointer page).bind fun frames =>
    (checked_mod (m.vars.pointer + 1) frame_num).bind fun pointer =>
    some (true, m.vars.num_allocated + 1, frames, pointer)
  else some (false, m.vars.num_allocated, m.vars.frames, m.vars.pointer)).bind fun r =>
  let num_faults := if is_filled && r.1 then m.vars.num_faults + 1 else m.vars.num_faults
  (if verbose then display r.2.2.1 frame_num page (r.1 && is_filled) m.stdout
  else some (r.2.2.1, m.stdout)).bind fun d =>
  some { vars := { frames := d.1, num_faults := num_faults, num_refs := num_refs,
                   is_filled := is_filled, num_allocated := r.2.1, pointer := r.2.2.2 }
         arr := m.arr
         stdout := d.2 }

/-- The main loop of `fifo` with the verbose flag. -/
def fifo_loop_v (frame_num : Nat) (verbose : Bool) :
    Nat → Nat → Machine FifoState → Option (Machine FifoState)
  | 0, _, m => some m
  | fuel + 1, i, m =>
    (fifo_body_v frame_num verbose i m).bind fun m1 =>
    fifo_loop_v frame_num verbose fuel (i + 1) m1

/-- The function `fifo(arr, arr_size, frame_num, stats, verbose)` run on the caller's
memory: the final machine, whose `num_faults` and `num_refs` are stored in `stats`. -/
def fifo_v (arr : List Int) (arr_size : Nat) (frame_num : Nat) (verbose : Bool) :
    Option (Machine FifoState) :=
  fifo_loop_v frame_num verbose arr_size 0
    { vars := fifo_init frame_num, arr := arr, stdout := "" }

/-- One iteration of the main loop of `lru`, statement by statement, ending with
`if (verbose) display(frames, frame_num, arr[i], (faulted && is_filled));`. -/
def lru_body_v (frame_num : Nat) (verbose : Bool) (i : Nat) (m : Machine LruState) :
    Option (Machine LruState) :=
  let last_used := increment_arr m.vars.last_used frame_num
  (m.arr[i]?).bind fun page =>
  let res := search m.vars.frames frame_num page
  let is_filled := m.vars.is_filled || decide (frame_num ≤ m.vars.num_allocated)
  let num_refs := if is_filled then m.vars.num_refs + 1 else m.vars.num_refs
  (if res = -1 then
    (checked_set m.vars.frames (find_max last_used frame_num) page).bind fun frames =>
    (checked_set last_used (find_max last_used frame_num) 0).bind fun last_used1 =>
    some (true, m.vars.num_allocated + 1, frames, last_used1)
  else
    (checked_set last_used res.toNat 0).bind fun last_used1 =>
    some (false, m.vars.num_allocated, m.vars.frames, last_used1)).bind fun r =>
  let num_faults := if is_filled && r.1 then m.vars.num_faults + 1 else m.vars.num_faults
  (if verbose then display r.2.2.1 frame_num page (r.1 && is_filled) m.stdout
  else some (r.2.2.1, m.stdout)).bind fun d =>
  some { vars := { frames := d.1, last_used := r.2.2.2, num_faults := num_faults,
                   num_refs := num_refs, is_filled := is_filled, num_allocated := r.2.1 }
         arr := m.arr
         stdout := d.2 }

/-- The main loop of `lru` with the verbose flag. -/
def lru_loop_v (frame_num : Nat) (verbose : Bool) :
    Nat → Nat → Machine LruState → Option (Machine LruState)
  | 0, _, m => some m
  | fuel + 1, i, m =>
    (lru_body_v frame_num verbose i m).bind fun m1 =>
    lru_loop_v frame_num verbose fuel (i + 1) m1

/-- The function `lru(arr, arr_size, frame_num, stats, verbose)` run on the caller's
memory. -/
def lru_v (arr : List Int) (arr_size : Nat) (frame_num : Nat) (verbose : Bool) :
    Option (Machine LruState) :=
  lru_loop_v frame_num verbose arr_size 0
    { vars := lru_init frame_num, arr := arr, stdout := "" }

/-- One iteration of the main loop of `extra`, statement by statement, ending with
`if (verbose) display(frames, frame_num, arr[i], (faulted && is_filled));`. -/
def extra_body_v (arr_size : Nat) (frame_num : Nat) (verbose : Bool) (i : Nat)
    (m : Machine ExtraState) : Option (Machine ExtraState) :=
  (m.arr[i]?).bind fun page =>
  let res := search m.vars.frames frame_num page
  let count := m.vars.count + 1
  let is_filled := m.vars.is_filled || decide (frame_num ≤ m.vars.num_allocated)
  let num_refs := if is_filled then m.vars.num_refs + 1 else m.vars.num_refs
  (if res = -1 then
    (checked_set m.vars.frames
      (if !is_filled then m.vars.num_allocated
        else find_opt m.arr arr_size m.vars.frames frame_num count) page).bind fun frames =>
    some (true, m.vars.num_allocated + 1, frames)
  else some (false, m.vars.num_allocated, m.vars.frames)).bind fun r =>
  let num_faults := if is_filled && r.1 then m.vars.num_faults + 1 else m.vars.num_faults
  (if verbose then display r.2.2 frame_num page (r.1 && is_filled) m.stdout
  else some (r.2.2, m.stdout)).bind fun d =>
  some { vars := { frames := d.1, num_faults := num_faults, num_refs := num_refs,
                   is_filled := is_filled, count := count, num_allocated := r.2.1 }
         arr := m.arr
         stdout := d.2 }

/-- The main loop of `extra` with the verbose flag. -/
def extra_loop_v (arr_size : Nat) (frame_num : Nat) (verbose : Bool) :
    Nat → Nat → Machine ExtraState → Option (Machine ExtraState)
  | 0, _, m => some m
  | fuel + 1, i, m =>
    (extra_body_v arr_size frame_num verbose i m).bind fun m1 =>
    extra_loop_v arr_size frame_num verbose fuel (i + 1) m1

/-- The function `extra(arr, arr_size, frame_num, stats, verbose)` run on the caller's
memory. -/
def extra_v (arr : List Int) (arr_size : Nat) (frame_num : Nat) (verbose : Bool) :
    Option (Machine ExtraState) :=
  extra_loop_v arr_size frame_num verbose arr_size 0
    { vars := extra_init frame_num, arr := arr, stdout := "" }

/-! ## The drivers: pagesim.c and pagestats.c -/

/-- Two's-complement wrap-around of a 32-bit `int`. -/
def wrap32 (x : Int) : Int := (x + 2147483648) % 4294967296 - 2147483648

/-- The constant `MIN_MEMORY_FRAMES` of pagesim.c. -/
def pagesim.MIN_MEMORY_FRAMES : Int := 0

/-- The constant `MAX_MEMORY_FRAMES` of pagesim.c. -/
def pagesim.MAX_MEMORY_FRAMES : Int := 100

/-- The function `verify_input` of pagesim.c; `Except.error 1` stands for `exit(1)`. -/
def pagesim.verify_input (num_memory_frames : Int) (algo : String) : Except Int Unit :=
  if num_memory_frames < pagesim.MIN_MEMORY_FRAMES ∨
      num_memory_frames > pagesim.MAX_MEMORY_FRAMES then Except.error 1
  else if algo ≠ "lru" ∧ algo ≠ "fifo" ∧ algo ≠ "extra" then Except.error 1
  else Except.ok ()

/-- The function `verify_input` of pagestats.c; `Except.error 1` stands for `exit(1)`. -/
def pagestats.verify_input (min_frames max_frames frame_inc : Int) : Except Int Unit :=
  if min_frames < 2 then Except.error 1
  else if max_frames > 100 then Except.error 1
  else if min_frames > max_frames then Except.error 1
  else if frame_inc < 0 then Except.error 1
  else Except.ok ()

/-! ## The arithmetic of `double`

The miss rate is computed in `double`, the IEEE 754 binary64 format with rounding to the
nearest value, ties to the value with an even last digit.  A finite binary64 number is
represented by its value, a rational; the two zeros are not distinguished. -/

/-- Rounding to the nearest integer, a tie going to the even integer. -/
def round_half_even (x : ℚ) : Int :=
  if 2 * Int.fract x < 1 then ⌊x⌋
  else if 1 < 2 * Int.fract x then ⌊x⌋ + 1
  else if ⌊x⌋ % 2 = 0 then ⌊x⌋ else ⌊x⌋ + 1

/-- The exponent of the unit in the last place of the binary64 numbers around `x > 0`:
the significand has 53 bits, and the exponent of a binary64 number is at least `-1022`
(below `2 ^ (-1022)` the numbers are subnormal and equally spaced). -/
def ulp_exp (x : ℚ) : Int := max (Int.log 2 x) (-1022) - 52

/-- Rounding of `x > 0` to the nearest multiple of its unit in the last place. -/
def round64_pos (x : ℚ) : ℚ := (round_half_even (x / 2 ^ ulp_exp x) : ℚ) * 2 ^ ulp_exp x

/-- Rounding of a rational to binary64 with an unbounded exponent range. -/
def round64 (x : ℚ) : ℚ :=
  if x = 0 then 0 else if 0 < x then round64_pos x else - round64_pos (-x)

/-- A value of type `double`: not-a-number, an infinity, or a finite number. -/
inductive F64 where
  | nan : F64
  | inf (negative : Bool) : F64
  | fin (q : ℚ) : F64

/-- The binary64 result of an operation whose exact result is `x`: the rounded value, and
an infinity when the rounded value does not fit the exponent range. -/
def F64.round (x : ℚ) : F64 :=
  if (2 : ℚ) ^ (1024 : Int) ≤ |round64 x| then F64.inf (decide (x < 0)) else F64.fin (round64 x)

/-- The conversion of an `int` to `double`. -/
def F64.ofInt (n : Int) : F64 := F64.round (n : ℚ)

/-- The division of `double`s.  Dividing by zero raises no error: it gives an infinity, and
not-a-number for `0 / 0`. -/
def F64.div : F64 → F64 → F64
  | F64.fin a, F64.fin b =>
    if b = 0 then (if a = 0 then F64.nan else F64.inf (decide (a < 0)))
    else F64.round (a / b)
  | F64.fin _, F64.inf _ => F64.fin 0
  | F64.inf s, F64.fin b => F64.inf (xor s (decide (b < 0)))
  | F64.inf _, F64.inf _ => F64.nan
  | F64.nan, _ => F64.nan
  | _, F64.nan => F64.nan

/-- The multiplication of `double`s. -/
def F64.mul : F64 → F64 → F64
  | F64.fin a, F64.fin b => F64.round (a * b)
  | F64.fin a, F64.inf s => if a = 0 then F64.nan else F64.inf (xor s (decide (a < 0)))
  | F64.inf s, F64.fin b => if b = 0 then F64.nan else F64.inf (xor s (decide (b < 0)))
  | F64.inf s, F64.inf t => F64.inf (xor s t)
  | F64.nan, _ => F64.nan
  | _, F64.nan => F64.nan

/-- The miss rate computed at the end of `main` of pagesim.c:
`if (stats[1] == 0) miss_rate = NAN; else miss_rate = (((double) stats[0]) / stats[1]) * 100;`
where `stats[1]` and `100` are converted to `double` by the usual conversions. -/
def pagesim.main_miss_rate (stats : Int × Int) : F64 :=
  if stats.2 = 0 then F64.nan
  else F64.mul (F64.div (F64.ofInt stats.1) (F64.ofInt stats.2)) (F64.ofInt 100)

/-- The miss rate computed by `print_results` of pagestats.c:
`if (stats[1] == 0) miss_rate = NAN; else miss_rate = ((double) stats[0] / stats[1]) * 100;`. -/
def pagestats.print_results_miss_rate (stats : Int × Int) : F64 :=
  if stats.2 = 0 then F64.nan
  else F64.mul (F64.div (F64.ofInt stats.1) (F64.ofInt stats.2)) (F64.ofInt 100)

/-- The function `print_results` of pagestats.c: the arguments it passes to `printf`. -/
def pagestats.print_results (algo : String) (frame_num : Int) (stats : Int × Int) :
    String × Int × Int × Int × F64 :=
  (algo, frame_num, stats.1, stats.2, pagestats.print_results_miss_rate stats)

/-- A sweep loop `for (i = min_frames; i <= max_frames; i += frame_inc)` of `main` of
pagestats.c: the values of `i` with which the body (the call of a policy with frame count
`i`) runs during the first `fuel` iterations, the loop being entered with the given `i`.
The addition wraps around like a 32-bit `int`. -/
def pagestats.sweep (max_frames frame_inc : Int) : Nat → Int → List Int
  | 0, _ => []
  | fuel + 1, i =>
    if i ≤ max_frames then
      i :: pagestats.sweep max_frames frame_inc fuel (wrap32 (i + frame_inc))
    else []

/-! ## The trace generator: pagegenerator.c -/

/-- The loop `while (current == previous) current = random()%range;` of pagegenerator.c.
The successive values of `random()` are read from `rnd`; the result is the final `current`
and the unread values, and `none` when `rnd` is used up before the loop exits. -/
def pagegenerator.reject_loop (range : Int) (previous : Int) :
    Int → List Nat → Option (Int × List Nat)
  | current, [] => if current = previous then none else some (current, [])
  | current, r :: rs =>
    if current = previous then pagegenerator.reject_loop range previous ((r : Int) % range) rs
    else some (current, r :: rs)

/-- The loop `for (i = 0; i < count; i++)` of pagegenerator.c: the values written to the
output file while values of `random()` remain in `rnd`; `fuel` is `count - i`. -/
def pagegenerator.generate (range : Int) : Nat → Int → List Nat → List Int
  | 0, _, _ => []
  | _ + 1, _, [] => []
  | fuel + 1, previous, r :: rs =>
    match pagegenerator.reject_loop range previous ((r : Int) % range) rs with
    | none => []
    | some (current, rest) => current :: pagegenerator.generate range fuel current rest

/-- The function `main` of pagegenerator.c from the check of `range` and `count` on: the
values written to the output file, or `Except.error 1` for `exit(1)`. -/
def pagegenerator.main (range count : Int) (rnd : List Nat) : Except Int (List Int) :=
  if range > 100 ∨ range < 1 then Except.error 1
  else if count < 1 then Except.error 1
  else Except.ok (pagegenerator.generate range count.toNat 0 rnd)

/-! ## Ghost record of the loading steps of `fifo` -/

/-- For each slot of `fifo`, the number (counted from 1) of the step that last wrote the
slot during the first `k` steps, and `0` if no step wrote it. -/
def fifo_load_times (arr : List Int) (frame_num : Nat) : Nat → List Nat
  | 0 => List.replicate frame_num 0
  | k + 1 =>
    if search (fifo_run arr frame_num k).frames frame_num (arr.getD k 0) = -1
    then (fifo_load_times arr frame_num k).set (fifo_run arr frame_num k).pointer (k + 1)
    else fifo_load_times arr frame_num k


/-! ## Reads of `find_opt` and the filling step -/

/-- The indices at which the inner loop of `find_opt` reads `pages` for one frame: the
same recursion as `find_opt_scan`, recording each `pages[j]` that is compared. -/
def find_opt_scan_reads (pages : List Int) (frame : Int) : Nat → Nat → List Nat
  | 0, _ => []
  | fuel + 1, j =>
    if pages.getD j 0 = frame then [j]
    else j :: find_opt_scan_reads pages frame fuel (j + 1)

/-- The index of the first occurrence in the trace of its `frame_num`-th distinct page. -/
def fill_index (trace : List Int) (frame_num : Nat) : Nat :=
  trace.indexOf ((distinctPages trace).getD (frame_num - 1) 0)


/-- Number of misses among the first `k` references of a run whose frame table before
reference `i` is `frames_at i`: the references for which `search` answers `-1`. -/
def miss_count (frames_at : Nat → List Int) (arr : List Int) (frame_num : Nat) (k : Nat) : Nat :=
  (List.range k).countP (fun i => decide (search (frames_at i) frame_num (arr.getD i 0) = -1))


/-! ## The cache lab (lab2): optimized.c and refcode.c

The global `list` and the local arrays are lists of their cells.  A two-dimensional array
`c[N][N]` is the list of its `N * N` cells in row-major order, `c[i][j]` being cell
`i * N + j`, as the compiler lays it out.  In `level_3` and `level_5` every access to `c`
and every write to `C` is checked against the size of the memory passed in: an access to
a cell outside the list stops the run with `Except.error` and the offending index.  The
sizes `N`, `DIM2`, `LARGE` and the block size are parameters of the embedded functions,
so that they can be evaluated on small instances; the program fixes them as preprocessor
constants. -/

/-- The constant `N` of optimized.c and refcode.c. -/
def N : Nat := 1024

/-- The constant `DIM2` of optimized.c and refcode.c. -/
def DIM2 : Nat := 128

/-- The constant `LARGE` of optimized.c and refcode.c. -/
def LARGE : Nat := 10000

/-- A checked read of cell `k` of an array. -/
def mem_read {α : Type} (m : List α) (k : Nat) : Except Nat α :=
  match m[k]? with
  | some v => Except.ok v
  | none => Except.error k

/-- A checked write of cell `k` of an array. -/
def mem_write {α : Type} (m : List α) (k : Nat) (v : α) : Except Nat (List α) :=
  if k < m.length then Except.ok (m.set k v) else Except.error k

/-- The body of the loops of `level_3` of optimized.c:
`temp = c[i][j]; c[i][j] = c[i][N-j]; c[i][N-j] = temp;`. -/
def optimized.level_3_body (n i j : Nat) (c : List Int) : Except Nat (List Int) :=
  (mem_read c (i * n + j)).bind fun temp =>
  (mem_read c (i * n + (n - j))).bind fun v =>
  (mem_write c (i * n + j) v).bind fun c1 =>
  mem_write c1 (i * n + (n - j)) temp

/-- The loop `for (j = 0; j < N >> 1; j++)` of `level_3` of optimized.c. -/
def optimized.level_3_inner (n i : Nat) : Nat → Nat → List Int → Except Nat (List Int)
  | 0, _, c => Except.ok c
  | fuel + 1, j, c =>
    (optimized.level_3_body n i j c).bind fun c1 =>
    optimized.level_3_inner n i fuel (j + 1) c1

/-- The loop `for (i = 0; i < N; i++)` of `level_3` of optimized.c. -/
def optimized.level_3_outer (n : Nat) : Nat → Nat → List Int → Except Nat (List Int)
  | 0, _, c => Except.ok c
  | fuel + 1, i, c =>
    (optimized.level_3_inner n i (n >>> 1) 0 c).bind fun c1 =>
    optimized.level_3_outer n fuel (i + 1) c1

/-- The function `level_3` of optimized.c on the memory `c`, for an `n × n` matrix. -/
def optimized.level_3 (n : Nat) (c : List Int) : Except Nat (List Int) :=
  optimized.level_3_outer n n 0 c

/-- The loop `for (i = 1; i < j; i++)` of `level_4` of refcode.c. -/
def refcode.level_4_inner : Nat → Nat → List Int → List Int
  | 0, _, list => list
  | fuel + 1, i, list =>
    refcode.level_4_inner fuel (i + 1)
      (if list.getD (i - 1) 0 > list.getD i 0 then
        (list.set (i - 1) (list.getD i 0)).set i (list.getD (i - 1) 0)
      else list)

/-- The loop `for (j = LARGE; j >= 2; j--)` of `level_4` of refcode.c. -/
def refcode.level_4_outer : Nat → Nat → List Int → List Int
  | 0, _, list => list
  | fuel + 1, j, list =>
    refcode.level_4_outer fuel (j - 1) (refcode.level_4_inner (j - 1) 1 list)

/-- The function `level_4` of refcode.c (bubble sort) on a `list` of `large` cells; the
outer loop makes `large - 1` iterations. -/
def refcode.level_4 (large : Nat) (list : List Int) : List Int :=
  refcode.level_4_outer (large - 1) large list

/-- The loop `for (j = k; j > i; j--)` of `level_4` of optimized.c. -/
def optimized.level_4_back : Nat → Nat → List Int → List Int
  | 0, _, list => list
  | fuel + 1, j, list =>
    optimized.level_4_back fuel (j - 1)
      (if list.getD j 0 < list.getD (j - 1) 0 then
        (list.set j (list.getD (j - 1) 0)).set (j - 1) (list.getD j 0)
      else list)

/-- The loop `for (j = i; j < k; j++)` of `level_4` of optimized.c, on `list` and the
flag `sorted`. -/
def optimized.level_4_fwd : Nat → Nat → List Int × Bool → List Int × Bool
  | 0, _, s => s
  | fuel + 1, j, s =>
    optimized.level_4_fwd fuel (j + 1)
      (if s.1.getD (j + 1) 0 < s.1.getD j 0 then
        ((s.1.set j (s.1.getD (j + 1) 0)).set (j + 1) (s.1.getD j 0), false)
      else s)

/-- The loop `for (i = 0; i < k; )` of `level_4` of optimized.c.  The loop is not
bounded by a counter, so it is run for at most `fuel` iterations: `none` means that the
loop has not ended within them. -/
def optimized.level_4_loop : Nat → Nat → Nat → List Int → Option (List Int)
  | 0, i, k, list => if i < k then none else some list
  | fuel + 1, i, k, list =>
    if i < k then
      let r := optimized.level_4_fwd (k - (i + 1)) (i + 1)
        (optimized.level_4_back (k - i) k list, true)
      if r.2 then some r.1 else optimized.level_4_loop fuel (i + 1) (k - 1) r.1
    else some list

/-- The function `level_4` of optimized.c (shaker sort) on a `list` of `large` cells. -/
def optimized.level_4 (large : Nat) (fuel : Nat) (list : List Int) : Option (List Int) :=
  optimized.level_4_loop fuel 0 (large - 1) list

/-- The loop `for (j = jj; j < MIN(jj + bsize, n); j++) C[i + j * n] = 0.0;`. -/
def optimized.level_5_zero_j (n i : Nat) : Nat → Nat → List ℚ → Except Nat (List ℚ)
  | 0, _, C => Except.ok C
  | fuel + 1, j, C =>
    (mem_write C (i + j * n) 0).bind fun C1 =>
    optimized.level_5_zero_j n i fuel (j + 1) C1

/-- The loop `for (i = 0; i < n; i++)` around the zeroing loop, `jend` being
`MIN(jj + bsize, n)`. -/
def optimized.level_5_zero_i (n jj jend : Nat) : Nat → Nat → List ℚ → Except Nat (List ℚ)
  | 0, _, C => Except.ok C
  | fuel + 1, i, C =>
    (optimized.level_5_zero_j n i (jend - jj) jj C).bind fun C1 =>
    optimized.level_5_zero_i n jj jend fuel (i + 1) C1

/-- The loop `for (j = jj; j < MIN(jj + bsize, n); j++) sum += A[i + k * n] * B[k + j * n];`:
the final values of `sum` and of `j`. -/
def optimized.level_5_sum (n i k : Nat) (A B : List ℚ) : Nat → Nat → ℚ → ℚ × Nat
  | 0, j, sum => (sum, j)
  | fuel + 1, j, sum =>
    optimized.level_5_sum n i k A B fuel (j + 1)
      (sum + A.getD (i + k * n) 0 * B.getD (k + j * n) 0)

/-- The loop `for (k = kk; k < MIN(kk + bsize, n); k++)` of `level_5` of optimized.c:
`sum = 0.0;`, the summing loop, then `C[i + j * n] += sum;` with the value that the
summing loop has left in `j`. -/
def optimized.level_5_k (n i jj jend : Nat) (A B : List ℚ) :
    Nat → Nat → List ℚ → Except Nat (List ℚ)
  | 0, _, C => Except.ok C
  | fuel + 1, k, C =>
    (mem_read C (i + (optimized.level_5_sum n i k A B (jend - jj) jj 0).2 * n)).bind fun old =>
    (mem_write C (i + (optimized.level_5_sum n i k A B (jend - jj) jj 0).2 * n)
      (old + (optimized.level_5_sum n i k A B (jend - jj) jj 0).1)).bind fun C1 =>
    optimized.level_5_k n i jj jend A B fuel (k + 1) C1

/-- The loop `for (i = 0; i < n; i++)` inside the loop over `kk`, `kend` being
`MIN(kk + bsize, n)`. -/
def optimized.level_5_i (n jj jend kk kend : Nat) (A B : List ℚ) :
    Nat → Nat → List ℚ → Except Nat (List ℚ)
  | 0, _, C => Except.ok C
  | fuel + 1, i, C =>
    (optimized.level_5_k n i jj jend A B (kend - kk) kk C).bind fun C1 =>
    optimized.level_5_i n jj jend kk kend A B fuel (i + 1) C1

/-- The loop `for (kk = 0; kk < n; kk += bsize)` of `level_5` of optimized.c. -/
def optimized.level_5_kk (n bsize jj : Nat) (A B : List ℚ) :
    Nat → Nat → List ℚ → Except Nat (List ℚ)
  | 0, _, C => Except.ok C
  | fuel + 1, kk, C =>
    (optimized.level_5_i n jj (min (jj + bsize) n) kk (min (kk + bsize) n) A B n 0 C).bind
      fun C1 => optimized.level_5_kk n bsize jj A B fuel (kk + bsize) C1

/-- The loop `for (jj = 0; jj < n; jj += bsize)` of `level_5` of optimized.c. -/
def optimized.level_5_jj (n bsize : Nat) (A B : List ℚ) :
    Nat → Nat → List ℚ → Except Nat (List ℚ)
  | 0, _, C => Except.ok C
  | fuel + 1, jj, C =>
    (optimized.level_5_zero_i n jj (min (jj + bsize) n) n 0 C).bind fun C1 =>
    (optimized.level_5_kk n bsize jj A B ((n + bsize - 1) / bsize) 0 C1).bind fun C2 =>
    optimized.level_5_jj n bsize A B fuel (jj + bsize) C2

/-- The function `level_5` of optimized.c for `n × n` column-major matrices and block
size `bsize ≥ 1`, the loops over `jj` and `kk` making `⌈n / bsize⌉` iterations; the
program has `n = DIM2` and `bsize = 15`.  The reads of `A` and `B` are made at indices
`i + k * n` and `k + j * n` with `i, j, k < n`. -/
def optimized.level_5 (n bsize : Nat) (A B C : List ℚ) : Except Nat (List ℚ) :=
  optimized.level_5_jj n bsize A B ((n + bsize - 1) / bsize) 0 C

/-- The loop `for (k = 0; k < n; k++) C[i+j*n] += A[i+k*n] * B[k+j*n];` of `level_5` of
refcode.c. -/
def refcode.level_5_k (n i j : Nat) (A B : List ℚ) : Nat → Nat → List ℚ → List ℚ
  | 0, _, C => C
  | fuel + 1, k, C =>
    refcode.level_5_k n i j A B fuel (k + 1)
      (C.set (i + j * n) (C.getD (i + j * n) 0 + A.getD (i + k * n) 0 * B.getD (k + j * n) 0))

/-- The loop `for (j = 0; j < n; j++)` of `level_5` of refcode.c. -/
def refcode.level_5_j (n i : Nat) (A B : List ℚ) : Nat → Nat → List ℚ → List ℚ
  | 0, _, C => C
  | fuel + 1, j, C =>
    refcode.level_5_j n i A B fuel (j + 1) (refcode.level_5_k n i j A B n 0 C)

/-- The loop `for (i = 0; i < n; i++)` of `level_5` of refcode.c. -/
def refcode.level_5_i (n : Nat) (A B : List ℚ) : Nat → Nat → List ℚ → List ℚ
  | 0, _, C => C
  | fuel + 1, i, C =>
    refcode.level_5_i n A B fuel (i + 1) (refcode.level_5_j n i A B n 0 C)

/-- The function `level_5` of refcode.c for `n × n` column-major matrices. -/
def refcode.level_5 (n : Nat) (A B C : List ℚ) : List ℚ :=
  refcode.level_5_i n A B n 0 C

/-- Compare and exchange of the adjacent cells `a` and `a + 1`, the step that all the
passes of both versions of `level_4` make. -/
def cmp_swap (l : List Int) (a : Nat) : List Int :=
  if l.getD (a + 1) 0 < l.getD a 0 then (l.set a (l.getD (a + 1) 0)).set (a + 1) (l.getD a 0)
  else l

/-- Every pair of cells of which the first lies before `i` or the second after `k` is
in order: the cells before `i` and after `k` are in their final places. -/
def Settled (i k : Nat) (l : List Int) : Prop :=
  ∀ a b, a < b → b < l.length → (a < i ∨ k < b) → l.getD a 0 ≤ l.getD b 0

/-- The list `r` differs from `l` only by a rearrangement of the cells `lo .. hi`. -/
def SegPerm (lo hi : Nat) (l r : List Int) : Prop :=
  r.length = l.length ∧ r.Perm l ∧
  (∀ t, t < lo ∨ hi < t → r.getD t 0 = l.getD t 0) ∧
  (∀ P : Int → Prop, (∀ t, lo ≤ t → t ≤ hi → P (l.getD t 0)) →
    ∀ t, lo ≤ t → t ≤ hi → P (r.getD t 0))


/-! ## Properties of the helpers -/

theorem getD_set_eq (l : List Int) (i j : Nat) (v : Int) :
    (l.set i v).getD j 0 = if i = j ∧ j < l.length then v else l.getD j 0 := by
  by_cases hj : j < l.length
  · have hj' : j < (l.set i v).length := by simpa using hj
    rw [List.getD_eq_getElem _ _ hj', List.getD_eq_getElem _ _ hj, List.getElem_set]
    by_cases hij : i = j <;> simp [hij, hj]
  · have hj' : (l.set i v).length ≤ j := by simpa using hj
    rw [List.getD_eq_default _ _ hj', List.getD_eq_default _ _ (by omega)]
    simp [hj]

theorem mem_iff_getD (l : List Int) (x : Int) :
    x ∈ l ↔ ∃ j, j < l.length ∧ l.getD j 0 = x := by
  rw [List.mem_iff_getElem]
  constructor
  · rintro ⟨j, hj, h⟩
    exact ⟨j, hj, by rw [List.getD_eq_getElem _ _ hj]; exact h⟩
  · rintro ⟨j, hj, h⟩
    exact ⟨j, hj, by rw [List.getD_eq_getElem _ _ hj] at h; exact h⟩

theorem getD_mem (l : List Int) (j : Nat) (hj : j < l.length) : l.getD j 0 ∈ l :=
  (mem_iff_getD l _).2 ⟨j, hj, rfl⟩

/-- The loop of `search` answers `-1` exactly when no index of the scanned range holds
the item. -/
theorem search_loop_eq_neg_one (arr : List Int) (item : Int) :
    ∀ fuel i, search_loop arr item fuel i = -1 ↔
      ∀ j, i ≤ j → j < i + fuel → arr.getD j 0 ≠ item := by
  intro fuel
  induction fuel with
  | zero => intro i; simp [search_loop]; intro j h1 h2; omega
  | succ f ih =>
    intro i
    unfold search_loop
    by_cases h : arr.getD i 0 = item
    · simp only [h, if_true]
      constructor
      · intro h'; omega
      · intro h'; exact absurd h (h' i (le_refl _) (by omega))
    · simp only [h, if_false]
      rw [ih (i + 1)]
      constructor
      · intro h' j h1 h2
        by_cases hij : i = j
        · subst hij; exact h
        · exact h' j (by omega) (by omega)
      · intro h' j h1 h2
        exact h' j (by omega) (by omega)

/-- When `search` does not answer `-1` it answers the first index holding the item. -/
theorem search_loop_found (arr : List Int) (item : Int) :
    ∀ fuel i, search_loop arr item fuel i ≠ -1 →
      ∃ j : Nat, search_loop arr item fuel i = (j : Int) ∧ i ≤ j ∧ j < i + fuel ∧
        arr.getD j 0 = item ∧ ∀ t, i ≤ t → t < j → arr.getD t 0 ≠ item := by
  intro fuel
  induction fuel with
  | zero => intro i h; simp [search_loop] at h
  | succ f ih =>
    intro i h
    unfold search_loop at h ⊢
    by_cases hi : arr.getD i 0 = item
    · simp only [hi, if_true]
      exact ⟨i, rfl, le_refl _, by omega, hi, fun t h1 h2 => by omega⟩
    · simp only [hi, if_false] at h ⊢
      obtain ⟨j, hj, h1, h2, h3, h4⟩ := ih (i + 1) h
      refine ⟨j, hj, by omega, by omega, h3, ?_⟩
      intro t ht1 ht2
      by_cases hit : i = t
      · subst hit; exact hi
      · exact h4 t (by omega) ht2

theorem search_eq_neg_one_iff (frames : List Int) (x : Int) :
    search frames frames.length x = -1 ↔ x ∉ frames := by
  unfold search
  rw [search_loop_eq_neg_one, mem_iff_getD]
  constructor
  · rintro h ⟨j, hj, hx⟩
    exact h j (Nat.zero_le _) (by omega) hx
  · intro h j _ hj hx
    exact h ⟨j, by omega, hx⟩

theorem search_found (frames : List Int) (x : Int) (h : search frames frames.length x ≠ -1) :
    ∃ j : Nat, search frames frames.length x = (j : Int) ∧ j < frames.length ∧
      frames.getD j 0 = x := by
  obtain ⟨j, h1, _, h3, h4, _⟩ := search_loop_found frames x frames.length 0 h
  exact ⟨j, h1, by omega, h4⟩

theorem increment_loop_length : ∀ (fuel : Nat) (arr : List Int) (i : Nat),
    (increment_loop arr fuel i).length = arr.length := by
  intro fuel
  induction fuel with
  | zero => intro arr i; rfl
  | succ f ih => intro arr i; unfold increment_loop; rw [ih]; simp

theorem increment_loop_getD : ∀ (fuel : Nat) (arr : List Int) (i j : Nat),
    (increment_loop arr fuel i).getD j 0 =
      if i ≤ j ∧ j < i + fuel ∧ j < arr.length then arr.getD j 0 + 1 else arr.getD j 0 := by
  intro fuel
  induction fuel with
  | zero =>
    intro arr i j
    have : ¬ (i ≤ j ∧ j < i + 0 ∧ j < arr.length) := by omega
    simp only [this, if_false]; rfl
  | succ f ih =>
    intro arr i j
    unfold increment_loop
    rw [ih, getD_set_eq]
    simp only [List.length_set]
    by_cases h1 : i = j
    · subst h1
      by_cases h2 : i < arr.length
      · have : ¬ (i + 1 ≤ i ∧ i < i + 1 + f ∧ i < arr.length) := by omega
        have h3 : (i ≤ i ∧ i < i + (f + 1) ∧ i < arr.length) := by omega
        simp [this, h3, h2]
      · have : ¬ (i + 1 ≤ i ∧ i < i + 1 + f ∧ i < arr.length) := by omega
        have h3 : ¬ (i ≤ i ∧ i < i + (f + 1) ∧ i < arr.length) := by omega
        simp [this, h3, h2]
    · have e : (i + 1 ≤ j ∧ j < i + 1 + f ∧ j < arr.length) ↔
          (i ≤ j ∧ j < i + (f + 1) ∧ j < arr.length) := by omega
      simp only [e]
      have : ¬ (i = j ∧ j < arr.length) := by omega
      simp [this]

theorem increment_arr_length (arr : List Int) (size : Nat) :
    (increment_arr arr size).length = arr.length :=
  increment_loop_length size arr 0

theorem increment_arr_getD (arr : List Int) (j : Nat) (hj : j < arr.length) :
    (increment_arr arr arr.length).getD j 0 = arr.getD j 0 + 1 := by
  unfold increment_arr
  rw [increment_loop_getD]
  have : (0 ≤ j ∧ j < 0 + arr.length ∧ j < arr.length) := by omega
  simp [this]

theorem find_max_loop_spec (arr : List Int) :
    ∀ fuel i mx, mx < i → (∀ j, j < i → arr.getD j 0 ≤ arr.getD mx 0) →
      (∀ j, j < mx → arr.getD j 0 < arr.getD mx 0) →
      find_max_loop arr fuel i mx < i + fuel ∧
      (∀ j, j < i + fuel → arr.getD j 0 ≤ arr.getD (find_max_loop arr fuel i mx) 0) ∧
      (∀ j, j < find_max_loop arr fuel i mx →
        arr.getD j 0 < arr.getD (find_max_loop arr fuel i mx) 0) := by
  intro fuel
  induction fuel with
  | zero =>
    intro i mx h1 h2 h3
    exact ⟨by simpa [find_max_loop] using h1, by simpa [find_max_loop] using h2,
      by simpa [find_max_loop] using h3⟩
  | succ f ih =>
    intro i mx h1 h2 h3
    unfold find_max_loop
    by_cases hgt : arr.getD i 0 > arr.getD mx 0
    · simp only [hgt, if_true]
      have := ih (i + 1) i (by omega)
        (fun j hj => by
          by_cases hji : j = i
          · subst hji; exact le_refl _
          · have := h2 j (by omega); omega)
        (fun j hj => by have := h2 j hj; omega)
      refine ⟨by omega, fun j hj => this.2.1 j (by omega), this.2.2⟩
    · simp only [hgt, if_false]
      have := ih (i + 1) mx (by omega)
        (fun j hj => by
          by_cases hji : j = i
          · subst hji; omega
          · exact h2 j (by omega))
        h3
      refine ⟨by omega, fun j hj => this.2.1 j (by omega), this.2.2⟩

/-- The result of `find_max` is the first index of the maximum. -/
theorem find_max_spec (arr : List Int) (size : Nat) (h : 1 ≤ size) :
    find_max arr size < size ∧
    (∀ j, j < size → arr.getD j 0 ≤ arr.getD (find_max arr size) 0) ∧
    (∀ j, j < find_max arr size → arr.getD j 0 < arr.getD (find_max arr size) 0) := by
  have := find_max_loop_spec arr (size - 1) 1 0 (by omega)
    (fun j hj => by have : j = 0 := by omega
                    subst this; exact le_refl _)
    (fun j hj => by omega)
  unfold find_max
  have e : 1 + (size - 1) = size := by omega
  rw [e] at this
  exact this

/-! ## Unrolling the main loops -/

theorem fifo_loop_succ (arr : List Int) (n : Nat) :
    ∀ fuel i s, fifo_loop arr n (fuel + 1) i s =
      fifo_body arr n (i + fuel) (fifo_loop arr n fuel i s) := by
  intro fuel
  induction fuel with
  | zero => intro i s; rfl
  | succ f ih =>
    intro i s
    show fifo_loop arr n (f + 1) (i + 1) (fifo_body arr n i s) = _
    rw [ih]
    have : i + 1 + f = i + (f + 1) := by omega
    rw [this]
    rfl

theorem fifo_run_succ (arr : List Int) (n k : Nat) :
    fifo_run arr n (k + 1) = fifo_body arr n k (fifo_run arr n k) := by
  unfold fifo_run
  rw [fifo_loop_succ, Nat.zero_add]

theorem lru_loop_succ (arr : List Int) (n : Nat) :
    ∀ fuel i s, lru_loop arr n (fuel + 1) i s =
      lru_body arr n (i + fuel) (lru_loop arr n fuel i s) := by
  intro fuel
  induction fuel with
  | zero => intro i s; rfl
  | succ f ih =>
    intro i s
    show lru_loop arr n (f + 1) (i + 1) (lru_body arr n i s) = _
    rw [ih]
    have : i + 1 + f = i + (f + 1) := by omega
    rw [this]
    rfl

theorem lru_run_succ (arr : List Int) (n k : Nat) :
    lru_run arr n (k + 1) = lru_body arr n k (lru_run arr n k) := by
  unfold lru_run
  rw [lru_loop_succ, Nat.zero_add]

theorem extra_loop_succ (arr : List Int) (sz n : Nat) :
    ∀ fuel i s, extra_loop arr sz n (fuel + 1) i s =
      extra_body arr sz n (i + fuel) (extra_loop arr sz n fuel i s) := by
  intro fuel
  induction fuel with
  | zero => intro i s; rfl
  | succ f ih =>
    intro i s
    show extra_loop arr sz n (f + 1) (i + 1) (extra_body arr sz n i s) = _
    rw [ih]
    have : i + 1 + f = i + (f + 1) := by omega
    rw [this]
    rfl

theorem extra_run_succ (arr : List Int) (sz n k : Nat) :
    extra_run arr sz n (k + 1) = extra_body arr sz n k (extra_run arr sz n k) := by
  unfold extra_run
  rw [extra_loop_succ, Nat.zero_add]

theorem fifo_body_core (arr : List Int) (n i : Nat) (s : FifoState) :
    (fifo_body arr n i s).core = core_step n (arr.getD i 0) s.pointer s.core := rfl

theorem lru_body_core (arr : List Int) (n i : Nat) (s : LruState) :
    (lru_body arr n i s).core =
      core_step n (arr.getD i 0) (find_max (increment_arr s.last_used n) n) s.core := rfl

theorem extra_body_core (arr : List Int) (sz n i : Nat) (s : ExtraState) :
    (extra_body arr sz n i s).core =
      core_step n (arr.getD i 0) (extra_index arr sz n s) s.core := rfl

theorem extra_run_count (arr : List Int) (sz n : Nat) :
    ∀ k, (extra_run arr sz n k).count = k := by
  intro k
  induction k with
  | zero => rfl
  | succ k ih => rw [extra_run_succ]; simp [extra_body, ih]

/-! ## Distinct pages of a prefix -/

theorem take_succ_getD (arr : List Int) (k : Nat) (hk : k < arr.length) :
    arr.take (k + 1) = arr.take k ++ [arr.getD k 0] := by
  rw [List.take_succ, List.getD_eq_getElem _ _ hk, List.getElem?_eq_getElem hk]
  rfl

theorem distinctPages_snoc (tr : List Int) (p : Int) :
    distinctPages (tr ++ [p]) =
      if p ∈ tr then distinctPages tr else distinctPages tr ++ [p] := by
  unfold distinctPages
  rw [List.reverse_append, List.reverse_singleton, List.singleton_append]
  by_cases h : p ∈ tr
  · rw [List.dedup_cons_of_mem (by simpa using h)]
    simp [h]
  · rw [List.dedup_cons_of_not_mem (by simpa using h)]
    simp [h]

theorem mem_distinctPages (tr : List Int) (x : Int) : x ∈ distinctPages tr ↔ x ∈ tr := by
  unfold distinctPages
  simp

theorem nodup_distinctPages (tr : List Int) : (distinctPages tr).Nodup := by
  unfold distinctPages
  exact List.nodup_reverse.2 (List.nodup_dedup _)

theorem distinctPages_length (tr : List Int) :
    (distinctPages tr).length = tr.dedup.length := by
  unfold distinctPages
  rw [List.length_reverse]
  exact (List.Perm.dedup (List.reverse_perm tr)).length_eq

theorem distinctPages_nil : distinctPages [] = [] := rfl

/-! ## The shared step -/

theorem core_step_frames (n : Nat) (p : Int) (idx : Nat) (c : Core) (hlen : c.frames.length = n) :
    (core_step n p idx c).frames = if p ∈ c.frames then c.frames else c.frames.set idx p := by
  have h := search_eq_neg_one_iff c.frames p
  rw [hlen] at h
  by_cases hp : p ∈ c.frames
  · have : ¬ search c.frames n p = -1 := fun e => (h.1 e) hp
    simp [core_step, hp, this]
  · have : search c.frames n p = -1 := h.2 hp
    simp [core_step, hp, this]

theorem core_step_num_allocated (n : Nat) (p : Int) (idx : Nat) (c : Core)
    (hlen : c.frames.length = n) :
    (core_step n p idx c).num_allocated =
      if p ∈ c.frames then c.num_allocated else c.num_allocated + 1 := by
  have h := search_eq_neg_one_iff c.frames p
  rw [hlen] at h
  by_cases hp : p ∈ c.frames
  · have : ¬ search c.frames n p = -1 := fun e => (h.1 e) hp
    simp [core_step, hp, this]
  · have : search c.frames n p = -1 := h.2 hp
    simp [core_step, hp, this]

theorem core_step_is_filled (n : Nat) (p : Int) (idx : Nat) (c : Core) :
    (core_step n p idx c).is_filled = (c.is_filled || decide (n ≤ c.num_allocated)) := rfl

theorem core_step_num_faults (n : Nat) (p : Int) (idx : Nat) (c : Core)
    (hlen : c.frames.length = n) :
    (core_step n p idx c).num_faults =
      if (c.is_filled = true ∨ n ≤ c.num_allocated) ∧ p ∉ c.frames
      then c.num_faults + 1 else c.num_faults := by
  have h := search_eq_neg_one_iff c.frames p
  rw [hlen] at h
  by_cases hp : p ∈ c.frames
  · have : ¬ search c.frames n p = -1 := fun e => (h.1 e) hp
    simp [core_step, hp, this]
  · have : search c.frames n p = -1 := h.2 hp
    simp [core_step, hp, this]

theorem core_step_num_refs (n : Nat) (p : Int) (idx : Nat) (c : Core) :
    (core_step n p idx c).num_refs =
      if (c.is_filled = true ∨ n ≤ c.num_allocated) then c.num_refs + 1 else c.num_refs := by
  simp [core_step]

/-! ## Invariants of reachable states -/

theorem set_append_replicate (l : List Int) (m : Nat) (p : Int) (hm : 0 < m) :
    (l ++ List.replicate m (-1)).set l.length p =
      (l ++ [p]) ++ List.replicate (m - 1) (-1) := by
  obtain ⟨m', rfl⟩ : ∃ m', m = m' + 1 := ⟨m - 1, by omega⟩
  rw [List.set_append]
  simp [List.replicate_succ]

theorem GInv_init (arr : List Int) (n : Nat) (hn : 1 ≤ n) : GInv arr n 0 (core_init n) := by
  refine ⟨by simp [core_init], ?_, ?_, by simp [core_init], by simp [core_init, distinctPages_nil],
    ?_, ?_, by simp [core_init]⟩
  · intro x hx
    have : x ∉ (core_init n).frames := by
      simp only [core_init, List.mem_replicate]
      rintro ⟨_, h⟩; exact hx h
    rw [List.count_eq_zero_of_not_mem this]
    omega
  · intro x hx
    simp only [core_init, List.mem_replicate] at hx
    exact Or.inl hx.2
  · intro _
    simp [core_init, distinctPages_nil]
  · intro h
    simp [distinctPages_nil] at h
    omega

theorem GInv_step (arr : List Int) (n k : Nat) (c : Core) (idx : Nat)
    (hpos : ∀ p ∈ arr, 0 ≤ p) (hk : k < arr.length) (hidx : idx < n)
    (hseq : c.num_allocated < n → idx = c.num_allocated) (h : GInv arr n k c) :
    GInv arr n (k + 1) (core_step n (arr.getD k 0) idx c) := by
  have hp0 : 0 ≤ arr.getD k 0 := hpos _ (getD_mem arr k hk)
  have htake := take_succ_getD arr k hk
  have hdp := distinctPages_snoc (arr.take k) (arr.getD k 0)
  rw [← htake] at hdp
  generalize arr.getD k 0 = p at *
  have hp1 : p ≠ -1 := by omega
  have hF := core_step_frames n p idx c h.len
  have hA := core_step_num_allocated n p idx c h.len
  have hI := core_step_is_filled n p idx c
  have hN := core_step_num_faults n p idx c h.len
  have hR := core_step_num_refs n p idx c
  have hsubtake : ∀ x, x ∈ arr.take k → x ∈ arr.take (k + 1) := by
    intro x hx; rw [htake]; exact List.mem_append_left _ hx
  obtain ⟨a0, a1, a2⟩ := h.acct
  by_cases hp : p ∈ c.frames
  · -- hit
    have hpin : p ∈ arr.take k := by
      rcases h.sub p hp with h' | h'
      · exact absurd h' hp1
      · exact h'
    simp only [hp, if_true] at hF hA
    simp only [hpin, if_true] at hdp
    have hN' : (core_step n p idx c).num_faults = c.num_faults := by
      rw [hN]; simp [hp]
    refine ⟨by rw [hF]; exact h.len, by rw [hF]; exact h.uniq, ?_, ?_, by rw [hdp, hA]; exact h.dle,
      ?_, by rw [hdp, hF]; exact h.full, ?_⟩
    · intro x hx; rw [hF] at hx
      rcases h.sub x hx with h' | h'
      · exact Or.inl h'
      · exact Or.inr (hsubtake x h')
    · intro hf; rw [hI] at hf; rw [hA]
      simp only [Bool.or_eq_true, decide_eq_true_eq] at hf
      rcases hf with hf | hf
      · exact h.filled_le hf
      · exact hf
    · intro hd; rw [hdp] at hd ⊢; rw [hA, hF, hN']; exact h.wu hd
    · rw [hN', hR]
      split <;> omega
  · -- miss
    simp only [hp, if_false] at hF hA
    have hidx' : idx < c.frames.length := by rw [h.len]; exact hidx
    have hlen' : (core_step n p idx c).frames.length = n := by
      rw [hF, List.length_set]; exact h.len
    have hdle : (distinctPages (arr.take (k + 1))).length ≤
        (distinctPages (arr.take k)).length + 1 := by
      rw [hdp]; split <;> simp
    have hdge : (distinctPages (arr.take k)).length ≤
        (distinctPages (arr.take (k + 1))).length := by
      rw [hdp]; split <;> simp
    have hwu : (distinctPages (arr.take (k + 1))).length ≤ n →
        (core_step n p idx c).num_allocated = (distinctPages (arr.take (k + 1))).length ∧
        (core_step n p idx c).frames = distinctPages (arr.take (k + 1)) ++
          List.replicate (n - (distinctPages (arr.take (k + 1))).length) (-1) ∧
        (core_step n p idx c).num_faults = 0 := by
      intro hd
      obtain ⟨w1, w2, w3⟩ := h.wu (by omega)
      have hpnot : p ∉ arr.take k := by
        intro hin
        apply hp
        rw [w2]
        exact List.mem_append_left _ ((mem_distinctPages _ _).2 hin)
      simp only [hpnot, if_false] at hdp
      have hd1 : (distinctPages (arr.take (k + 1))).length =
          (distinctPages (arr.take k)).length + 1 := by rw [hdp]; simp
      have hlt : c.num_allocated < n := by omega
      have hidxeq := hseq hlt
      have hnf : ¬ (c.is_filled = true) := fun hf => by have := h.filled_le hf; omega
      refine ⟨by rw [hA, hd1, w1], ?_, ?_⟩
      · rw [hF, hidxeq, w1, hd1, hdp]
        have := set_append_replicate (distinctPages (arr.take k))
          (n - (distinctPages (arr.take k)).length) p (by omega)
        rw [← w2] at this
        rw [this]
        congr 2
      · rw [hN]
        have : ¬ ((c.is_filled = true ∨ n ≤ c.num_allocated) ∧ p ∉ c.frames) := by
          rintro ⟨h1 | h1, _⟩
          · exact hnf h1
          · omega
        simp only [this, if_false]
        exact w3
    refine ⟨hlen', ?_, ?_, ?_, by rw [hA]; have := h.dle; omega, hwu, ?_, ?_⟩
    · intro x hx
      rw [hF, List.count_set _ _ _ _ hidx']
      by_cases hxp : p = x
      · subst hxp
        rw [List.count_eq_zero_of_not_mem hp]
        simp
      · have := h.uniq x hx
        have e : (p == x) = false := by simpa using hxp
        simp only [e]
        split <;> simp <;> omega
    · intro x hx
      rw [hF] at hx
      rcases List.mem_or_eq_of_mem_set hx with h' | h'
      · rcases h.sub x h' with h'' | h''
        · exact Or.inl h''
        · exact Or.inr (hsubtake x h'')
      · right; rw [htake, h']; simp
    · intro hf; rw [hI] at hf; rw [hA]
      simp only [Bool.or_eq_true, decide_eq_true_eq] at hf
      rcases hf with hf | hf
      · have := h.filled_le hf; omega
      · omega
    · intro hd
      by_cases hd' : (distinctPages (arr.take (k + 1))).length ≤ n
      · obtain ⟨_, w2, _⟩ := hwu hd'
        rw [w2]
        have e : n - (distinctPages (arr.take (k + 1))).length = 0 := by omega
        rw [e]
        simp only [List.replicate_zero, List.append_nil]
        intro hin
        have := (mem_distinctPages _ _).1 hin
        have := hpos _ (List.mem_of_mem_take this)
        omega
      · have := h.full (by omega)
        rw [hF]
        intro hin
        rcases List.mem_or_eq_of_mem_set hin with h' | h'
        · exact this h'
        · exact hp1 h'.symm
    · rw [hN, hR]
      by_cases hfl : (c.is_filled = true ∨ n ≤ c.num_allocated)
      · simp only [hfl, hp, not_false_eq_true, and_self, if_true]
        omega
      · simp only [hfl, false_and, if_false]
        omega

/-- Every reachable state satisfies the invariants. -/
theorem Reach.ginv {arr : List Int} {n k : Nat} {c : Core} (h : Reach arr n k c)
    (hpos : ∀ p ∈ arr, 0 ≤ p) (hn : 1 ≤ n) : GInv arr n k c := by
  induction h with
  | init => exact GInv_init arr n hn
  | step k c idx _ hk hidx hseq ih => exact GInv_step arr n k c idx hpos hk hidx hseq ih

theorem Reach.le_length {arr : List Int} {n k : Nat} {c : Core} (h : Reach arr n k c) :
    k ≤ arr.length := by
  cases h with
  | init => exact Nat.zero_le _
  | step k c idx _ hk _ _ => exact hk

/-- A page other than the sentinel that occurs at most once cannot sit in two slots. -/
theorem uniq_index (l : List Int) (h : ∀ x, x ≠ -1 → l.count x ≤ 1) :
    ∀ i j, i < j → j < l.length → l.getD i 0 = l.getD j 0 → l.getD i 0 = -1 := by
  intro i j hij hj he
  by_contra hne
  have hc := h _ hne
  have hsplit : l = l.take j ++ l.getD j 0 :: l.drop (j + 1) := by
    rw [List.getD_eq_getElem _ _ hj, ← List.drop_eq_getElem_cons hj, List.take_append_drop]
  have h1 : 1 ≤ (l.take j).count (l.getD i 0) := by
    rw [List.one_le_count_iff, List.mem_take_iff_getElem]
    exact ⟨i, by simp; omega, by rw [List.getD_eq_getElem _ _ (by omega)]⟩
  generalize l.getD i 0 = x at he hc h1
  subst he
  have h2 : (l.take j ++ l.getD j 0 :: l.drop (j + 1)).count (l.getD j 0) ≤ 1 := by
    rw [← hsplit]; exact hc
  rw [List.count_append, List.count_cons_self] at h2
  omega

theorem uniq_index_ne (l : List Int) (h : ∀ x, x ≠ -1 → l.count x ≤ 1) :
    ∀ i j, i ≠ j → i < l.length → j < l.length → l.getD i 0 = l.getD j 0 →
      l.getD i 0 = -1 := by
  intro i j hij hi hj he
  rcases Nat.lt_or_gt_of_ne hij with h' | h'
  · exact uniq_index l h i j h' hj he
  · have := uniq_index l h j i h' hi he.symm
    rw [he]; exact this

/-! ## The three policies are demand-paging runs -/

theorem fifo_reach (arr : List Int) (n : Nat) (hn : 1 ≤ n) :
    ∀ k, k ≤ arr.length → Reach arr n k (fifo_run arr n k).core ∧
      (fifo_run arr n k).pointer = (fifo_run arr n k).num_allocated % n := by
  intro k
  induction k with
  | zero =>
    intro _
    exact ⟨Reach.init, by simp [fifo_run, fifo_loop, fifo_init]⟩
  | succ k ih =>
    intro hk
    obtain ⟨hr, hp⟩ := ih (by omega)
    rw [fifo_run_succ]
    refine ⟨?_, ?_⟩
    · rw [fifo_body_core]
      refine Reach.step k _ _ hr (by omega) ?_ ?_
      · rw [hp]; exact Nat.mod_lt _ (by omega)
      · intro hlt
        rw [hp]
        exact Nat.mod_eq_of_lt hlt
    · simp only [fifo_body]
      split
      · rw [hp]; simp [Nat.add_mod]
      · exact hp

theorem find_opt_lt (arr : List Int) (sz : Nat) (frames : List Int) (n c : Nat) (hn : 1 ≤ n) :
    find_opt arr sz frames n c < n :=
  (find_max_spec _ n hn).1

theorem extra_reach (arr : List Int) (sz n : Nat) (hn : 1 ≤ n) (hpos : ∀ p ∈ arr, 0 ≤ p) :
    ∀ k, k ≤ arr.length → Reach arr n k (extra_run arr sz n k).core := by
  intro k
  induction k with
  | zero => intro _; exact Reach.init
  | succ k ih =>
    intro hk
    have hr := ih (by omega)
    have hg := hr.ginv hpos hn
    rw [extra_run_succ, extra_body_core]
    refine Reach.step k _ _ hr (by omega) ?_ ?_
    · unfold extra_index
      split
      · rename_i h
        simp only [Bool.not_eq_true', Bool.or_eq_false_iff, decide_eq_false_iff_not] at h
        omega
      · exact find_opt_lt _ _ _ _ _ hn
    · intro hlt
      have hnf : (extra_run arr sz n k).is_filled = false := by
        by_contra hf
        have := hg.filled_le (by simpa using hf)
        simp only [ExtraState.core] at this hlt
        omega
      simp only [ExtraState.core] at hlt
      unfold extra_index
      have : ¬ (n ≤ (extra_run arr sz n k).num_allocated) := by omega
      simp [hnf, this, ExtraState.core]

theorem getD_replicate_lt (n : Nat) (v : Int) (j : Nat) (hj : j < n) :
    (List.replicate n v).getD j 0 = v := by
  rw [List.getD_eq_getElem _ _ (by simpa using hj), List.getElem_replicate]

theorem lru_body_hit (arr : List Int) (n i : Nat) (s : LruState) (hlen : s.frames.length = n)
    (hp : arr.getD i 0 ∈ s.frames) :
    ∃ r, r < n ∧ s.frames.getD r 0 = arr.getD i 0 ∧
      (lru_body arr n i s).frames = s.frames ∧
      (lru_body arr n i s).last_used = (increment_arr s.last_used n).set r 0 := by
  have hne : search s.frames n (arr.getD i 0) ≠ -1 := by
    rw [← hlen, Ne, search_eq_neg_one_iff]; exact fun h => h hp
  have hne' := hne
  rw [← hlen] at hne'
  obtain ⟨r, h1, h2, h3⟩ := search_found s.frames _ hne'
  rw [hlen] at h1
  refine ⟨r, by omega, h3, ?_, ?_⟩
  · simp [lru_body, hne, -List.getD_eq_getElem?_getD]
  · simp [lru_body, hne, h1, -List.getD_eq_getElem?_getD]

theorem lru_body_miss (arr : List Int) (n i : Nat) (s : LruState) (hlen : s.frames.length = n)
    (hp : arr.getD i 0 ∉ s.frames) :
    (lru_body arr n i s).frames =
        s.frames.set (find_max (increment_arr s.last_used n) n) (arr.getD i 0) ∧
      (lru_body arr n i s).last_used =
        (increment_arr s.last_used n).set (find_max (increment_arr s.last_used n) n) 0 := by
  have he : search s.frames n (arr.getD i 0) = -1 := by
    rw [← hlen, search_eq_neg_one_iff]; exact hp
  simp [lru_body, he, -List.getD_eq_getElem?_getD]

theorem reverse_take_succ (arr : List Int) (k : Nat) (hk : k < arr.length) :
    (arr.take (k + 1)).reverse = arr.getD k 0 :: (arr.take k).reverse := by
  rw [take_succ_getD arr k hk]; simp

theorem lru_ages_step (arr : List Int) (n k : Nat) (s : LruState)
    (hk : k < arr.length) (hlen : s.frames.length = n)
    (huniq : ∀ x, x ≠ -1 → s.frames.count x ≤ 1) (hp1 : arr.getD k 0 ≠ -1)
    (hn : 1 ≤ n) (ha : LruAges arr k s) : LruAges arr (k + 1) (lru_body arr n k s) := by
  obtain ⟨hl, hage⟩ := ha
  have hlu : s.last_used.length = n := by rw [hl, hlen]
  have hinc : ∀ j, j < n → (increment_arr s.last_used n).getD j 0 = s.last_used.getD j 0 + 1 := by
    intro j hj
    have := increment_arr_getD s.last_used j (by omega)
    rw [hlu] at this; exact this
  have hincl : (increment_arr s.last_used n).length = n := by
    rw [increment_arr_length]; exact hlu
  have hrev := reverse_take_succ arr k hk
  by_cases hp : arr.getD k 0 ∈ s.frames
  · obtain ⟨r, hr, hfr, hF, hL⟩ := lru_body_hit arr n k s hlen hp
    refine ⟨by rw [hF, hL]; simp [hincl, hlen], ?_⟩
    intro j hj
    rw [hF] at hj ⊢
    rw [hL, getD_set_eq, hincl, hrev]
    rw [hlen] at hj
    by_cases hrj : r = j
    · subst hrj
      simp only [hj, and_self, if_true]
      refine ⟨fun h => absurd (hfr ▸ h) hp1, fun _ => ?_⟩
      rw [hfr, List.indexOf_cons_self]; rfl
    · have hc : ¬ (r = j ∧ j < n) := fun h => hrj h.1
      simp only [hc, if_false]
      rw [hinc j hj]
      obtain ⟨h1, h2⟩ := hage j (by omega)
      refine ⟨fun h => by rw [h1 h]; push_cast; ring, fun h => ?_⟩
      have hne : arr.getD k 0 ≠ s.frames.getD j 0 := by
        intro he
        have := uniq_index_ne s.frames huniq r j hrj (by omega) (by omega) (by rw [hfr, he])
        rw [hfr] at this
        exact hp1 this
      rw [h2 h, List.indexOf_cons_ne _ hne]
      push_cast; ring
  · obtain ⟨hF, hL⟩ := lru_body_miss arr n k s hlen hp
    have hm := (find_max_spec (increment_arr s.last_used n) n hn).1
    generalize find_max (increment_arr s.last_used n) n = m at hF hL hm
    refine ⟨by rw [hF, hL]; simp [hincl, hlen], ?_⟩
    intro j hj
    rw [hF] at hj ⊢
    rw [List.length_set, hlen] at hj
    rw [hL, getD_set_eq, getD_set_eq, hincl, hlen, hrev]
    by_cases hmj : m = j
    · subst hmj
      simp only [hj, and_self, if_true]
      refine ⟨fun h => absurd h hp1, fun _ => ?_⟩
      rw [List.indexOf_cons_self]; rfl
    · have hc : ¬ (m = j ∧ j < n) := fun h => hmj h.1
      simp only [hc, if_false]
      rw [hinc j hj]
      obtain ⟨h1, h2⟩ := hage j (by omega)
      refine ⟨fun h => by rw [h1 h]; push_cast; ring, fun h => ?_⟩
      have hne : arr.getD k 0 ≠ s.frames.getD j 0 := by
        intro he
        exact hp (he ▸ getD_mem s.frames j (by omega))
      rw [h2 h, List.indexOf_cons_ne _ hne]
      push_cast; ring

/-- While a slot is free, the oldest slot according to the ages is the first free one. -/
theorem lru_warm_index (arr : List Int) (n k : Nat) (s : LruState) (hk : k ≤ arr.length)
    (hn : 1 ≤ n) (hpos : ∀ p ∈ arr, 0 ≤ p) (hg : GInv arr n k s.core) (ha : LruAges arr k s)
    (hlt : s.num_allocated < n) :
    find_max (increment_arr s.last_used n) n = s.num_allocated := by
  obtain ⟨hl, hage⟩ := ha
  have hlen : s.frames.length = n := hg.len
  have hlu : s.last_used.length = n := by rw [hl, hlen]
  have hinc : ∀ j, j < n → (increment_arr s.last_used n).getD j 0 = s.last_used.getD j 0 + 1 := by
    intro j hj
    have := increment_arr_getD s.last_used j (by omega)
    rw [hlu] at this; exact this
  have hdle : (distinctPages (arr.take k)).length ≤ s.num_allocated := hg.dle
  obtain ⟨w1, w2, _⟩ := hg.wu (by omega)
  have w1' : s.num_allocated = (distinctPages (arr.take k)).length := w1
  have w2' : s.frames = distinctPages (arr.take k) ++
      List.replicate (n - (distinctPages (arr.take k)).length) (-1) := w2
  have hlow : ∀ j, j < s.num_allocated → (increment_arr s.last_used n).getD j 0 ≤ (k : Int) := by
    intro j hj
    have hj' : j < (distinctPages (arr.take k)).length := by omega
    have hfj : s.frames.getD j 0 = (distinctPages (arr.take k)).getD j 0 := by
      rw [w2', List.getD_append _ _ _ _ hj']
    have hmem : s.frames.getD j 0 ∈ arr.take k := by
      rw [hfj]; exact (mem_distinctPages _ _).1 (getD_mem _ j hj')
    have hne : s.frames.getD j 0 ≠ -1 := by
      have := hpos _ (List.mem_of_mem_take hmem); omega
    have hidx : (arr.take k).reverse.indexOf (s.frames.getD j 0) < k := by
      have : (arr.take k).reverse.indexOf (s.frames.getD j 0) < (arr.take k).reverse.length :=
        List.indexOf_lt_length.2 (by simpa using hmem)
      rw [List.length_reverse, List.length_take_of_le hk] at this
      exact this
    rw [hinc j (by omega), (hage j (by omega)).2 hne]
    omega
  have hhigh : ∀ j, s.num_allocated ≤ j → j < n →
      (increment_arr s.last_used n).getD j 0 = (k : Int) + 1 := by
    intro j hj hjn
    have hfj : s.frames.getD j 0 = -1 := by
      rw [w2', List.getD_append_right _ _ _ _ (by omega), getD_replicate_lt _ _ _ (by omega)]
    rw [hinc j hjn, (hage j (by omega)).1 hfj]
  obtain ⟨m1, m2, m3⟩ := find_max_spec (increment_arr s.last_used n) n hn
  generalize find_max (increment_arr s.last_used n) n = m at m1 m2 m3
  have hd := hhigh s.num_allocated (le_refl _) hlt
  rcases Nat.lt_trichotomy m s.num_allocated with h | h | h
  · have := hlow m h
    have := m2 s.num_allocated hlt
    omega
  · exact h
  · have := m3 s.num_allocated h
    have := hhigh m (by omega) m1
    omega

theorem lru_reach (arr : List Int) (n : Nat) (hn : 1 ≤ n) (hpos : ∀ p ∈ arr, 0 ≤ p) :
    ∀ k, k ≤ arr.length → Reach arr n k (lru_run arr n k).core ∧
      LruAges arr k (lru_run arr n k) := by
  intro k
  induction k with
  | zero =>
    intro _
    refine ⟨Reach.init, by simp [lru_run, lru_loop, lru_init], ?_⟩
    intro j hj
    have hj' : j < n := by simpa [lru_run, lru_loop, lru_init] using hj
    simp only [lru_run, lru_loop, lru_init]
    rw [getD_replicate_lt _ _ _ hj', getD_replicate_lt _ _ _ hj']
    simp
  | succ k ih =>
    intro hk
    obtain ⟨hr, ha⟩ := ih (by omega)
    have hg := hr.ginv hpos hn
    rw [lru_run_succ]
    refine ⟨?_, ?_⟩
    · rw [lru_body_core]
      refine Reach.step k _ _ hr (by omega) (find_max_spec _ n hn).1 ?_
      intro hlt
      exact lru_warm_index arr n k _ (by omega) hn hpos hg ha hlt
    · have hp0 := hpos _ (getD_mem arr k (by omega))
      exact lru_ages_step arr n k _ (by omega) hg.len hg.uniq (by omega) hn ha

/-! ## LRU with more frames keeps a superset of pages -/

theorem GInv.alloc_ge_iff {arr : List Int} {n k : Nat} {c : Core} (h : GInv arr n k c) :
    n ≤ c.num_allocated ↔ n ≤ (distinctPages (arr.take k)).length := by
  constructor
  · intro hge
    by_contra hlt
    have := (h.wu (by omega)).1
    omega
  · intro hge
    have := h.dle
    omega

theorem GInv.filled_iff {arr : List Int} {n k : Nat} {c : Core} (h : GInv arr n k c) :
    (c.is_filled = true ∨ n ≤ c.num_allocated) ↔ n ≤ (distinctPages (arr.take k)).length := by
  rw [← h.alloc_ge_iff]
  constructor
  · rintro (hf | hf)
    · exact h.filled_le hf
    · exact hf
  · intro hf; exact Or.inr hf

theorem mem_set_ne (l : List Int) (v : Nat) (p x : Int) (hx : x ∈ l.set v p) (hxp : x ≠ p) :
    ∃ j, j ≠ v ∧ j < l.length ∧ l.getD j 0 = x := by
  obtain ⟨j, hj, he⟩ := (mem_iff_getD _ _).1 hx
  rw [List.length_set] at hj
  rw [getD_set_eq] at he
  by_cases hc : v = j ∧ j < l.length
  · simp only [hc, and_self, if_true] at he
    exact absurd he.symm hxp
  · simp only [hc, if_false] at he
    exact ⟨j, fun e => hc ⟨e.symm, hj⟩, hj, he⟩

theorem mem_set_of_ne (l : List Int) (v j : Nat) (p : Int) (hj : j < l.length) (hjv : j ≠ v) :
    l.getD j 0 ∈ l.set v p := by
  rw [mem_iff_getD]
  refine ⟨j, by simpa using hj, ?_⟩
  rw [getD_set_eq]
  have : ¬ (v = j ∧ j < l.length) := fun h => hjv h.1.symm
  simp only [this, if_false]

/-- The slot chosen by `lru` on a miss cannot hold a page that the smaller table keeps. -/
theorem lru_victim_not_kept (arr : List Int) (m n k : Nat) (sm sn : LruState)
    (hm : 1 ≤ m) (hmn : m ≤ n) (hk : k ≤ arr.length)
    (gm : GInv arr m k sm.core) (gn : GInv arr n k sn.core)
    (am : LruAges arr k sm) (an : LruAges arr k sn)
    (hincl : ∀ x, x ≠ -1 → x ∈ sm.frames → x ∈ sn.frames)
    (j : Nat) (hj : j < m) (hjv : j ≠ find_max (increment_arr sm.last_used m) m)
    (hx : sm.frames.getD j 0 ≠ -1)
    (he : sn.frames.getD (find_max (increment_arr sn.last_used n) n) 0 = sm.frames.getD j 0) :
    False := by
  have hn : 1 ≤ n := by omega
  have lm : sm.frames.length = m := gm.len
  have ln : sn.frames.length = n := gn.len
  obtain ⟨hlm, agem⟩ := am
  obtain ⟨hln, agen⟩ := an
  have incm : ∀ i, i < m → (increment_arr sm.last_used m).getD i 0 = sm.last_used.getD i 0 + 1 := by
    intro i hi
    have := increment_arr_getD sm.last_used i (by omega)
    rw [show sm.last_used.length = m by omega] at this; exact this
  have incn : ∀ i, i < n → (increment_arr sn.last_used n).getD i 0 = sn.last_used.getD i 0 + 1 := by
    intro i hi
    have := increment_arr_getD sn.last_used i (by omega)
    rw [show sn.last_used.length = n by omega] at this; exact this
  obtain ⟨vm1, vm2, _⟩ := find_max_spec (increment_arr sm.last_used m) m hm
  obtain ⟨vn1, vn2, _⟩ := find_max_spec (increment_arr sn.last_used n) n hn
  generalize find_max (increment_arr sm.last_used m) m = vm at *
  generalize find_max (increment_arr sn.last_used n) n = vn at *
  have lenrev : (arr.take k).reverse.length = k := by
    rw [List.length_reverse, List.length_take_of_le hk]
  -- membership of a cached page in the prefix, and the bound on its age
  have memtake_m : ∀ i, i < m → sm.frames.getD i 0 ≠ -1 → sm.frames.getD i 0 ∈ (arr.take k).reverse := by
    intro i hi hne
    rcases gm.sub _ (getD_mem sm.frames i (by omega)) with h | h
    · exact absurd h hne
    · simpa using h
  set x := sm.frames.getD j 0 with hxdef
  have hxmem : x ∈ (arr.take k).reverse := memtake_m j hj hx
  have hxidx : (arr.take k).reverse.indexOf x < k := by
    have := List.indexOf_lt_length.2 hxmem
    omega
  have hagevn : sn.last_used.getD vn 0 = (((arr.take k).reverse.indexOf x : Nat) : Int) := by
    have := (agen vn (by omega)).2 (by rw [he]; exact hx)
    rw [he] at this; exact this
  -- the larger table has no free slot
  have hnofree : (-1 : Int) ∉ sn.frames := by
    intro hin
    obtain ⟨e, he1, he2⟩ := (mem_iff_getD _ _).1 hin
    have h1 := (agen e he1).1 he2
    have h2 := vn2 e (by omega)
    rw [incn e (by omega), incn vn vn1, h1, hagevn] at h2
    omega
  have hdn : n ≤ (distinctPages (arr.take k)).length := by
    by_contra hlt
    have w := (gn.wu (by omega)).2.1
    apply hnofree
    have w' : sn.frames = distinctPages (arr.take k) ++
      List.replicate (n - (distinctPages (arr.take k)).length) (-1) := w
    rw [w']
    apply List.mem_append_right
    rw [List.mem_replicate]
    exact ⟨by omega, rfl⟩
  have hnofree_m : (-1 : Int) ∉ sm.frames := gm.full (by omega)
  -- the page in the slot chosen by the smaller table
  set z := sm.frames.getD vm 0 with hzdef
  have hzin : z ∈ sm.frames := getD_mem sm.frames vm (by omega)
  have hz : z ≠ -1 := fun h => hnofree_m (h ▸ hzin)
  have hzmem : z ∈ (arr.take k).reverse := memtake_m vm vm1 hz
  have hagevm : sm.last_used.getD vm 0 = (((arr.take k).reverse.indexOf z : Nat) : Int) :=
    (agem vm (by omega)).2 hz
  have hagej : sm.last_used.getD j 0 = (((arr.take k).reverse.indexOf x : Nat) : Int) :=
    (agem j (by omega)).2 hx
  have h1 := vm2 j hj
  rw [incm j hj, incm vm vm1, hagevm, hagej] at h1
  obtain ⟨i, hi1, hi2⟩ := (mem_iff_getD _ _).1 (hincl z hz hzin)
  have hagei : sn.last_used.getD i 0 = (((arr.take k).reverse.indexOf z : Nat) : Int) := by
    have := (agen i hi1).2 (by rw [hi2]; exact hz)
    rw [hi2] at this; exact this
  have h2 := vn2 i (by omega)
  rw [incn i (by omega), incn vn vn1, hagei, hagevn] at h2
  have hidx : (arr.take k).reverse.indexOf z = (arr.take k).reverse.indexOf x := by omega
  have hzx : z = x := (List.indexOf_inj hzmem hxmem).1 hidx
  have := uniq_index_ne sm.frames gm.uniq j vm hjv (by omega) (by omega) (by rw [← hxdef, ← hzdef, hzx])
  exact hx this

theorem lru_body_num_faults (arr : List Int) (n i : Nat) (s : LruState)
    (hlen : s.frames.length = n) :
    (lru_body arr n i s).num_faults =
      if (s.is_filled = true ∨ n ≤ s.num_allocated) ∧ arr.getD i 0 ∉ s.frames
      then s.num_faults + 1 else s.num_faults :=
  core_step_num_faults n (arr.getD i 0) (find_max (increment_arr s.last_used n) n) s.core hlen

/-- Run in lockstep on the same trace, `lru` with `n ≥ m` frames always caches every page
that `lru` with `m` frames caches, and has counted no more faults. -/
theorem lru_inclusion (arr : List Int) (m n : Nat) (hm : 1 ≤ m) (hmn : m ≤ n)
    (hpos : ∀ p ∈ arr, 0 ≤ p) :
    ∀ k, k ≤ arr.length →
      (∀ x, x ≠ -1 → x ∈ (lru_run arr m k).frames → x ∈ (lru_run arr n k).frames) ∧
      (lru_run arr n k).num_faults ≤ (lru_run arr m k).num_faults := by
  have hn : 1 ≤ n := by omega
  intro k
  induction k with
  | zero =>
    intro _
    refine ⟨?_, by simp [lru_run, lru_loop, lru_init]⟩
    intro x hx hin
    simp only [lru_run, lru_loop, lru_init, List.mem_replicate] at hin
    exact absurd hin.2 hx
  | succ k ih =>
    intro hk
    obtain ⟨hincl, hfl⟩ := ih (by omega)
    obtain ⟨rm, am⟩ := lru_reach arr m hm hpos k (by omega)
    obtain ⟨rn, an⟩ := lru_reach arr n hn hpos k (by omega)
    have gm := rm.ginv hpos hm
    have gn := rn.ginv hpos hn
    have lm : (lru_run arr m k).frames.length = m := gm.len
    have ln : (lru_run arr n k).frames.length = n := gn.len
    have hp0 := hpos _ (getD_mem arr k (by omega))
    have hp1 : arr.getD k 0 ≠ -1 := by omega
    rw [lru_run_succ, lru_run_succ]
    have hmiss : arr.getD k 0 ∉ (lru_run arr n k).frames →
        arr.getD k 0 ∉ (lru_run arr m k).frames := fun h h' => h (hincl _ hp1 h')
    have hfilled : ((lru_run arr n k).is_filled = true ∨ n ≤ (lru_run arr n k).num_allocated) →
        ((lru_run arr m k).is_filled = true ∨ m ≤ (lru_run arr m k).num_allocated) := by
      intro h
      have h1 := gn.filled_iff.1 h
      exact gm.filled_iff.2 (by omega)
    refine ⟨?_, ?_⟩
    · intro x hx hin
      by_cases hpn : arr.getD k 0 ∈ (lru_run arr n k).frames
      · obtain ⟨_, _, _, hF, _⟩ := lru_body_hit arr n k _ ln hpn
        rw [hF]
        by_cases hpm : arr.getD k 0 ∈ (lru_run arr m k).frames
        · obtain ⟨_, _, _, hF', _⟩ := lru_body_hit arr m k _ lm hpm
          rw [hF'] at hin
          exact hincl x hx hin
        · rw [(lru_body_miss arr m k _ lm hpm).1] at hin
          rcases List.mem_or_eq_of_mem_set hin with h | h
          · exact hincl x hx h
          · rw [h]; exact hpn
      · have hpm := hmiss hpn
        rw [(lru_body_miss arr m k _ lm hpm).1] at hin
        rw [(lru_body_miss arr n k _ ln hpn).1]
        have vn1 := (find_max_spec (increment_arr (lru_run arr n k).last_used n) n hn).1
        by_cases hxp : x = arr.getD k 0
        · rw [hxp]; exact List.mem_set _ _ (by omega) _
        · obtain ⟨j, hjv, hj, hjx⟩ := mem_set_ne _ _ _ _ hin hxp
          obtain ⟨i, hi, hix⟩ := (mem_iff_getD _ _).1
            (hincl x hx (hjx ▸ getD_mem _ j hj))
          have hiv : i ≠ find_max (increment_arr (lru_run arr n k).last_used n) n := by
            intro e
            refine lru_victim_not_kept arr m n k _ _ hm hmn (by omega) gm gn am an hincl
              j (by omega) hjv (by rw [hjx]; exact hx) ?_
            rw [← e, hix, hjx]
          rw [← hix]
          exact mem_set_of_ne _ _ _ _ hi hiv
    · rw [lru_body_num_faults arr n k _ ln, lru_body_num_faults arr m k _ lm]
      by_cases hc : ((lru_run arr n k).is_filled = true ∨ n ≤ (lru_run arr n k).num_allocated) ∧
          arr.getD k 0 ∉ (lru_run arr n k).frames
      · have hc' : ((lru_run arr m k).is_filled = true ∨ m ≤ (lru_run arr m k).num_allocated) ∧
            arr.getD k 0 ∉ (lru_run arr m k).frames := ⟨hfilled hc.1, hmiss hc.2⟩
        rw [if_pos hc, if_pos hc']
        omega
      · rw [if_neg hc]
        split <;> omega

/-! ## The victim chosen by `find_opt` -/

/-- The scan of `find_opt` either finds no occurrence and leaves `INT_MAX`, or returns the
offset of the first occurrence. -/
theorem find_opt_scan_cases (pages : List Int) (x : Int) :
    ∀ fuel j dist,
      (find_opt_scan pages x fuel j dist = INT_MAX ∧
        ∀ t, t < fuel → pages.getD (j + t) 0 ≠ x) ∨
      (∃ t, t < fuel ∧ find_opt_scan pages x fuel j dist = dist + (t : Int) ∧
        pages.getD (j + t) 0 = x ∧ ∀ u, u < t → pages.getD (j + u) 0 ≠ x) := by
  intro fuel
  induction fuel with
  | zero =>
    intro j dist
    left
    exact ⟨rfl, fun t ht => by omega⟩
  | succ f ih =>
    intro j dist
    unfold find_opt_scan
    by_cases h : pages.getD j 0 = x
    · right
      refine ⟨0, by omega, by rw [if_pos h]; simp, by simpa using h, fun u hu => by omega⟩
    · simp only [h, if_false]
      rcases ih (j + 1) (dist + 1) with ⟨h1, h2⟩ | ⟨t, h1, h2, h3, h4⟩
      · left
        refine ⟨h1, ?_⟩
        intro t ht
        cases t with
        | zero => simpa using h
        | succ t =>
          have := h2 t (by omega)
          rwa [show j + 1 + t = j + (t + 1) by omega] at this
      · right
        refine ⟨t + 1, by omega, by rw [h2]; push_cast; ring, ?_, ?_⟩
        · rwa [show j + 1 + t = j + (t + 1) by omega] at h3
        · intro u hu
          cases u with
          | zero => simpa using h
          | succ u =>
            have := h4 u (by omega)
            rwa [show j + 1 + u = j + (u + 1) by omega] at this

theorem find_opt_loop_length (pages : List Int) (np : Nat) (frames : List Int) (nr : Nat) :
    ∀ (fuel : Nat) (dfu : List Int) (i : Nat),
      (find_opt_loop pages np frames nr dfu fuel i).length = dfu.length := by
  intro fuel
  induction fuel with
  | zero => intro dfu i; rfl
  | succ f ih => intro dfu i; unfold find_opt_loop; rw [ih]; simp

theorem find_opt_loop_getD (pages : List Int) (np : Nat) (frames : List Int) (nr : Nat) :
    ∀ (fuel : Nat) (dfu : List Int) (i j : Nat),
      (find_opt_loop pages np frames nr dfu fuel i).getD j 0 =
        if i ≤ j ∧ j < i + fuel ∧ j < dfu.length
        then find_opt_scan pages (frames.getD j 0) (np - (nr - 1)) (nr - 1) 0
        else dfu.getD j 0 := by
  intro fuel
  induction fuel with
  | zero =>
    intro dfu i j
    have : ¬ (i ≤ j ∧ j < i + 0 ∧ j < dfu.length) := by omega
    simp only [this, if_false]; rfl
  | succ f ih =>
    intro dfu i j
    unfold find_opt_loop
    rw [ih, getD_set_eq]
    simp only [List.length_set]
    by_cases h1 : i = j
    · subst h1
      by_cases h2 : i < dfu.length
      · have : ¬ (i + 1 ≤ i ∧ i < i + 1 + f ∧ i < dfu.length) := by omega
        have h3 : (i ≤ i ∧ i < i + (f + 1) ∧ i < dfu.length) := by omega
        simp [this, h3, h2]
      · have : ¬ (i + 1 ≤ i ∧ i < i + 1 + f ∧ i < dfu.length) := by omega
        have h3 : ¬ (i ≤ i ∧ i < i + (f + 1) ∧ i < dfu.length) := by omega
        simp [this, h3, h2]
    · have e : (i + 1 ≤ j ∧ j < i + 1 + f ∧ j < dfu.length) ↔
          (i ≤ j ∧ j < i + (f + 1) ∧ j < dfu.length) := by omega
      simp only [e]
      have : ¬ (i = j ∧ j < dfu.length) := by omega
      simp [this]

theorem mem_take_drop_iff (arr : List Int) (k j : Nat) (x : Int) :
    x ∈ (arr.drop k).take j ↔ ∃ t, t < j ∧ k + t < arr.length ∧ arr.getD (k + t) 0 = x := by
  rw [List.mem_take_iff_getElem]
  constructor
  · rintro ⟨t, ht, he⟩
    have ht' : t < j ∧ t < arr.length - k := by simpa using ht
    refine ⟨t, ht'.1, by omega, ?_⟩
    rw [List.getElem_drop] at he
    rw [List.getD_eq_getElem _ _ (by omega)]
    exact he
  · rintro ⟨t, h1, h2, h3⟩
    refine ⟨t, by simp; omega, ?_⟩
    rw [List.getElem_drop]
    rw [List.getD_eq_getElem _ _ h2] at h3
    exact h3

/-- If the page in the slot chosen by `find_opt` is referenced among the next `j`
references, so is the page of every slot. -/
theorem find_opt_far (arr : List Int) (k n : Nat) (frames : List Int) (hn : 1 ≤ n)
    (hlen : (arr.length : Int) ≤ INT_MAX) (j : Nat)
    (h : frames.getD (find_opt arr arr.length frames n (k + 1)) 0 ∈ (arr.drop k).take j) :
    ∀ i, i < n → frames.getD i 0 ∈ (arr.drop k).take j := by
  intro i hi
  obtain ⟨v1, v2, _⟩ := find_max_spec
    (find_opt_loop arr arr.length frames (k + 1) (List.replicate n INT_MAX) n 0) n hn
  have hget : ∀ u, u < n →
      (find_opt_loop arr arr.length frames (k + 1) (List.replicate n INT_MAX) n 0).getD u 0 =
        find_opt_scan arr (frames.getD u 0) (arr.length - k) k 0 := by
    intro u hu
    rw [find_opt_loop_getD]
    have : (0 ≤ u ∧ u < 0 + n ∧ u < (List.replicate n INT_MAX).length) := by
      simp; omega
    simp only [this, and_self, if_true]
    simp
  have hv : find_opt arr arr.length frames n (k + 1) =
      find_max (find_opt_loop arr arr.length frames (k + 1) (List.replicate n INT_MAX) n 0) n :=
    rfl
  rw [hv] at h
  generalize find_max
    (find_opt_loop arr arr.length frames (k + 1) (List.replicate n INT_MAX) n 0) n = v at *
  have hle := v2 i hi
  rw [hget i hi, hget v v1] at hle
  obtain ⟨t0, ht0, hk0, he0⟩ := (mem_take_drop_iff arr k j _).1 h
  rcases find_opt_scan_cases arr (frames.getD v 0) (arr.length - k) k 0 with
    ⟨_, hnone⟩ | ⟨t1, ht1, hr1, _, hmin1⟩
  · exact absurd he0 (hnone t0 (by omega))
  · have ht10 : t1 ≤ t0 := by
      by_contra hgt
      exact hmin1 t0 (by omega) he0
    rcases find_opt_scan_cases arr (frames.getD i 0) (arr.length - k) k 0 with
      ⟨hmax, _⟩ | ⟨t2, ht2, hr2, he2, _⟩
    · rw [hmax, hr1] at hle
      omega
    · rw [hr2, hr1] at hle
      exact (mem_take_drop_iff arr k j _).2 ⟨t2, by omega, by omega, he2⟩

/-! ## Counting the cached pages that are referenced soon -/

theorem countP_mem_cons (L : List Int) (p : Int) (T : List Int) :
    L.countP (fun x => decide (x ∈ p :: T)) =
      L.countP (fun x => decide (x ∈ T)) + (if p ∈ T then 0 else L.count p) := by
  induction L with
  | nil => simp
  | cons a L ih =>
    rw [List.countP_cons, List.countP_cons, ih, List.count_cons]
    by_cases h1 : p ∈ T <;> by_cases h2 : a = p <;> by_cases h3 : a ∈ T <;>
      simp [h1, h2, h3] <;> omega

theorem futureCount_cons_hit (L : List Int) (p : Int) (rest : List Int) (j : Nat)
    (hu : ∀ x, x ≠ -1 → L.count x ≤ 1) (hp : p ≠ -1) (hin : p ∈ L) :
    futureCount L (p :: rest) (j + 1) =
      futureCount L rest j + (if p ∈ rest.take j then 0 else 1) := by
  unfold futureCount
  rw [List.take_succ_cons, countP_mem_cons]
  have h1 : L.count p = 1 := by
    have := hu p hp
    have := List.count_pos_iff.2 hin
    omega
  rw [h1]

theorem futureCount_cons_miss (L : List Int) (p : Int) (rest : List Int) (j : Nat)
    (hin : p ∉ L) :
    futureCount L (p :: rest) (j + 1) = futureCount L rest j := by
  unfold futureCount
  rw [List.take_succ_cons, countP_mem_cons, List.count_eq_zero_of_not_mem hin]
  simp

theorem futureCount_set (L : List Int) (v : Nat) (p : Int) (rest : List Int) (j : Nat)
    (hv : v < L.length) :
    futureCount (L.set v p) rest j + (if L.getD v 0 ∈ rest.take j then 1 else 0) =
      futureCount L rest j + (if p ∈ rest.take j then 1 else 0) := by
  unfold futureCount
  rw [List.countP_set _ _ _ _ hv, List.getD_eq_getElem _ _ hv]
  by_cases h : L[v] ∈ rest.take j
  · have hpos : 0 < L.countP (fun x => decide (x ∈ rest.take j)) :=
      List.countP_pos_iff.2 ⟨L[v], List.getElem_mem _, by simpa using h⟩
    simp only [h, decide_True, if_true, decide_eq_true_eq]
    omega
  · simp only [h, decide_False, if_false, decide_eq_true_eq, Bool.false_eq_true]
    omega

theorem futureCount_le_length (L : List Int) (rest : List Int) (j : Nat) :
    futureCount L rest j ≤ L.length :=
  List.countP_le_length _

theorem futureCount_lt_length (L : List Int) (rest : List Int) (j : Nat) (p : Int)
    (hin : p ∈ L) (hp : p ∉ rest.take j) : futureCount L rest j + 1 ≤ L.length := by
  have h1 := futureCount_le_length L rest j
  have h2 : futureCount L rest j ≠ L.length := by
    unfold futureCount
    rw [Ne, List.countP_eq_length]
    intro hall
    exact hp (by simpa using hall p hin)
  omega

theorem futureCount_all (L : List Int) (rest : List Int) (j : Nat)
    (hall : ∀ i, i < L.length → L.getD i 0 ∈ rest.take j) :
    futureCount L rest j = L.length := by
  unfold futureCount
  rw [List.countP_eq_length]
  intro a ha
  obtain ⟨i, hi, he⟩ := (mem_iff_getD _ _).1 ha
  have := hall i hi
  rw [he] at this
  simpa using this

theorem futureCount_zero (L : List Int) (rest : List Int) : futureCount L rest 0 = 0 := by
  unfold futureCount
  simp

/-- A table whose pages all sit in another table has no more pages referenced soon. -/
theorem futureCount_le_of_subset (G F : List Int) (rest : List Int) (j : Nat)
    (hu : ∀ x, x ≠ -1 → G.count x ≤ 1) (hsub : ∀ x, x ∈ G → x ≠ -1 → x ∈ F)
    (hneg : (-1 : Int) ∉ rest) : futureCount G rest j ≤ futureCount F rest j := by
  unfold futureCount
  rw [List.countP_eq_length_filter, List.countP_eq_length_filter]
  have hne : ∀ x, x ∈ rest.take j → x ≠ -1 := fun x hx e =>
    hneg (e ▸ List.mem_of_mem_take hx)
  have hnd : (G.filter (fun x => decide (x ∈ rest.take j))).Nodup := by
    rw [List.nodup_iff_count_le_one]
    intro x
    by_cases hx : x ∈ rest.take j
    · rw [List.count_filter (by simpa using hx)]
      exact hu x (hne x hx)
    · rw [List.count_eq_zero_of_not_mem]
      · omega
      · intro hin
        exact hx (by simpa using (List.mem_filter.1 hin).2)
  refine (hnd.subperm ?_).length_le
  intro x hx
  obtain ⟨h1, h2⟩ := List.mem_filter.1 hx
  exact List.mem_filter.2 ⟨hsub x h1 (hne x (by simpa using h2)), h2⟩

/-! ## The exchange step behind the optimality of `extra` -/

/-- One reference `p` served by a full table `F` that evicts the page used farthest in the
future, and by any table `G` with no more slots: the surplus `d` of `G` over `F` in pages
referenced soon pays for every reference that `F` misses and `G` hits. -/
theorem potential_step (F G : List Int) (p : Int) (rest : List Int) (n m v idx : Nat)
    (hFl : F.length = n) (hGl : G.length = m) (hmn : m ≤ n)
    (hFu : ∀ x, x ≠ -1 → F.count x ≤ 1) (hGu : ∀ x, x ≠ -1 → G.count x ≤ 1)
    (hp : p ≠ -1) (hv : v < n) (hidx : idx < m)
    (hfar : p ∉ F → ∀ j, F.getD v 0 ∈ rest.take j → ∀ i, i < n → F.getD i 0 ∈ rest.take j)
    (d : Int) (hd : 0 ≤ d)
    (hb : ∀ j, (futureCount G (p :: rest) j : Int) ≤ futureCount F (p :: rest) j + d) :
    ∃ d' : Int, 0 ≤ d' ∧
      (∀ j, (futureCount (if p ∈ G then G else G.set idx p) rest j : Int) ≤
        futureCount (if p ∈ F then F else F.set v p) rest j + d') ∧
      (if p ∈ F then (0 : Int) else 1) + d' ≤ (if p ∈ G then (0 : Int) else 1) + d := by
  have hsetG := fun j => futureCount_set G idx p rest j (by omega)
  have hsetF := fun j => futureCount_set F v p rest j (by omega)
  have hlenG := fun j => futureCount_le_length G rest j
  by_cases hF : p ∈ F <;> by_cases hG : p ∈ G
  · -- both hit
    refine ⟨d, hd, ?_, by simp only [hF, hG, if_true, if_false]; omega⟩
    intro j
    simp only [hF, hG, if_true]
    have h1 := futureCount_cons_hit F p rest j hFu hp hF
    have h2 := futureCount_cons_hit G p rest j hGu hp hG
    have h3 := hb (j + 1)
    rw [h1, h2] at h3
    push_cast at h3
    omega
  · -- only the optimal table hits
    refine ⟨d + 1, by omega, ?_, by simp only [hF, hG, if_true, if_false]; omega⟩
    intro j
    simp only [hF, hG, if_true, if_false]
    have h1 := futureCount_cons_hit F p rest j hFu hp hF
    have h2 := futureCount_cons_miss G p rest j hG
    have h3 := hb (j + 1)
    have h4 := hsetG j
    rw [h1, h2] at h3
    push_cast at h3
    split_ifs at h3 h4 <;> omega
  · -- only the other table hits
    have hd1 : 1 ≤ d := by
      have h1 := futureCount_cons_miss F p rest 0 hF
      have h2 := futureCount_cons_hit G p rest 0 hGu hp hG
      have h3 := hb (0 + 1)
      rw [h1, h2, futureCount_zero, futureCount_zero] at h3
      simpa using h3
    refine ⟨d - 1, by omega, ?_, by simp only [hF, hG, if_true, if_false]; omega⟩
    intro j
    simp only [hF, hG, if_true, if_false]
    have h1 := futureCount_cons_miss F p rest j hF
    have h2 := futureCount_cons_hit G p rest j hGu hp hG
    have h3 := hb (j + 1)
    have h4 := hsetF j
    rw [h1, h2] at h3
    push_cast at h3
    by_cases hq : F.getD v 0 ∈ rest.take j
    · have hall := futureCount_all F rest j (by rw [hFl]; exact hfar hF j hq)
      have h5 := hlenG j
      by_cases he : p ∈ rest.take j
      · simp only [hq, he, if_true] at h4
        omega
      · have h6 := futureCount_lt_length G rest j p hG he
        simp only [hq, he, if_true, if_false] at h4
        omega
    · simp only [hq, if_false] at h4
      split_ifs at h3 h4 <;> omega
  · -- both miss
    refine ⟨d, hd, ?_, by simp only [hF, hG, if_true, if_false]; omega⟩
    intro j
    simp only [hF, hG, if_false]
    have h1 := futureCount_cons_miss F p rest j hF
    have h2 := futureCount_cons_miss G p rest j hG
    have h3 := hb (j + 1)
    have h4 := hsetF j
    have h4' := hsetG j
    rw [h1, h2] at h3
    by_cases hq : F.getD v 0 ∈ rest.take j
    · have hall := futureCount_all F rest j (by rw [hFl]; exact hfar hF j hq)
      have h5 := futureCount_le_length (G.set idx p) rest j
      rw [List.length_set] at h5
      by_cases he : p ∈ rest.take j
      · simp only [hq, he, if_true] at h4
        omega
      · have h6 := futureCount_lt_length (G.set idx p) rest j p
          (List.mem_set _ _ (by omega) _) he
        rw [List.length_set] at h6
        simp only [hq, he, if_true, if_false] at h4
        omega
    · simp only [hq, if_false] at h4
      split_ifs at h4 h4' <;> omega

theorem drop_eq_getD_cons (arr : List Int) (k : Nat) (hk : k < arr.length) :
    arr.drop k = arr.getD k 0 :: arr.drop (k + 1) := by
  rw [List.getD_eq_getElem _ _ hk]
  exact List.drop_eq_getElem_cons hk

theorem extra_index_full (arr : List Int) (sz n : Nat) (s : ExtraState)
    (h : s.is_filled = true ∨ n ≤ s.num_allocated) :
    extra_index arr sz n s = find_opt arr sz s.frames n (s.count + 1) := by
  unfold extra_index
  have : (s.is_filled || decide (n ≤ s.num_allocated)) = true := by
    simpa using h
  simp [this]

/-- Against any demand-paging run with no more frames, `extra` keeps its count of faults
below that of the other run, with a margin `d` that bounds how many more soon-referenced
pages the other run caches. -/
theorem opt_potential (arr : List Int) (m n : Nat) (hm : 1 ≤ m) (hmn : m ≤ n)
    (hpos : ∀ p ∈ arr, 0 ≤ p) (hlen : (arr.length : Int) ≤ INT_MAX) :
    ∀ k cA, Reach arr m k cA →
      ∃ d : Int, 0 ≤ d ∧
        (∀ j, (futureCount cA.frames (arr.drop k) j : Int) ≤
          futureCount (extra_run arr arr.length n k).frames (arr.drop k) j + d) ∧
        (extra_run arr arr.length n k).num_faults + d ≤ cA.num_faults := by
  have hn : 1 ≤ n := by omega
  have hnegarr : (-1 : Int) ∉ arr := fun h => by have := hpos _ h; omega
  -- the direct bound that holds as long as `extra` has evicted nothing
  have warm : ∀ k cA, Reach arr m k cA → (distinctPages (arr.take k)).length ≤ n →
      ∃ d : Int, 0 ≤ d ∧
        (∀ j, (futureCount cA.frames (arr.drop k) j : Int) ≤
          futureCount (extra_run arr arr.length n k).frames (arr.drop k) j + d) ∧
        (extra_run arr arr.length n k).num_faults + d ≤ cA.num_faults := by
    intro k cA hr hd
    have gA := hr.ginv hpos hm
    have gO := (extra_reach arr arr.length n hn hpos k hr.le_length).ginv hpos hn
    obtain ⟨_, w2, w3⟩ := gO.wu hd
    have w2' : (extra_run arr arr.length n k).frames = distinctPages (arr.take k) ++
      List.replicate (n - (distinctPages (arr.take k)).length) (-1) := w2
    have w3' : (extra_run arr arr.length n k).num_faults = 0 := w3
    refine ⟨0, le_refl _, ?_, by rw [w3']; simpa using gA.acct.1⟩
    intro j
    have := futureCount_le_of_subset cA.frames (extra_run arr arr.length n k).frames
      (arr.drop k) j gA.uniq ?_ (fun h => hnegarr (List.mem_of_mem_drop h))
    · omega
    · intro x hx hne
      rw [w2']
      rcases gA.sub x hx with h | h
      · exact absurd h hne
      · exact List.mem_append_left _ ((mem_distinctPages _ _).2 h)
  intro k cA hr
  induction hr with
  | init => exact warm 0 _ Reach.init (by simp [distinctPages_nil])
  | step k cA idx hr hk hidx hseq ih =>
    by_cases hwarm : (distinctPages (arr.take (k + 1))).length ≤ n
    · exact warm (k + 1) _ (Reach.step k cA idx hr hk hidx hseq) hwarm
    · obtain ⟨d, hd0, hb, hf⟩ := ih
      have gA := hr.ginv hpos hm
      have gO := (extra_reach arr arr.length n hn hpos k (by omega)).ginv hpos hn
      have hdk : n ≤ (distinctPages (arr.take k)).length := by
        have : (distinctPages (arr.take (k + 1))).length ≤
            (distinctPages (arr.take k)).length + 1 := by
          rw [take_succ_getD arr k hk, distinctPages_snoc]; split <;> simp
        omega
      have hp0 := hpos _ (getD_mem arr k hk)
      have hp1 : arr.getD k 0 ≠ -1 := by omega
      have hfillO := gO.filled_iff.2 hdk
      have hfillA := gA.filled_iff.2 (by omega)
      have hdrop := drop_eq_getD_cons arr k hk
      rw [hdrop] at hb
      -- the next state of `extra`
      have hcore : (extra_run arr arr.length n (k + 1)).core =
          core_step n (arr.getD k 0)
            (find_opt arr arr.length (extra_run arr arr.length n k).frames n (k + 1))
            (extra_run arr arr.length n k).core := by
        rw [extra_run_succ, extra_body_core, extra_index_full _ _ _ _ hfillO,
          extra_run_count]
      have hFO : (extra_run arr arr.length n (k + 1)).frames = _ :=
        (congrArg Core.frames hcore).trans (core_step_frames n _ _ _ gO.len)
      have hNO : (extra_run arr arr.length n (k + 1)).num_faults = _ :=
        (congrArg Core.num_faults hcore).trans (core_step_num_faults n _ _ _ gO.len)
      have hFA := core_step_frames m (arr.getD k 0) idx cA gA.len
      have hNA := core_step_num_faults m (arr.getD k 0) idx cA gA.len
      obtain ⟨d', h1, h2, h3⟩ := potential_step (extra_run arr arr.length n k).frames
        cA.frames (arr.getD k 0) (arr.drop (k + 1)) n m
        (find_opt arr arr.length (extra_run arr arr.length n k).frames n (k + 1)) idx
        gO.len gA.len hmn gO.uniq gA.uniq hp1 (find_opt_lt _ _ _ _ _ hn) hidx
        (by
          intro hmiss j hq i hi
          have hq' : (extra_run arr arr.length n k).frames.getD
              (find_opt arr arr.length (extra_run arr arr.length n k).frames n (k + 1)) 0 ∈
              (arr.drop k).take (j + 1) := by
            rw [hdrop, List.take_succ_cons]
            exact List.mem_cons_of_mem _ hq
          have := find_opt_far arr k n _ hn hlen (j + 1) hq' i hi
          rw [hdrop, List.take_succ_cons] at this
          rcases List.mem_cons.1 this with h | h
          · have lO : (extra_run arr arr.length n k).frames.length = n := gO.len
            exact absurd (h ▸ getD_mem _ i (by rw [lO]; exact hi)) hmiss
          · exact h)
        d hd0 hb
      refine ⟨d', h1, ?_, ?_⟩
      · intro j
        rw [hFO, hFA]
        exact h2 j
      · rw [hNO, hNA]
        have e1 : ((extra_run arr arr.length n k).core.is_filled = true ∨
            n ≤ (extra_run arr arr.length n k).core.num_allocated) := hfillO
        simp only [e1, hfillA, true_and]
        have hf' : (extra_run arr arr.length n k).core.num_faults + d ≤ cA.num_faults := hf
        have hF' : (extra_run arr arr.length n k).core.frames =
            (extra_run arr arr.length n k).frames := rfl
        rw [hF']
        by_cases c1 : arr.getD k 0 ∈ (extra_run arr arr.length n k).frames <;>
          by_cases c2 : arr.getD k 0 ∈ cA.frames <;>
          simp only [c1, c2, if_true, if_false, not_true_eq_false, not_false_eq_true] at h3 ⊢ <;>
          omega

/-- The policy `extra` reports no more faults than any demand-paging run with no more
frames. -/
theorem extra_le_reach (arr : List Int) (m n : Nat) (hm : 1 ≤ m) (hmn : m ≤ n)
    (hpos : ∀ p ∈ arr, 0 ≤ p) (hlen : (arr.length : Int) ≤ INT_MAX) (cA : Core)
    (hr : Reach arr m arr.length cA) :
    (extra arr arr.length n).1 ≤ cA.num_faults := by
  obtain ⟨d, hd, _, h⟩ := opt_potential arr m n hm hmn hpos hlen arr.length cA hr
  show (extra_run arr arr.length n arr.length).num_faults ≤ cA.num_faults
  omega

/-! ## Statistics, warm-up and the frame table -/

/-- C1: for every trace of non-negative pages and every `frame_num ≥ 1`, each of `fifo`,
`lru` and `extra` returns `0 ≤ stats[0] ≤ stats[1] ≤ length(trace)`. -/
theorem C1_stats_bounds (trace : List Int) (frame_num : Nat)
    (hpos : ∀ p ∈ trace, 0 ≤ p) (hn : 1 ≤ frame_num) :
    (0 ≤ (fifo trace trace.length frame_num).1 ∧
      (fifo trace trace.length frame_num).1 ≤ (fifo trace trace.length frame_num).2 ∧
      (fifo trace trace.length frame_num).2 ≤ trace.length) ∧
    (0 ≤ (lru trace trace.length frame_num).1 ∧
      (lru trace trace.length frame_num).1 ≤ (lru trace trace.length frame_num).2 ∧
      (lru trace trace.length frame_num).2 ≤ trace.length) ∧
    (0 ≤ (extra trace trace.length frame_num).1 ∧
      (extra trace trace.length frame_num).1 ≤ (extra trace trace.length frame_num).2 ∧
      (extra trace trace.length frame_num).2 ≤ trace.length) :=
  ⟨((fifo_reach trace frame_num hn _ (le_refl _)).1.ginv hpos hn).acct,
   ((lru_reach trace frame_num hn hpos _ (le_refl _)).1.ginv hpos hn).acct,
   ((extra_reach trace trace.length frame_num hn hpos _ (le_refl _)).ginv hpos hn).acct⟩

/-- Witness of C1 on the trace `[1,2,3,1,4]` with two frames. -/
theorem C1_stats_bounds_witness :
    (∀ p ∈ [1, 2, 3, 1, 4], (0 : Int) ≤ p) ∧ 1 ≤ 2 ∧
    ((0 ≤ (fifo [1, 2, 3, 1, 4] 5 2).1 ∧
      (fifo [1, 2, 3, 1, 4] 5 2).1 ≤ (fifo [1, 2, 3, 1, 4] 5 2).2 ∧
      (fifo [1, 2, 3, 1, 4] 5 2).2 ≤ 5) ∧
    (0 ≤ (lru [1, 2, 3, 1, 4] 5 2).1 ∧
      (lru [1, 2, 3, 1, 4] 5 2).1 ≤ (lru [1, 2, 3, 1, 4] 5 2).2 ∧
      (lru [1, 2, 3, 1, 4] 5 2).2 ≤ 5) ∧
    (0 ≤ (extra [1, 2, 3, 1, 4] 5 2).1 ∧
      (extra [1, 2, 3, 1, 4] 5 2).1 ≤ (extra [1, 2, 3, 1, 4] 5 2).2 ∧
      (extra [1, 2, 3, 1, 4] 5 2).2 ≤ 5)) :=
  ⟨by decide, by decide, C1_stats_bounds [1, 2, 3, 1, 4] 2 (by decide) (by decide)⟩

/-- With at least as many frames as distinct pages, a reachable final state has no
counted fault. -/
theorem no_fault_of_distinct_le (trace : List Int) (n : Nat) (c : Core)
    (hpos : ∀ p ∈ trace, 0 ≤ p) (hn : 1 ≤ n) (hd : trace.dedup.length ≤ n)
    (hr : Reach trace n trace.length c) : c.num_faults = 0 := by
  have hg := hr.ginv hpos hn
  have := hg.wu (by rw [List.take_length, distinctPages_length]; exact hd)
  exact this.2.2

/-- C5: if `frame_num` is at least the number of distinct pages of the trace, each of
`fifo`, `lru` and `extra` reports `0` faults. -/
theorem C5_enough_frames_no_faults (trace : List Int) (frame_num : Nat)
    (hpos : ∀ p ∈ trace, 0 ≤ p) (hn : 1 ≤ frame_num)
    (hd : trace.dedup.length ≤ frame_num) :
    (fifo trace trace.length frame_num).1 = 0 ∧
    (lru trace trace.length frame_num).1 = 0 ∧
    (extra trace trace.length frame_num).1 = 0 :=
  ⟨no_fault_of_distinct_le trace frame_num _ hpos hn hd
      (fifo_reach trace frame_num hn _ (le_refl _)).1,
   no_fault_of_distinct_le trace frame_num _ hpos hn hd
      (lru_reach trace frame_num hn hpos _ (le_refl _)).1,
   no_fault_of_distinct_le trace frame_num _ hpos hn hd
      (extra_reach trace trace.length frame_num hn hpos _ (le_refl _))⟩

/-- Witness of C5: three distinct pages, three frames. -/
theorem C5_enough_frames_no_faults_witness :
    (∀ p ∈ [4, 7, 4, 9, 7, 9, 4], (0 : Int) ≤ p) ∧ 1 ≤ 3 ∧
    ([4, 7, 4, 9, 7, 9, 4] : List Int).dedup.length ≤ 3 ∧
    ((fifo [4, 7, 4, 9, 7, 9, 4] 7 3).1 = 0 ∧ (lru [4, 7, 4, 9, 7, 9, 4] 7 3).1 = 0 ∧
      (extra [4, 7, 4, 9, 7, 9, 4] 7 3).1 = 0) :=
  ⟨by decide, by decide, by decide,
    C5_enough_frames_no_faults [4, 7, 4, 9, 7, 9, 4] 3 (by decide) (by decide) (by decide)⟩

/-- C6, as stated, fails: on Belady's trace `fifo` does not report 9 and 10 faults. -/
theorem C6_counterexample :
    ¬ ((fifo [1, 2, 3, 4, 1, 2, 5, 1, 2, 3, 4, 5] 12 3).1 = 9 ∧
       (fifo [1, 2, 3, 4, 1, 2, 5, 1, 2, 3, 4, 5] 12 4).1 = 10) := by
  decide

/-- C6, amended: on the trace `[1,2,3,4,1,2,5,1,2,3,4,5]` `fifo` makes 9 misses with 3
frames and 10 misses with 4 frames (Belady's anomaly, visible in `num_allocated`), of
which the warm-up misses are not reported: `stats[0]` is 6 with 3 frames and 6 with 4
frames. -/
theorem C6_fifo_scenario :
    (fifo [1, 2, 3, 4, 1, 2, 5, 1, 2, 3, 4, 5] 12 3).1 = 6 ∧
    (fifo [1, 2, 3, 4, 1, 2, 5, 1, 2, 3, 4, 5] 12 4).1 = 6 ∧
    (fifo_run [1, 2, 3, 4, 1, 2, 5, 1, 2, 3, 4, 5] 3 12).num_allocated = 9 ∧
    (fifo_run [1, 2, 3, 4, 1, 2, 5, 1, 2, 3, 4, 5] 4 12).num_allocated = 10 := by
  decide

/-- C7, as stated, fails: on the same trace `lru` does not report 10 and 8 faults. -/
theorem C7_counterexample :
    ¬ ((lru [1, 2, 3, 4, 1, 2, 5, 1, 2, 3, 4, 5] 12 3).1 = 10 ∧
       (lru [1, 2, 3, 4, 1, 2, 5, 1, 2, 3, 4, 5] 12 4).1 = 8) := by
  decide

/-- C7, amended: on the trace `[1,2,3,4,1,2,5,1,2,3,4,5]` `lru` makes 10 misses with 3
frames and 8 misses with 4 frames (`num_allocated`), of which the warm-up misses are not
reported: `stats[0]` is 7 with 3 frames and 4 with 4 frames. -/
theorem C7_lru_scenario :
    (lru [1, 2, 3, 4, 1, 2, 5, 1, 2, 3, 4, 5] 12 3).1 = 7 ∧
    (lru [1, 2, 3, 4, 1, 2, 5, 1, 2, 3, 4, 5] 12 4).1 = 4 ∧
    (lru_run [1, 2, 3, 4, 1, 2, 5, 1, 2, 3, 4, 5] 3 12).num_allocated = 10 ∧
    (lru_run [1, 2, 3, 4, 1, 2, 5, 1, 2, 3, 4, 5] 4 12).num_allocated = 8 := by
  decide

/-- C8: on `[0,0,0,0]` with one frame each policy makes exactly one miss, on the first
element and not counted, and returns `0` faults and `3` references. -/
theorem C8_scenario_single_page :
    (fifo [0, 0, 0, 0] 4 1 = (0, 3) ∧ (fifo_run [0, 0, 0, 0] 1 1).num_allocated = 1 ∧
      (fifo_run [0, 0, 0, 0] 1 1).num_faults = 0 ∧
      (fifo_run [0, 0, 0, 0] 1 4).num_allocated = 1) ∧
    (lru [0, 0, 0, 0] 4 1 = (0, 3) ∧ (lru_run [0, 0, 0, 0] 1 1).num_allocated = 1 ∧
      (lru_run [0, 0, 0, 0] 1 1).num_faults = 0 ∧
      (lru_run [0, 0, 0, 0] 1 4).num_allocated = 1) ∧
    (extra [0, 0, 0, 0] 4 1 = (0, 3) ∧ (extra_run [0, 0, 0, 0] 4 1 1).num_allocated = 1 ∧
      (extra_run [0, 0, 0, 0] 4 1 1).num_faults = 0 ∧
      (extra_run [0, 0, 0, 0] 4 1 4).num_allocated = 1) := by
  decide

/-- C9, as stated, fails: on the one-element trace `[0]` with one frame the only step is a
miss that brings `num_allocated` to `frame_num`, and neither `fifo` nor `lru` counts it. -/
theorem C9_counterexample :
    (fifo_run [0] 1 1).num_allocated = 1 ∧ (fifo [0] 1 1).2 ≠ 1 ∧
    (lru_run [0] 1 1).num_allocated = 1 ∧ (lru [0] 1 1).2 ≠ 1 := by
  decide

/-- C9, amended: in `fifo` and `lru` the fullness check precedes the update of the
allocation count, so a step entered with `num_allocated < frame_num` is not counted as a
reference, even when its miss brings `num_allocated` up to `frame_num`; a trace of length 1
with one frame yields `0` references. -/
theorem C9_fill_step_not_counted (trace : List Int) (frame_num k : Nat)
    (hpos : ∀ p ∈ trace, 0 ≤ p) (hn : 1 ≤ frame_num) (hk : k < trace.length) :
    ((fifo_run trace frame_num k).num_allocated < frame_num →
      (fifo_run trace frame_num (k + 1)).num_refs = (fifo_run trace frame_num k).num_refs) ∧
    ((lru_run trace frame_num k).num_allocated < frame_num →
      (lru_run trace frame_num (k + 1)).num_refs = (lru_run trace frame_num k).num_refs) ∧
    (∀ p : Int, (fifo [p] 1 1).2 = 0 ∧ (lru [p] 1 1).2 = 0) := by
  refine ⟨?_, ?_, fun p => ⟨rfl, rfl⟩⟩
  · intro hlt
    have hg := (fifo_reach trace frame_num hn k (by omega)).1.ginv hpos hn
    have hnf : (fifo_run trace frame_num k).is_filled = false := by
      by_contra hf
      have := hg.filled_le (by simpa using hf)
      simp only [FifoState.core] at this
      omega
    have : ¬ frame_num ≤ (fifo_run trace frame_num k).num_allocated := by omega
    rw [fifo_run_succ]
    simp [fifo_body, hnf, this]
  · intro hlt
    have hg := (lru_reach trace frame_num hn hpos k (by omega)).1.ginv hpos hn
    have hnf : (lru_run trace frame_num k).is_filled = false := by
      by_contra hf
      have := hg.filled_le (by simpa using hf)
      simp only [LruState.core] at this
      omega
    have : ¬ frame_num ≤ (lru_run trace frame_num k).num_allocated := by omega
    rw [lru_run_succ]
    simp [lru_body, hnf, this]

/-- Witness of C9 (amended): the second step of `[3, 5, 3]` with two frames fills the table
and leaves the reference count unchanged. -/
theorem C9_fill_step_not_counted_witness :
    (∀ p ∈ [3, 5, 3], (0 : Int) ≤ p) ∧ 1 ≤ 2 ∧ 1 < ([3, 5, 3] : List Int).length ∧
    (((fifo_run [3, 5, 3] 2 1).num_allocated < 2 →
      (fifo_run [3, 5, 3] 2 (1 + 1)).num_refs = (fifo_run [3, 5, 3] 2 1).num_refs) ∧
    ((lru_run [3, 5, 3] 2 1).num_allocated < 2 →
      (lru_run [3, 5, 3] 2 (1 + 1)).num_refs = (lru_run [3, 5, 3] 2 1).num_refs) ∧
    (∀ p : Int, (fifo [p] 1 1).2 = 0 ∧ (lru [p] 1 1).2 = 0)) :=
  ⟨by decide, by decide, by decide,
    C9_fill_step_not_counted [3, 5, 3] 2 1 (by decide) (by decide) (by decide)⟩

/-- C10: for each of `fifo`, `lru` and `extra`, after every step no page identifier
occupies two slots of the frame table; only the sentinel `-1` may repeat. -/
theorem C10_frame_table_unique (trace : List Int) (frame_num : Nat)
    (hpos : ∀ p ∈ trace, 0 ≤ p) (hn : 1 ≤ frame_num) (k : Nat) (hk : k ≤ trace.length) :
    UniquePages (fifo_run trace frame_num k).frames ∧
    UniquePages (lru_run trace frame_num k).frames ∧
    UniquePages (extra_run trace trace.length frame_num k).frames :=
  ⟨uniq_index _ ((fifo_reach trace frame_num hn k hk).1.ginv hpos hn).uniq,
   uniq_index _ ((lru_reach trace frame_num hn hpos k hk).1.ginv hpos hn).uniq,
   uniq_index _ ((extra_reach trace trace.length frame_num hn hpos k hk).ginv hpos hn).uniq⟩

/-- Witness of C10 after four steps of `[1, 2, 1, 3, 2]` with two frames. -/
theorem C10_frame_table_unique_witness :
    (∀ p ∈ [1, 2, 1, 3, 2], (0 : Int) ≤ p) ∧ 1 ≤ 2 ∧ 4 ≤ ([1, 2, 1, 3, 2] : List Int).length ∧
    (UniquePages (fifo_run [1, 2, 1, 3, 2] 2 4).frames ∧
     UniquePages (lru_run [1, 2, 1, 3, 2] 2 4).frames ∧
     UniquePages (extra_run [1, 2, 1, 3, 2] ([1, 2, 1, 3, 2] : List Int).length 2 4).frames) :=
  ⟨by decide, by decide, by decide,
    C10_frame_table_unique [1, 2, 1, 3, 2] 2 (by decide) (by decide) 4 (by decide)⟩

/-- C3: LRU monotonicity: for `1 ≤ m ≤ n` the fault count `lru` reports with `n` frames is
at most the one it reports with `m` frames. -/
theorem C3_lru_monotone (trace : List Int) (m n : Nat)
    (hpos : ∀ p ∈ trace, 0 ≤ p) (hm : 1 ≤ m) (hmn : m ≤ n) :
    (lru trace trace.length n).1 ≤ (lru trace trace.length m).1 :=
  (lru_inclusion trace m n hm hmn hpos trace.length (le_refl _)).2

/-- Witness of C3 on the trace `[1,2,3,4,1,2,5,1,2,3,4,5]` with 3 and 4 frames. -/
theorem C3_lru_monotone_witness :
    (∀ p ∈ [1, 2, 3, 4, 1, 2, 5, 1, 2, 3, 4, 5], (0 : Int) ≤ p) ∧ 1 ≤ 3 ∧ 3 ≤ 4 ∧
    (lru [1, 2, 3, 4, 1, 2, 5, 1, 2, 3, 4, 5]
        ([1, 2, 3, 4, 1, 2, 5, 1, 2, 3, 4, 5] : List Int).length 4).1 ≤
      (lru [1, 2, 3, 4, 1, 2, 5, 1, 2, 3, 4, 5]
        ([1, 2, 3, 4, 1, 2, 5, 1, 2, 3, 4, 5] : List Int).length 3).1 :=
  ⟨by decide, by decide, by decide,
    C3_lru_monotone [1, 2, 3, 4, 1, 2, 5, 1, 2, 3, 4, 5] 3 4 (by decide) (by decide) (by decide)⟩

/-- C2: optimality law: for every trace of non-negative pages (of a length that fits the
`int` parameter `arr_size`) and every `frame_num ≥ 1`, `extra` reports at most as many
faults as `lru` and as `fifo`. -/
theorem C2_opt_le_lru_fifo (trace : List Int) (frame_num : Nat)
    (hpos : ∀ p ∈ trace, 0 ≤ p) (hn : 1 ≤ frame_num)
    (hlen : (trace.length : Int) ≤ INT_MAX) :
    (extra trace trace.length frame_num).1 ≤ (lru trace trace.length frame_num).1 ∧
    (extra trace trace.length frame_num).1 ≤ (fifo trace trace.length frame_num).1 :=
  ⟨extra_le_reach trace frame_num frame_num hn (le_refl _) hpos hlen _
      (lru_reach trace frame_num hn hpos _ (le_refl _)).1,
   extra_le_reach trace frame_num frame_num hn (le_refl _) hpos hlen _
      (fifo_reach trace frame_num hn _ (le_refl _)).1⟩

/-- Witness of C2 on the trace `[1,2,3,4,1,2,5,1,2,3,4,5]` with 3 frames. -/
theorem C2_opt_le_lru_fifo_witness :
    (∀ p ∈ [1, 2, 3, 4, 1, 2, 5, 1, 2, 3, 4, 5], (0 : Int) ≤ p) ∧ 1 ≤ 3 ∧
    ((([1, 2, 3, 4, 1, 2, 5, 1, 2, 3, 4, 5] : List Int).length : Int) ≤ INT_MAX) ∧
    ((extra [1, 2, 3, 4, 1, 2, 5, 1, 2, 3, 4, 5]
        ([1, 2, 3, 4, 1, 2, 5, 1, 2, 3, 4, 5] : List Int).length 3).1 ≤
      (lru [1, 2, 3, 4, 1, 2, 5, 1, 2, 3, 4, 5]
        ([1, 2, 3, 4, 1, 2, 5, 1, 2, 3, 4, 5] : List Int).length 3).1 ∧
     (extra [1, 2, 3, 4, 1, 2, 5, 1, 2, 3, 4, 5]
        ([1, 2, 3, 4, 1, 2, 5, 1, 2, 3, 4, 5] : List Int).length 3).1 ≤
      (fifo [1, 2, 3, 4, 1, 2, 5, 1, 2, 3, 4, 5]
        ([1, 2, 3, 4, 1, 2, 5, 1, 2, 3, 4, 5] : List Int).length 3).1) :=
  ⟨by decide, by decide, by decide,
    C2_opt_le_lru_fifo [1, 2, 3, 4, 1, 2, 5, 1, 2, 3, 4, 5] 3 (by decide) (by decide)
      (by decide)⟩

/-- C4: OPT monotonicity: for `1 ≤ m ≤ n` the fault count `extra` reports with `n` frames
is at most the one it reports with `m` frames. -/
theorem C4_opt_monotone (trace : List Int) (m n : Nat)
    (hpos : ∀ p ∈ trace, 0 ≤ p) (hm : 1 ≤ m) (hmn : m ≤ n)
    (hlen : (trace.length : Int) ≤ INT_MAX) :
    (extra trace trace.length n).1 ≤ (extra trace trace.length m).1 :=
  extra_le_reach trace m n hm hmn hpos hlen _
    (extra_reach trace trace.length m hm hpos _ (le_refl _))

/-- Witness of C4 on the trace `[1,2,3,4,1,2,5,1,2,3,4,5]` with 3 and 4 frames. -/
theorem C4_opt_monotone_witness :
    (∀ p ∈ [1, 2, 3, 4, 1, 2, 5, 1, 2, 3, 4, 5], (0 : Int) ≤ p) ∧ 1 ≤ 3 ∧ 3 ≤ 4 ∧
    ((([1, 2, 3, 4, 1, 2, 5, 1, 2, 3, 4, 5] : List Int).length : Int) ≤ INT_MAX) ∧
    (extra [1, 2, 3, 4, 1, 2, 5, 1, 2, 3, 4, 5]
        ([1, 2, 3, 4, 1, 2, 5, 1, 2, 3, 4, 5] : List Int).length 4).1 ≤
      (extra [1, 2, 3, 4, 1, 2, 5, 1, 2, 3, 4, 5]
        ([1, 2, 3, 4, 1, 2, 5, 1, 2, 3, 4, 5] : List Int).length 3).1 :=
  ⟨by decide, by decide, by decide, by decide,
    C4_opt_monotone [1, 2, 3, 4, 1, 2, 5, 1, 2, 3, 4, 5] 3 4 (by decide) (by decide)
      (by decide) (by decide)⟩

/-! ## Specifications of `search`, `find_max` and `find_opt` -/

theorem mem_take_iff_getD (arr : List Int) (size : Nat) (x : Int) (hsize : size ≤ arr.length) :
    x ∈ arr.take size ↔ ∃ i, i < size ∧ arr.getD i 0 = x := by
  have := mem_take_drop_iff arr 0 size x
  rw [List.drop_zero] at this
  rw [this]
  constructor
  · rintro ⟨t, h1, _, h3⟩
    exact ⟨t, h1, by simpa using h3⟩
  · rintro ⟨t, h1, h3⟩
    exact ⟨t, h1, by omega, by simpa using h3⟩

/-- C12: `search(arr, size, item)` returns `-1` if and only if `item` does not occur in
`arr[0..size-1]`; otherwise it returns the smallest index `i < size` with
`arr[i] = item`. -/
theorem C12_search_spec (arr : List Int) (size : Nat) (item : Int)
    (hsize : size ≤ arr.length) :
    (search arr size item = -1 ↔ item ∉ arr.take size) ∧
    (item ∈ arr.take size →
      ∃ i : Nat, search arr size item = (i : Int) ∧ i < size ∧ arr.getD i 0 = item ∧
        ∀ t, t < i → arr.getD t 0 ≠ item) := by
  have hiff : search arr size item = -1 ↔ item ∉ arr.take size := by
    unfold search
    rw [search_loop_eq_neg_one, mem_take_iff_getD arr size item hsize]
    constructor
    · rintro h ⟨i, hi, he⟩
      exact h i (Nat.zero_le _) (by omega) he
    · intro h j _ hj he
      exact h ⟨j, by omega, he⟩
  refine ⟨hiff, ?_⟩
  intro hin
  have hne : search arr size item ≠ -1 := fun h => (hiff.1 h) hin
  obtain ⟨j, h1, _, h3, h4, h5⟩ := search_loop_found arr item size 0 hne
  exact ⟨j, h1, by omega, h4, fun t ht => h5 t (Nat.zero_le _) ht⟩

/-- Witness of C12: the item 7 occurs twice in `[5, 7, 9, 7]`. -/
theorem C12_search_spec_witness :
    4 ≤ ([5, 7, 9, 7] : List Int).length ∧
    ((search [5, 7, 9, 7] 4 7 = -1 ↔ (7 : Int) ∉ ([5, 7, 9, 7] : List Int).take 4) ∧
    ((7 : Int) ∈ ([5, 7, 9, 7] : List Int).take 4 →
      ∃ i : Nat, search [5, 7, 9, 7] 4 7 = (i : Int) ∧ i < 4 ∧
        ([5, 7, 9, 7] : List Int).getD i 0 = 7 ∧
        ∀ t, t < i → ([5, 7, 9, 7] : List Int).getD t 0 ≠ 7)) :=
  ⟨by decide, C12_search_spec [5, 7, 9, 7] 4 7 (by decide)⟩

/-- C13: for `size ≥ 1`, `find_max(arr, size)` returns an index `m < size` with
`arr[m] ≥ arr[i]` for every `i < size` and `arr[i] < arr[m]` for every `i < m`. -/
theorem C13_find_max_spec (arr : List Int) (size : Nat) (hsize : 1 ≤ size) :
    find_max arr size < size ∧
    (∀ i, i < size → arr.getD i 0 ≤ arr.getD (find_max arr size) 0) ∧
    (∀ i, i < find_max arr size → arr.getD i 0 < arr.getD (find_max arr size) 0) :=
  find_max_spec arr size hsize

/-- Witness of C13 on `[3, 8, 2, 8]`, whose maximum occurs twice. -/
theorem C13_find_max_spec_witness :
    1 ≤ 4 ∧
    (find_max [3, 8, 2, 8] 4 < 4 ∧
    (∀ i, i < 4 → ([3, 8, 2, 8] : List Int).getD i 0 ≤
      ([3, 8, 2, 8] : List Int).getD (find_max [3, 8, 2, 8] 4) 0) ∧
    (∀ i, i < find_max [3, 8, 2, 8] 4 → ([3, 8, 2, 8] : List Int).getD i 0 <
      ([3, 8, 2, 8] : List Int).getD (find_max [3, 8, 2, 8] 4) 0)) :=
  ⟨by decide, C13_find_max_spec [3, 8, 2, 8] 4 (by decide)⟩


theorem indexOf_eq_of_first : ∀ (l : List Int) (x : Int) (t : Nat), t < l.length →
    l.getD t 0 = x → (∀ u, u < t → l.getD u 0 ≠ x) → l.indexOf x = t := by
  intro l
  induction l with
  | nil => intro x t ht; simp at ht
  | cons a l ih =>
    intro x t ht h1 h2
    cases t with
    | zero =>
      have : a = x := by simpa using h1
      rw [this, List.indexOf_cons_self]
    | succ t =>
      have hax : a ≠ x := by simpa using h2 0 (by omega)
      rw [List.indexOf_cons_ne _ hax]
      have := ih x t (by simpa using ht) (by simpa using h1)
        (fun u hu => by simpa using h2 (u + 1) (by omega))
      omega

theorem getD_take_drop (pages : List Int) (np j t : Nat) (hnp : np ≤ pages.length)
    (ht : j + t < np) :
    ((pages.take np).drop j).getD t 0 = pages.getD (j + t) 0 := by
  have h1 : t < ((pages.take np).drop j).length := by
    simp only [List.length_drop, List.length_take]; omega
  rw [List.getD_eq_getElem _ _ h1, List.getD_eq_getElem _ _ (by omega), List.getElem_drop,
    List.getElem_take]

/-- The value that the scan of `find_opt` leaves for a page encodes its next-use
distance: `INT_MAX` for an infinite distance, the distance itself otherwise. -/
theorem find_opt_scan_distance (pages : List Int) (np nr : Nat) (x : Int)
    (hr2 : nr ≤ np) (hnp : np ≤ pages.length) (hmax : (np : Int) ≤ INT_MAX) :
    (next_use_distance pages np nr x = ⊤ ∧
      find_opt_scan pages x (np - (nr - 1)) (nr - 1) 0 = INT_MAX) ∨
    (∃ t : Nat, next_use_distance pages np nr x = ((t : Nat) : WithTop Nat) ∧
      find_opt_scan pages x (np - (nr - 1)) (nr - 1) 0 = (t : Int) ∧ (t : Int) < INT_MAX) := by
  have hlen : ((pages.take np).drop (nr - 1)).length = np - (nr - 1) := by
    simp only [List.length_drop, List.length_take]; omega
  rcases find_opt_scan_cases pages x (np - (nr - 1)) (nr - 1) 0 with
    ⟨h1, h2⟩ | ⟨t, h1, h2, h3, h4⟩
  · left
    refine ⟨?_, h1⟩
    unfold next_use_distance
    rw [if_neg]
    intro hin
    obtain ⟨t, ht, he⟩ := (mem_iff_getD _ _).1 hin
    rw [hlen] at ht
    rw [getD_take_drop pages np (nr - 1) t hnp (by omega)] at he
    exact h2 t ht he
  · right
    refine ⟨t, ?_, by rw [h2]; simp, by omega⟩
    have hget : ((pages.take np).drop (nr - 1)).getD t 0 = x := by
      rw [getD_take_drop pages np (nr - 1) t hnp (by omega)]; exact h3
    have hin : x ∈ (pages.take np).drop (nr - 1) :=
      (mem_iff_getD _ _).2 ⟨t, by omega, hget⟩
    unfold next_use_distance
    rw [if_pos hin]
    congr 1
    refine indexOf_eq_of_first _ x t (by omega) hget ?_
    intro u hu
    rw [getD_take_drop pages np (nr - 1) u hnp (by omega)]
    exact h4 u hu

/-- C11: for `num_frames ≥ 1` and `1 ≤ num_read ≤ num_pages`, `find_opt` returns the
smallest slot index that maximises the next-use distance of the page in the slot (offset of
its first occurrence in `pages[num_read-1 .. num_pages-1]`, infinite if there is none); if
some slots hold pages with no future reference it returns the first of them. -/
theorem C11_find_opt_spec (pages frames : List Int) (num_pages num_frames num_read : Nat)
    (hf : 1 ≤ num_frames) (_hr1 : 1 ≤ num_read) (hr2 : num_read ≤ num_pages)
    (hnp : num_pages ≤ pages.length) (hmax : (num_pages : Int) ≤ INT_MAX) :
    find_opt pages num_pages frames num_frames num_read < num_frames ∧
    (∀ i, i < num_frames →
      next_use_distance pages num_pages num_read (frames.getD i 0) ≤
        next_use_distance pages num_pages num_read
          (frames.getD (find_opt pages num_pages frames num_frames num_read) 0)) ∧
    (∀ i, i < find_opt pages num_pages frames num_frames num_read →
      next_use_distance pages num_pages num_read (frames.getD i 0) <
        next_use_distance pages num_pages num_read
          (frames.getD (find_opt pages num_pages frames num_frames num_read) 0)) ∧
    (∀ i, i < num_frames →
      next_use_distance pages num_pages num_read (frames.getD i 0) = ⊤ →
      next_use_distance pages num_pages num_read
          (frames.getD (find_opt pages num_pages frames num_frames num_read) 0) = ⊤ ∧
        find_opt pages num_pages frames num_frames num_read ≤ i) := by
  obtain ⟨v1, v2, v3⟩ := find_max_spec
    (find_opt_loop pages num_pages frames num_read (List.replicate num_frames INT_MAX)
      num_frames 0) num_frames hf
  have hget : ∀ u, u < num_frames →
      (find_opt_loop pages num_pages frames num_read (List.replicate num_frames INT_MAX)
        num_frames 0).getD u 0 =
        find_opt_scan pages (frames.getD u 0) (num_pages - (num_read - 1)) (num_read - 1) 0 := by
    intro u hu
    rw [find_opt_loop_getD]
    have : (0 ≤ u ∧ u < 0 + num_frames ∧ u < (List.replicate num_frames INT_MAX).length) := by
      simp; omega
    simp only [this, and_self, if_true]
  have hv : find_opt pages num_pages frames num_frames num_read =
      find_max (find_opt_loop pages num_pages frames num_read
        (List.replicate num_frames INT_MAX) num_frames 0) num_frames := rfl
  rw [hv]
  generalize find_max (find_opt_loop pages num_pages frames num_read
        (List.replicate num_frames INT_MAX) num_frames 0) num_frames = v at *
  have hle : ∀ i, i < num_frames →
      next_use_distance pages num_pages num_read (frames.getD i 0) ≤
        next_use_distance pages num_pages num_read (frames.getD v 0) := by
    intro i hi
    have h := v2 i hi
    rw [hget i hi, hget v v1] at h
    rcases find_opt_scan_distance pages num_pages num_read (frames.getD v 0) hr2 hnp hmax with
      ⟨d1, _⟩ | ⟨t, d1, d2, d3⟩
    · rw [d1]; exact le_top
    · rcases find_opt_scan_distance pages num_pages num_read (frames.getD i 0) hr2 hnp hmax with
        ⟨_, e2⟩ | ⟨u, e1, e2, _⟩
      · rw [e2, d2] at h; omega
      · rw [e1, d1]
        rw [e2, d2] at h
        exact_mod_cast (show u ≤ t by omega)
  have hlt : ∀ i, i < v →
      next_use_distance pages num_pages num_read (frames.getD i 0) <
        next_use_distance pages num_pages num_read (frames.getD v 0) := by
    intro i hi
    have h := v3 i hi
    rw [hget i (by omega), hget v v1] at h
    rcases find_opt_scan_distance pages num_pages num_read (frames.getD i 0) hr2 hnp hmax with
      ⟨_, e2⟩ | ⟨u, e1, e2, e3⟩
    · rcases find_opt_scan_distance pages num_pages num_read (frames.getD v 0) hr2 hnp hmax with
        ⟨_, d2⟩ | ⟨t, _, d2, d3⟩
      · rw [e2, d2] at h; omega
      · rw [e2, d2] at h; omega
    · rcases find_opt_scan_distance pages num_pages num_read (frames.getD v 0) hr2 hnp hmax with
        ⟨d1, _⟩ | ⟨t, d1, d2, _⟩
      · rw [e1, d1]; exact WithTop.coe_lt_top u
      · rw [e1, d1]
        rw [e2, d2] at h
        exact_mod_cast (show u < t by omega)
  refine ⟨v1, hle, hlt, ?_⟩
  intro i hi htop
  have h1 := hle i hi
  rw [htop, top_le_iff] at h1
  refine ⟨h1, ?_⟩
  by_contra hgt
  have h2 := hlt i (by omega)
  rw [htop, h1] at h2
  exact lt_irrefl _ h2

/-- Witness of C11: three slots of which the second and the third hold pages that are not
referenced again. -/
theorem C11_find_opt_spec_witness :
    1 ≤ 3 ∧ 1 ≤ 3 ∧ 3 ≤ 6 ∧ 6 ≤ ([1, 2, 3, 4, 1, 5] : List Int).length ∧
    (((6 : Nat) : Int) ≤ INT_MAX) ∧
    (find_opt [1, 2, 3, 4, 1, 5] 6 [1, 2, 3] 3 3 < 3 ∧
    (∀ i, i < 3 →
      next_use_distance [1, 2, 3, 4, 1, 5] 6 3 (([1, 2, 3] : List Int).getD i 0) ≤
        next_use_distance [1, 2, 3, 4, 1, 5] 6 3
          (([1, 2, 3] : List Int).getD (find_opt [1, 2, 3, 4, 1, 5] 6 [1, 2, 3] 3 3) 0)) ∧
    (∀ i, i < find_opt [1, 2, 3, 4, 1, 5] 6 [1, 2, 3] 3 3 →
      next_use_distance [1, 2, 3, 4, 1, 5] 6 3 (([1, 2, 3] : List Int).getD i 0) <
        next_use_distance [1, 2, 3, 4, 1, 5] 6 3
          (([1, 2, 3] : List Int).getD (find_opt [1, 2, 3, 4, 1, 5] 6 [1, 2, 3] 3 3) 0)) ∧
    (∀ i, i < 3 →
      next_use_distance [1, 2, 3, 4, 1, 5] 6 3 (([1, 2, 3] : List Int).getD i 0) = ⊤ →
      next_use_distance [1, 2, 3, 4, 1, 5] 6 3
          (([1, 2, 3] : List Int).getD (find_opt [1, 2, 3, 4, 1, 5] 6 [1, 2, 3] 3 3) 0) = ⊤ ∧
        find_opt [1, 2, 3, 4, 1, 5] 6 [1, 2, 3] 3 3 ≤ i)) :=
  ⟨by decide, by decide, by decide, by decide, by decide,
    C11_find_opt_spec [1, 2, 3, 4, 1, 5] [1, 2, 3] 6 3 3 (by decide) (by decide) (by decide)
      (by decide) (by decide)⟩


/-! ## Verbose mode: the runs on the caller's memory compute `fifo`, `lru` and `extra` -/

theorem getElem?_eq_some_getD (a : List Int) (i : Nat) (h : i < a.length) :
    a[i]? = some (a.getD i 0) := by
  rw [List.getElem?_eq_getElem h, List.getD_eq_getElem _ _ h]

theorem checked_set_lt (a : List Int) (k : Nat) (v : Int) (h : k < a.length) :
    checked_set a k v = some (a.set k v) := by
  unfold checked_set
  rw [if_pos h]

theorem checked_mod_pos (a b : Nat) (h : 1 ≤ b) : checked_mod a b = some (a % b) := by
  unfold checked_mod
  rw [if_neg (by omega)]

/-- The loop of `display` reads `frames` within its bounds and leaves it as it was. -/
theorem display_loop_frame : ∀ (fuel i : Nat) (frames : List Int) (out : String),
    i + fuel ≤ frames.length →
      ∃ out1, display_loop fuel i (frames, out) = some (frames, out1) := by
  intro fuel
  induction fuel with
  | zero => intro i frames out _; exact ⟨out, rfl⟩
  | succ f ih =>
    intro i frames out h
    unfold display_loop
    simp only
    rw [getElem?_eq_some_getD frames i (by omega)]
    exact ih (i + 1) frames _ (by omega)

/-- A call of `display` on an array of `num_frames ≥ 1` cells reads within bounds, prints,
and leaves `frames` as it was. -/
theorem display_frame (frames : List Int) (num_frames : Nat) (page : Int) (faulted : Bool)
    (out : String) (hlen : frames.length = num_frames) (hn : 1 ≤ num_frames) :
    ∃ out1, display frames num_frames page faulted out = some (frames, out1) := by
  obtain ⟨o1, h1⟩ := display_loop_frame (num_frames - 1) 0 frames
    (out ++ (fmt_2d page ++ ": [")) (by omega)
  unfold display
  rw [h1]
  simp only [Option.bind]
  rw [getElem?_eq_some_getD frames (num_frames - 1) (by omega)]
  exact ⟨_, rfl⟩

theorem display_if_frame (verbose : Bool) (frames : List Int) (num_frames : Nat) (page : Int)
    (faulted : Bool) (out : String) (hlen : frames.length = num_frames)
    (hn : 1 ≤ num_frames) :
    ∃ out1, (verbose = false → out1 = out) ∧
      (if verbose then display frames num_frames page faulted out
        else some (frames, out)) = some (frames, out1) := by
  cases verbose with
  | false => exact ⟨out, fun _ => rfl, rfl⟩
  | true =>
    obtain ⟨o, ho⟩ := display_frame frames num_frames page faulted out hlen hn
    exact ⟨o, fun h => absurd h (by simp), ho⟩

/-- With `frame_num ≥ 1`, a table of `frame_num` cells and the cursor below `frame_num`,
an iteration of `fifo` on the caller's memory makes no access out of bounds, updates the
local variables as `fifo_body` does and leaves `arr` as it was. -/
theorem fifo_body_v_spec (n : Nat) (verbose : Bool) (i : Nat) (m : Machine FifoState)
    (hn : 1 ≤ n) (hi : i < m.arr.length) (hlen : m.vars.frames.length = n)
    (hp : m.vars.pointer < n) :
    ∃ out, (verbose = false → out = m.stdout) ∧ fifo_body_v n verbose i m =
      some { vars := fifo_body m.arr n i m.vars, arr := m.arr, stdout := out } := by
  unfold fifo_body_v
  rw [getElem?_eq_some_getD m.arr i hi]
  simp only [Option.bind]
  by_cases hres : search m.vars.frames n (m.arr.getD i 0) = -1
  · rw [if_pos hres, checked_set_lt _ _ _ (by omega), checked_mod_pos _ _ hn]
    simp only [Option.bind]
    obtain ⟨o, hq, ho⟩ := display_if_frame verbose (m.vars.frames.set m.vars.pointer (m.arr.getD i 0))
      n (m.arr.getD i 0)
      (true && (m.vars.is_filled || decide (n ≤ m.vars.num_allocated))) m.stdout
      (by rw [List.length_set]; exact hlen) hn
    rw [ho]
    refine ⟨o, hq, ?_⟩
    simp [fifo_body, hres, -List.getD_eq_getElem?_getD]
  · rw [if_neg hres]
    simp only [Option.bind]
    obtain ⟨o, hq, ho⟩ := display_if_frame verbose m.vars.frames n (m.arr.getD i 0)
      (false && (m.vars.is_filled || decide (n ≤ m.vars.num_allocated))) m.stdout hlen hn
    rw [ho]
    refine ⟨o, hq, ?_⟩
    simp [fifo_body, hres, -List.getD_eq_getElem?_getD]

theorem fifo_body_inv (arr : List Int) (n i : Nat) (s : FifoState) (hn : 1 ≤ n)
    (hlen : s.frames.length = n) (hp : s.pointer < n) :
    (fifo_body arr n i s).frames.length = n ∧ (fifo_body arr n i s).pointer < n := by
  unfold fifo_body
  simp only
  constructor
  · split
    · rw [List.length_set]; exact hlen
    · exact hlen
  · split
    · exact Nat.mod_lt _ (by omega)
    · exact hp

theorem fifo_loop_v_spec (n : Nat) (verbose : Bool) (hn : 1 ≤ n) :
    ∀ (fuel i : Nat) (m : Machine FifoState), i + fuel ≤ m.arr.length →
      m.vars.frames.length = n → m.vars.pointer < n →
      ∃ m1, fifo_loop_v n verbose fuel i m = some m1 ∧
        m1.vars = fifo_loop m.arr n fuel i m.vars ∧ m1.arr = m.arr ∧
        (verbose = false → m1.stdout = m.stdout) := by
  intro fuel
  induction fuel with
  | zero => intro i m _ _ _; exact ⟨m, rfl, rfl, rfl, fun _ => rfl⟩
  | succ f ih =>
    intro i m hi hlen hp
    obtain ⟨o, hq, ho⟩ := fifo_body_v_spec n verbose i m hn (by omega) hlen hp
    obtain ⟨i1, i2⟩ := fifo_body_inv m.arr n i m.vars hn hlen hp
    obtain ⟨m1, h1, h2, h3, h4⟩ := ih (i + 1)
      { vars := fifo_body m.arr n i m.vars, arr := m.arr, stdout := o } (by
        show i + 1 + f ≤ m.arr.length
        omega) i1 i2
    unfold fifo_loop_v
    rw [ho]
    exact ⟨m1, h1, h2, h3, fun hv => (h4 hv).trans (hq hv)⟩

/-- With `frame_num ≥ 1` and tables of `frame_num` cells, an iteration of `lru` on the
caller's memory makes no access out of bounds, updates the local variables as `lru_body`
does and leaves `arr` as it was. -/
theorem lru_body_v_spec (n : Nat) (verbose : Bool) (i : Nat) (m : Machine LruState)
    (hn : 1 ≤ n) (hi : i < m.arr.length) (hlen : m.vars.frames.length = n)
    (hlu : m.vars.last_used.length = n) :
    ∃ out, (verbose = false → out = m.stdout) ∧ lru_body_v n verbose i m =
      some { vars := lru_body m.arr n i m.vars, arr := m.arr, stdout := out } := by
  have hinc : (increment_arr m.vars.last_used n).length = n := by
    rw [increment_arr_length]; exact hlu
  have hmax : find_max (increment_arr m.vars.last_used n) n < n := (find_max_spec _ n hn).1
  unfold lru_body_v
  simp only
  rw [getElem?_eq_some_getD m.arr i hi]
  simp only [Option.bind]
  by_cases hres : search m.vars.frames n (m.arr.getD i 0) = -1
  · rw [if_pos hres, checked_set_lt _ _ _ (by omega), checked_set_lt _ _ _ (by omega)]
    simp only [Option.bind]
    obtain ⟨o, hq, ho⟩ := display_if_frame verbose
      (m.vars.frames.set (find_max (increment_arr m.vars.last_used n) n) (m.arr.getD i 0))
      n (m.arr.getD i 0)
      (true && (m.vars.is_filled || decide (n ≤ m.vars.num_allocated))) m.stdout
      (by rw [List.length_set]; exact hlen) hn
    rw [ho]
    refine ⟨o, hq, ?_⟩
    simp [lru_body, hres, -List.getD_eq_getElem?_getD]
  · obtain ⟨j, h1, _, h3, _, _⟩ := search_loop_found m.vars.frames (m.arr.getD i 0) n 0 hres
    have hj : (search m.vars.frames n (m.arr.getD i 0)).toNat < n := by
      have : search m.vars.frames n (m.arr.getD i 0) = (j : Int) := h1
      rw [this, Int.toNat_natCast]
      omega
    rw [if_neg hres, checked_set_lt _ _ _ (by omega)]
    simp only [Option.bind]
    obtain ⟨o, hq, ho⟩ := display_if_frame verbose m.vars.frames n (m.arr.getD i 0)
      (false && (m.vars.is_filled || decide (n ≤ m.vars.num_allocated))) m.stdout hlen hn
    rw [ho]
    refine ⟨o, hq, ?_⟩
    simp [lru_body, hres, -List.getD_eq_getElem?_getD]

theorem lru_body_inv (arr : List Int) (n i : Nat) (s : LruState)
    (hlen : s.frames.length = n) (hlu : s.last_used.length = n) :
    (lru_body arr n i s).frames.length = n ∧ (lru_body arr n i s).last_used.length = n := by
  unfold lru_body
  simp only
  constructor
  · split
    · rw [List.length_set]; exact hlen
    · exact hlen
  · split <;> rw [List.length_set, increment_arr_length] <;> exact hlu

theorem lru_loop_v_spec (n : Nat) (verbose : Bool) (hn : 1 ≤ n) :
    ∀ (fuel i : Nat) (m : Machine LruState), i + fuel ≤ m.arr.length →
      m.vars.frames.length = n → m.vars.last_used.length = n →
      ∃ m1, lru_loop_v n verbose fuel i m = some m1 ∧
        m1.vars = lru_loop m.arr n fuel i m.vars ∧ m1.arr = m.arr ∧
        (verbose = false → m1.stdout = m.stdout) := by
  intro fuel
  induction fuel with
  | zero => intro i m _ _ _; exact ⟨m, rfl, rfl, rfl, fun _ => rfl⟩
  | succ f ih =>
    intro i m hi hlen hlu
    obtain ⟨o, hq, ho⟩ := lru_body_v_spec n verbose i m hn (by omega) hlen hlu
    obtain ⟨i1, i2⟩ := lru_body_inv m.arr n i m.vars hlen hlu
    obtain ⟨m1, h1, h2, h3, h4⟩ := ih (i + 1)
      { vars := lru_body m.arr n i m.vars, arr := m.arr, stdout := o } (by
        show i + 1 + f ≤ m.arr.length
        omega) i1 i2
    unfold lru_loop_v
    rw [ho]
    exact ⟨m1, h1, h2, h3, fun hv => (h4 hv).trans (hq hv)⟩

/-- With `frame_num ≥ 1` and a table of `frame_num` cells, an iteration of `extra` on the
caller's memory makes no access out of bounds, updates the local variables as `extra_body`
does and leaves `arr` as it was. -/
theorem extra_body_v_spec (sz n : Nat) (verbose : Bool) (i : Nat) (m : Machine ExtraState)
    (hn : 1 ≤ n) (hi : i < m.arr.length) (hlen : m.vars.frames.length = n) :
    ∃ out, (verbose = false → out = m.stdout) ∧ extra_body_v sz n verbose i m =
      some { vars := extra_body m.arr sz n i m.vars, arr := m.arr, stdout := out } := by
  have hidx : (if !(m.vars.is_filled || decide (n ≤ m.vars.num_allocated)) then
      m.vars.num_allocated
      else find_opt m.arr sz m.vars.frames n (m.vars.count + 1)) < n := by
    split
    · rename_i h
      simp only [Bool.not_eq_true', Bool.or_eq_false_iff, decide_eq_false_iff_not] at h
      omega
    · exact find_opt_lt _ _ _ _ _ hn
  unfold extra_body_v
  rw [getElem?_eq_some_getD m.arr i hi]
  simp only [Option.bind]
  by_cases hres : search m.vars.frames n (m.arr.getD i 0) = -1
  · rw [if_pos hres, checked_set_lt _ _ _ (by rw [hlen]; exact hidx)]
    simp only [Option.bind]
    obtain ⟨o, hq, ho⟩ := display_if_frame verbose
      (m.vars.frames.set (if !(m.vars.is_filled || decide (n ≤ m.vars.num_allocated)) then
        m.vars.num_allocated
        else find_opt m.arr sz m.vars.frames n (m.vars.count + 1)) (m.arr.getD i 0))
      n (m.arr.getD i 0)
      (true && (m.vars.is_filled || decide (n ≤ m.vars.num_allocated))) m.stdout
      (by rw [List.length_set]; exact hlen) hn
    rw [ho]
    refine ⟨o, hq, ?_⟩
    simp [extra_body, hres, -List.getD_eq_getElem?_getD]
  · rw [if_neg hres]
    simp only [Option.bind]
    obtain ⟨o, hq, ho⟩ := display_if_frame verbose m.vars.frames n (m.arr.getD i 0)
      (false && (m.vars.is_filled || decide (n ≤ m.vars.num_allocated))) m.stdout hlen hn
    rw [ho]
    refine ⟨o, hq, ?_⟩
    simp [extra_body, hres, -List.getD_eq_getElem?_getD]

theorem extra_body_inv (arr : List Int) (sz n i : Nat) (s : ExtraState)
    (hlen : s.frames.length = n) : (extra_body arr sz n i s).frames.length = n := by
  unfold extra_body
  simp only
  split
  · rw [List.length_set]; exact hlen
  · exact hlen

theorem extra_loop_v_spec (sz n : Nat) (verbose : Bool) (hn : 1 ≤ n) :
    ∀ (fuel i : Nat) (m : Machine ExtraState), i + fuel ≤ m.arr.length →
      m.vars.frames.length = n →
      ∃ m1, extra_loop_v sz n verbose fuel i m = some m1 ∧
        m1.vars = extra_loop m.arr sz n fuel i m.vars ∧ m1.arr = m.arr ∧
        (verbose = false → m1.stdout = m.stdout) := by
  intro fuel
  induction fuel with
  | zero => intro i m _ _; exact ⟨m, rfl, rfl, rfl, fun _ => rfl⟩
  | succ f ih =>
    intro i m hi hlen
    obtain ⟨o, hq, ho⟩ := extra_body_v_spec sz n verbose i m hn (by omega) hlen
    have i1 := extra_body_inv m.arr sz n i m.vars hlen
    obtain ⟨m1, h1, h2, h3, h4⟩ := ih (i + 1)
      { vars := extra_body m.arr sz n i m.vars, arr := m.arr, stdout := o } (by
        show i + 1 + f ≤ m.arr.length
        omega) i1
    unfold extra_loop_v
    rw [ho]
    exact ⟨m1, h1, h2, h3, fun hv => (h4 hv).trans (hq hv)⟩

/-- With no frame at all the first miss writes `frames[0]` outside the empty array: the
run is undefined. -/
theorem fifo_v_zero_frames : fifo_v [1] 1 0 false = none := rfl

/-- C14: for each of `fifo`, `lru` and `extra`, every trace and every `frame_num ≥ 1`, the
run on the caller's memory makes no access out of bounds whether `verbose` is 1 or 0, the
statistics it stores are those of the function `fifo`, `lru`, `extra` of the trace and of
the frame count alone, hence the same for `verbose = 1` and `verbose = 0`, and the trace
array is the same after the run as before; a run with `verbose = 0` prints nothing. -/
theorem C14_verbose_independent (trace : List Int) (frame_num : Nat) (hn : 1 ≤ frame_num) :
    (∀ verbose, ∃ m, fifo_v trace trace.length frame_num verbose = some m ∧
      (m.vars.num_faults, m.vars.num_refs) = fifo trace trace.length frame_num ∧
      m.arr = trace ∧ (verbose = false → m.stdout = "")) ∧
    (∀ verbose, ∃ m, lru_v trace trace.length frame_num verbose = some m ∧
      (m.vars.num_faults, m.vars.num_refs) = lru trace trace.length frame_num ∧
      m.arr = trace ∧ (verbose = false → m.stdout = "")) ∧
    (∀ verbose, ∃ m, extra_v trace trace.length frame_num verbose = some m ∧
      (m.vars.num_faults, m.vars.num_refs) = extra trace trace.length frame_num ∧
      m.arr = trace ∧ (verbose = false → m.stdout = "")) ∧
    ((fifo_v trace trace.length frame_num true).map
        (fun m => (m.vars.num_faults, m.vars.num_refs)) =
      (fifo_v trace trace.length frame_num false).map
        (fun m => (m.vars.num_faults, m.vars.num_refs)) ∧
     (lru_v trace trace.length frame_num true).map
        (fun m => (m.vars.num_faults, m.vars.num_refs)) =
      (lru_v trace trace.length frame_num false).map
        (fun m => (m.vars.num_faults, m.vars.num_refs)) ∧
     (extra_v trace trace.length frame_num true).map
        (fun m => (m.vars.num_faults, m.vars.num_refs)) =
      (extra_v trace trace.length frame_num false).map
        (fun m => (m.vars.num_faults, m.vars.num_refs))) := by
  have hf : ∀ verbose, ∃ m, fifo_v trace trace.length frame_num verbose = some m ∧
      (m.vars.num_faults, m.vars.num_refs) = fifo trace trace.length frame_num ∧
      m.arr = trace ∧ (verbose = false → m.stdout = "") := by
    intro verbose
    obtain ⟨m, h1, h2, h3, h4⟩ := fifo_loop_v_spec frame_num verbose hn trace.length 0
      { vars := fifo_init frame_num, arr := trace, stdout := "" }
      (by simp) (by simp [fifo_init]) (by simp only [fifo_init]; omega)
    exact ⟨m, h1, by rw [h2]; rfl, h3, h4⟩
  have hl : ∀ verbose, ∃ m, lru_v trace trace.length frame_num verbose = some m ∧
      (m.vars.num_faults, m.vars.num_refs) = lru trace trace.length frame_num ∧
      m.arr = trace ∧ (verbose = false → m.stdout = "") := by
    intro verbose
    obtain ⟨m, h1, h2, h3, h4⟩ := lru_loop_v_spec frame_num verbose hn trace.length 0
      { vars := lru_init frame_num, arr := trace, stdout := "" }
      (by simp) (by simp [lru_init]) (by simp [lru_init])
    exact ⟨m, h1, by rw [h2]; rfl, h3, h4⟩
  have he : ∀ verbose, ∃ m, extra_v trace trace.length frame_num verbose = some m ∧
      (m.vars.num_faults, m.vars.num_refs) = extra trace trace.length frame_num ∧
      m.arr = trace ∧ (verbose = false → m.stdout = "") := by
    intro verbose
    obtain ⟨m, h1, h2, h3, h4⟩ := extra_loop_v_spec trace.length frame_num verbose hn
      trace.length 0 { vars := extra_init frame_num, arr := trace, stdout := "" }
      (by simp) (by simp [extra_init])
    exact ⟨m, h1, by rw [h2]; rfl, h3, h4⟩
  refine ⟨hf, hl, he, ?_, ?_, ?_⟩
  · obtain ⟨m1, a1, a2, _⟩ := hf true
    obtain ⟨m2, b1, b2, _⟩ := hf false
    rw [a1, b1, Option.map_some', Option.map_some', a2, b2]
  · obtain ⟨m1, a1, a2, _⟩ := hl true
    obtain ⟨m2, b1, b2, _⟩ := hl false
    rw [a1, b1, Option.map_some', Option.map_some', a2, b2]
  · obtain ⟨m1, a1, a2, _⟩ := he true
    obtain ⟨m2, b1, b2, _⟩ := he false
    rw [a1, b1, Option.map_some', Option.map_some', a2, b2]

/-- Witness of C14 on the trace `[1, 2, 3, 1]` with two frames: the verbose run of `fifo`
stores the statistics `(2, 2)`, leaves the trace as it was and prints four lines. -/
theorem C14_verbose_independent_witness :
    1 ≤ 2 ∧
    (∃ m, fifo_v [1, 2, 3, 1] ([1, 2, 3, 1] : List Int).length 2 true = some m ∧
      (m.vars.num_faults, m.vars.num_refs) =
        fifo [1, 2, 3, 1] ([1, 2, 3, 1] : List Int).length 2 ∧
      m.arr = [1, 2, 3, 1] ∧ (true = false → m.stdout = "")) ∧
    (fifo_v [1, 2, 3, 1] 4 2 true).map
        (fun m => ((m.vars.num_faults, m.vars.num_refs), m.arr, m.stdout)) =
      some ((2, 2), [1, 2, 3, 1],
        " 1: [ 1|  ]\n 2: [ 1| 2]\n 3: [ 3| 2] F\n 1: [ 3| 1] F\n") :=
  ⟨by decide, (C14_verbose_independent [1, 2, 3, 1] 2 (by decide)).1 true, rfl⟩

/-! ## The checks of the drivers -/

/-- C16 fails on the code: `verify_input` of pagestats.c accepts `frame_inc = 0`, and the
sweep loop entered with `i = 2` then runs its body with `i = 2` in every iteration, however
many iterations are made: it does not terminate. -/
theorem C16_zero_increment_diverges :
    pagestats.verify_input 2 100 0 = Except.ok () ∧
    ∀ fuel, pagestats.sweep 100 0 fuel 2 = List.replicate fuel 2 := by
  refine ⟨rfl, ?_⟩
  intro fuel
  induction fuel with
  | zero => rfl
  | succ n ih =>
    unfold pagestats.sweep
    rw [if_pos (by decide), List.replicate_succ]
    have : wrap32 (2 + 0) = 2 := by decide
    rw [this, ih]

/-! ## The miss rate in binary64 -/

theorem round_half_even_intCast (n : Int) : round_half_even (n : ℚ) = n := by
  unfold round_half_even
  simp

theorem round_half_even_bounds (x : ℚ) :
    ⌊x⌋ ≤ round_half_even x ∧ round_half_even x ≤ ⌊x⌋ + 1 := by
  unfold round_half_even
  split_ifs <;> omega

theorem round_half_even_mono {x y : ℚ} (h : x ≤ y) :
    round_half_even x ≤ round_half_even y := by
  have hf : ⌊x⌋ ≤ ⌊y⌋ := Int.floor_mono h
  rcases lt_or_eq_of_le hf with hlt | heq
  · have h1 := (round_half_even_bounds x).2
    have h2 := (round_half_even_bounds y).1
    omega
  · have hfr : Int.fract x ≤ Int.fract y := by
      rw [Int.fract, Int.fract, heq]
      linarith
    unfold round_half_even
    rw [heq]
    split_ifs <;> first | omega | linarith

theorem round_half_even_err (x : ℚ) : |(round_half_even x : ℚ) - x| ≤ 1 / 2 := by
  have h0 := Int.fract_nonneg x
  have h1 := Int.fract_lt_one x
  have hx : x = (⌊x⌋ : ℚ) + Int.fract x := (Int.floor_add_fract x).symm
  rw [abs_le]
  unfold round_half_even
  split_ifs <;> push_cast <;> constructor <;> linarith


theorem two_zpow_pos (e : Int) : (0 : ℚ) < 2 ^ e := zpow_pos (by norm_num) e

theorem two_zpow_log_le {x : ℚ} (hx : 0 < x) : (2 : ℚ) ^ Int.log 2 x ≤ x := by
  have := Int.zpow_log_le_self (R := ℚ) (b := 2) (by norm_num) hx
  simpa using this

theorem lt_two_zpow_log_succ (x : ℚ) : x < (2 : ℚ) ^ (Int.log 2 x + 1) := by
  have := Int.lt_zpow_succ_log_self (R := ℚ) (b := 2) (by norm_num) x
  simpa using this

theorem two_zpow_mono {a b : Int} (h : a ≤ b) : (2 : ℚ) ^ a ≤ 2 ^ b :=
  zpow_le_zpow_right₀ (by norm_num) h

theorem round64_pos_nonneg {x : ℚ} (hx : 0 ≤ x) : 0 ≤ round64_pos x := by
  unfold round64_pos
  have hp := two_zpow_pos (ulp_exp x)
  have h0 : (0 : Int) ≤ round_half_even (x / 2 ^ ulp_exp x) := by
    have := round_half_even_mono (div_nonneg hx hp.le)
    rwa [show (0 : ℚ) = ((0 : Int) : ℚ) by norm_num, round_half_even_intCast] at this
  have h0' : (0 : ℚ) ≤ (round_half_even (x / 2 ^ ulp_exp x) : ℚ) := by exact_mod_cast h0
  exact mul_nonneg h0' hp.le

/-- A value that is a whole number of units in the last place is not changed. -/
theorem round64_pos_exact (x : ℚ) (k : Int) (h : x = (k : ℚ) * 2 ^ ulp_exp x) :
    round64_pos x = x := by
  unfold round64_pos
  have hp := two_zpow_pos (ulp_exp x)
  have : x / 2 ^ ulp_exp x = (k : ℚ) := by
    rw [div_eq_iff hp.ne']
    exact h
  rw [this, round_half_even_intCast]
  exact h.symm

/-- The rounded value of `x` stays within the binade of `x`. -/
theorem round64_pos_binade {x : ℚ} (hx : 0 < x) :
    round64_pos x ≤ 2 ^ (max (Int.log 2 x) (-1022) + 1) ∧
    (-1022 ≤ Int.log 2 x → 2 ^ Int.log 2 x ≤ round64_pos x) := by
  have hp := two_zpow_pos (ulp_exp x)
  constructor
  · have h1 : x ≤ 2 ^ (max (Int.log 2 x) (-1022) + 1) :=
      le_trans (lt_two_zpow_log_succ x).le (two_zpow_mono (by omega))
    have h2 : x / 2 ^ ulp_exp x ≤ (((2 : Int) ^ 53 : Int) : ℚ) := by
      rw [div_le_iff₀ hp]
      have : ((((2 : Int) ^ 53 : Int) : ℚ)) * 2 ^ ulp_exp x =
          2 ^ (max (Int.log 2 x) (-1022) + 1) := by
        have e : (((2 : Int) ^ 53 : Int) : ℚ) = (2 : ℚ) ^ (53 : Int) := by norm_num
        rw [e, ← zpow_add₀ (by norm_num : (2 : ℚ) ≠ 0)]
        congr 1
        unfold ulp_exp
        omega
      rw [this]
      exact h1
    have h3 := round_half_even_mono h2
    rw [round_half_even_intCast] at h3
    have h4 : (round_half_even (x / 2 ^ ulp_exp x) : ℚ) ≤ (((2 : Int) ^ 53 : Int) : ℚ) := by
      exact_mod_cast h3
    unfold round64_pos
    calc (round_half_even (x / 2 ^ ulp_exp x) : ℚ) * 2 ^ ulp_exp x
        ≤ (((2 : Int) ^ 53 : Int) : ℚ) * 2 ^ ulp_exp x :=
          mul_le_mul_of_nonneg_right h4 hp.le
      _ = 2 ^ (max (Int.log 2 x) (-1022) + 1) := by
        have e : (((2 : Int) ^ 53 : Int) : ℚ) = (2 : ℚ) ^ (53 : Int) := by norm_num
        rw [e, ← zpow_add₀ (by norm_num : (2 : ℚ) ≠ 0)]
        congr 1
        unfold ulp_exp
        omega
  · intro hn
    have hE : ulp_exp x = Int.log 2 x - 52 := by
      unfold ulp_exp
      omega
    have e : (((2 : Int) ^ 52 : Int) : ℚ) = (2 : ℚ) ^ (52 : Int) := by norm_num
    have h2 : (((2 : Int) ^ 52 : Int) : ℚ) ≤ x / 2 ^ ulp_exp x := by
      rw [le_div_iff₀ hp, e, ← zpow_add₀ (by norm_num : (2 : ℚ) ≠ 0), hE]
      have : (52 : Int) + (Int.log 2 x - 52) = Int.log 2 x := by omega
      rw [this]
      exact two_zpow_log_le hx
    have h3 := round_half_even_mono h2
    rw [round_half_even_intCast] at h3
    have h4 : (((2 : Int) ^ 52 : Int) : ℚ) ≤ (round_half_even (x / 2 ^ ulp_exp x) : ℚ) := by
      exact_mod_cast h3
    unfold round64_pos
    calc (2 : ℚ) ^ Int.log 2 x = (((2 : Int) ^ 52 : Int) : ℚ) * 2 ^ ulp_exp x := by
          rw [e, ← zpow_add₀ (by norm_num : (2 : ℚ) ≠ 0), hE]
          congr 1
          omega
      _ ≤ (round_half_even (x / 2 ^ ulp_exp x) : ℚ) * 2 ^ ulp_exp x :=
          mul_le_mul_of_nonneg_right h4 hp.le

/-- Rounding to binary64 is monotone. -/
theorem round64_pos_mono {x y : ℚ} (hx : 0 < x) (hxy : x ≤ y) :
    round64_pos x ≤ round64_pos y := by
  have hy : 0 < y := lt_of_lt_of_le hx hxy
  have hlog : Int.log 2 x ≤ Int.log 2 y := Int.log_mono_right hx hxy
  by_cases he : max (Int.log 2 x) (-1022) = max (Int.log 2 y) (-1022)
  · have hE : ulp_exp x = ulp_exp y := by
      unfold ulp_exp
      rw [he]
    have hp := two_zpow_pos (ulp_exp y)
    unfold round64_pos
    rw [hE]
    have := round_half_even_mono (div_le_div_of_nonneg_right hxy hp.le)
    have h' : (round_half_even (x / 2 ^ ulp_exp y) : ℚ) ≤
        (round_half_even (y / 2 ^ ulp_exp y) : ℚ) := by exact_mod_cast this
    exact mul_le_mul_of_nonneg_right h' hp.le
  · have h1 := (round64_pos_binade hx).1
    have h2 := (round64_pos_binade hy).2 (by omega)
    exact le_trans h1 (le_trans (two_zpow_mono (by omega)) h2)

/-- The rounding error is at most half a unit in the last place. -/
theorem round64_pos_err (x : ℚ) : |round64_pos x - x| ≤ 2 ^ ulp_exp x / 2 := by
  have hp := two_zpow_pos (ulp_exp x)
  have h := round_half_even_err (x / 2 ^ ulp_exp x)
  unfold round64_pos
  have e : (round_half_even (x / 2 ^ ulp_exp x) : ℚ) * 2 ^ ulp_exp x - x =
      ((round_half_even (x / 2 ^ ulp_exp x) : ℚ) - x / 2 ^ ulp_exp x) * 2 ^ ulp_exp x := by
    field_simp
  rw [e, abs_mul, abs_of_pos hp]
  calc |(round_half_even (x / 2 ^ ulp_exp x) : ℚ) - x / 2 ^ ulp_exp x| * 2 ^ ulp_exp x
      ≤ 1 / 2 * 2 ^ ulp_exp x := mul_le_mul_of_nonneg_right h hp.le
    _ = 2 ^ ulp_exp x / 2 := by ring

theorem round64_pos_two_zpow (k : Int) (hk : -1022 ≤ k) : round64_pos ((2 : ℚ) ^ k) = 2 ^ k := by
  have hlog : Int.log 2 ((2 : ℚ) ^ k) = k := by
    have := Int.log_zpow (R := ℚ) (b := 2) (by norm_num) k
    simpa using this
  have hE : ulp_exp ((2 : ℚ) ^ k) = k - 52 := by
    unfold ulp_exp
    rw [hlog]
    omega
  apply round64_pos_exact _ ((2 : Int) ^ 52)
  rw [hE]
  have e : (((2 : Int) ^ 52 : Int) : ℚ) = (2 : ℚ) ^ (52 : Int) := by norm_num
  rw [e, ← zpow_add₀ (by norm_num : (2 : ℚ) ≠ 0)]
  congr 1
  omega

theorem round64_pos_natCast (n : Nat) (hn : 0 < n) (h : n < 2 ^ 53) :
    round64_pos (n : ℚ) = n := by
  have hlog : Int.log 2 (n : ℚ) = (Nat.log 2 n : Int) := Int.log_natCast 2 n
  have hl : Nat.log 2 n < 53 := Nat.log_lt_of_lt_pow (by omega) h
  have hE : ulp_exp (n : ℚ) = (Nat.log 2 n : Int) - 52 := by
    unfold ulp_exp
    rw [hlog]
    omega
  apply round64_pos_exact _ ((n : Int) * 2 ^ (52 - Nat.log 2 n))
  rw [hE]
  push_cast
  rw [mul_assoc, ← zpow_natCast, ← zpow_add₀ (by norm_num : (2 : ℚ) ≠ 0)]
  have : ((52 - Nat.log 2 n : Nat) : Int) + ((Nat.log 2 n : Int) - 52) = 0 := by omega
  rw [this, zpow_zero, mul_one]

theorem round64_neg (x : ℚ) : round64 (-x) = - round64 x := by
  unfold round64
  rcases lt_trichotomy x 0 with h | h | h
  · have h1 : -x ≠ 0 := by linarith [h]
    have h2 : 0 < -x := by linarith
    have h3 : x ≠ 0 := h.ne
    have h4 : ¬ 0 < x := by linarith
    rw [if_neg (by intro hh; exact h1 hh), if_pos h2, if_neg h3, if_neg h4, neg_neg]
  · subst h
    simp
  · have h1 : ¬ (-x = 0) := by intro hh; linarith
    have h2 : ¬ 0 < -x := by linarith
    rw [if_neg h1, if_neg h2, if_neg h.ne', if_pos h, neg_neg]

theorem round64_of_pos {x : ℚ} (h : 0 < x) : round64 x = round64_pos x := by
  unfold round64
  rw [if_neg h.ne', if_pos h]

theorem round64_intCast (n : Int) (h : |n| < 2 ^ 53) : round64 (n : ℚ) = n := by
  have key : ∀ m : Nat, m < 2 ^ 53 → round64 (m : ℚ) = m := by
    intro m hm
    rcases Nat.eq_zero_or_pos m with h0 | h0
    · subst h0
      simp [round64]
    · rw [round64_of_pos (by exact_mod_cast h0), round64_pos_natCast m h0 hm]
  rcases le_or_lt 0 n with hn | hn
  · obtain ⟨m, rfl⟩ := Int.eq_ofNat_of_zero_le hn
    have hm : m < 2 ^ 53 := by
      have : |(m : Int)| = m := abs_of_nonneg hn
      rw [this] at h
      exact_mod_cast h
    exact_mod_cast key m hm
  · obtain ⟨m, hm⟩ := Int.eq_ofNat_of_zero_le (show 0 ≤ -n by omega)
    have hn' : n = -(m : Int) := by omega
    have hm' : m < 2 ^ 53 := by
      have : |n| = (m : Int) := by rw [abs_of_neg hn]; exact hm
      rw [this] at h
      exact_mod_cast h
    rw [hn']
    push_cast
    rw [round64_neg]
    congr 1
    exact key m hm'

theorem round64_abs_le (x : ℚ) (k : Int) (hk : -1022 ≤ k) (h : |x| ≤ 2 ^ k) :
    |round64 x| ≤ 2 ^ k := by
  have key : ∀ y : ℚ, 0 < y → y ≤ 2 ^ k → round64_pos y ≤ 2 ^ k := by
    intro y hy hyk
    have := round64_pos_mono hy hyk
    rwa [round64_pos_two_zpow k hk] at this
  rcases lt_trichotomy x 0 with hx | hx | hx
  · have hx' : 0 < -x := by linarith
    rw [abs_of_neg hx] at h
    have e : round64 x = - round64_pos (-x) := by
      have := round64_neg (-x)
      rw [neg_neg] at this
      rw [this, round64_of_pos hx']
    rw [e, abs_neg, abs_of_nonneg (round64_pos_nonneg hx'.le)]
    exact key _ hx' h
  · subst hx
    simp only [round64, if_true, abs_zero]
    exact (two_zpow_pos k).le
  · rw [abs_of_pos hx] at h
    rw [round64_of_pos hx, abs_of_nonneg (round64_pos_nonneg hx.le)]
    exact key _ hx h

theorem F64_round_fin (x : ℚ) (k : Int) (hk : -1022 ≤ k) (hk' : k < 1024) (h : |x| ≤ 2 ^ k) :
    F64.round x = F64.fin (round64 x) := by
  unfold F64.round
  have h1 := round64_abs_le x k hk h
  have h2 : (2 : ℚ) ^ k < 2 ^ (1024 : Int) := zpow_lt_zpow_right₀ (by norm_num) hk'
  rw [if_neg (by linarith)]

theorem abs_intCast_le (n : Int) (h : |n| ≤ 2 ^ 31) : |(n : ℚ)| ≤ 2 ^ (31 : Int) := by
  have h1 : ((|n| : Int) : ℚ) ≤ (((2 : Int) ^ 31 : Int) : ℚ) := by exact_mod_cast h
  rw [Int.cast_abs] at h1
  have h2 : (((2 : Int) ^ 31 : Int) : ℚ) = (2 : ℚ) ^ (31 : Int) := by norm_num
  rw [h2] at h1
  exact h1

theorem F64_ofInt_fin (n : Int) (h : |n| ≤ 2 ^ 31) : F64.ofInt n = F64.fin (n : ℚ) := by
  unfold F64.ofInt
  have hq : |(n : ℚ)| ≤ 2 ^ (31 : Int) := abs_intCast_le n h
  rw [F64_round_fin _ 31 (by norm_num) (by norm_num) hq, round64_intCast n (by omega)]

/-- The value that `main` of pagesim.c computes from statistics that are `int`s. -/
theorem miss_rate_value (a b : Int) (ha : |a| ≤ 2 ^ 31) (hb : |b| ≤ 2 ^ 31)
    (hb0 : b ≠ 0) :
    pagesim.main_miss_rate (a, b) = F64.fin (round64 (round64 ((a : ℚ) / (b : ℚ)) * 100)) := by
  have hbq : (b : ℚ) ≠ 0 := by exact_mod_cast hb0
  have hb1 : (1 : ℚ) ≤ |(b : ℚ)| := by
    have : (1 : Int) ≤ |b| := Int.one_le_abs hb0
    have : ((1 : Int) : ℚ) ≤ ((|b| : Int) : ℚ) := by exact_mod_cast this
    rw [Int.cast_abs] at this
    simpa using this
  have haq : |(a : ℚ)| ≤ 2 ^ (31 : Int) := abs_intCast_le a ha
  have hq : |(a : ℚ) / (b : ℚ)| ≤ 2 ^ (31 : Int) := by
    rw [abs_div]
    calc |(a : ℚ)| / |(b : ℚ)| ≤ |(a : ℚ)| / 1 :=
          div_le_div_of_nonneg_left (abs_nonneg _) (by norm_num) hb1
      _ = |(a : ℚ)| := div_one _
      _ ≤ 2 ^ (31 : Int) := haq
  have hr1 := round64_abs_le _ 31 (by norm_num) hq
  have hx2 : |round64 ((a : ℚ) / (b : ℚ)) * 100| ≤ 2 ^ (38 : Int) := by
    rw [abs_mul]
    have : |(100 : ℚ)| = 100 := abs_of_pos (by norm_num)
    rw [this]
    calc |round64 ((a : ℚ) / (b : ℚ))| * 100 ≤ 2 ^ (31 : Int) * 100 :=
          mul_le_mul_of_nonneg_right hr1 (by norm_num)
      _ ≤ 2 ^ (38 : Int) := by norm_num
  unfold pagesim.main_miss_rate
  simp only
  rw [if_neg hb0, F64_ofInt_fin a ha, F64_ofInt_fin b hb, F64_ofInt_fin 100 (by norm_num)]
  simp only [F64.div]
  rw [if_neg hbq, F64_round_fin _ 31 (by norm_num) (by norm_num) hq]
  simp only [F64.mul]
  rw [F64_round_fin _ 38 (by norm_num) (by norm_num) (by simpa using hx2)]
  simp

/-- In the normal range the rounding error is at most `2 ^ (-53)` of the value. -/
theorem round64_pos_rel_err {x : ℚ} (hx : 0 < x) (hn : -1022 ≤ Int.log 2 x) :
    |round64_pos x - x| ≤ x / 2 ^ 53 := by
  have h := round64_pos_err x
  have hE : ulp_exp x = Int.log 2 x + (-52) := by
    unfold ulp_exp
    omega
  have h2 : (2 : ℚ) ^ ulp_exp x = 2 ^ Int.log 2 x / 2 ^ 52 := by
    have e : (2 : ℚ) ^ (-52 : Int) = 1 / 2 ^ 52 := by
      rw [zpow_neg]
      norm_num
    rw [hE, zpow_add₀ (by norm_num : (2 : ℚ) ≠ 0), e]
    ring
  have h3 := two_zpow_log_le hx
  rw [h2] at h
  have h4 : (2 : ℚ) ^ Int.log 2 x / 2 ^ 52 / 2 ≤ x / 2 ^ 53 := by
    have : (2 : ℚ) ^ Int.log 2 x / 2 ^ 52 / 2 = 2 ^ Int.log 2 x / 2 ^ 53 := by ring
    rw [this]
    exact div_le_div_of_nonneg_right h3 (by positivity)
  exact le_trans h h4

theorem two_zpow_le_iff_log {x : ℚ} (hx : 0 < x) (k : Int) :
    (2 : ℚ) ^ k ≤ x ↔ k ≤ Int.log 2 x := by
  have := Int.zpow_le_iff_le_log (R := ℚ) (b := 2) (by norm_num) (x := k) hx
  simpa using this

/-- The miss rate computed in binary64 from statistics `0 ≤ a ≤ b`, `b ≠ 0`, lies between
0 and 100 and differs from the exact `a / b * 100` by at most `2 ^ (-51)` of it. -/
theorem rate_bounds (a b : Int) (h0 : 0 ≤ a) (hab : a ≤ b) (hb0 : b ≠ 0) (hb : b ≤ 2 ^ 31) :
    0 ≤ round64 (round64 ((a : ℚ) / (b : ℚ)) * 100) ∧
    round64 (round64 ((a : ℚ) / (b : ℚ)) * 100) ≤ 100 ∧
    |round64 (round64 ((a : ℚ) / (b : ℚ)) * 100) - (a : ℚ) / (b : ℚ) * 100| ≤
      (a : ℚ) / (b : ℚ) * 100 / 2 ^ 51 := by
  have hbpos : (0 : ℚ) < (b : ℚ) := by
    have : 0 < b := by omega
    exact_mod_cast this
  rcases eq_or_lt_of_le h0 with ha | ha
  · subst ha
    simp [round64]
  · have haq : (1 : ℚ) ≤ (a : ℚ) := by
      have : (1 : Int) ≤ a := by omega
      exact_mod_cast this
    have habq : (a : ℚ) ≤ (b : ℚ) := by exact_mod_cast hab
    have hbq : (b : ℚ) ≤ 2 ^ 31 := by exact_mod_cast hb
    have hq0 : 0 < (a : ℚ) / (b : ℚ) := div_pos (by linarith) hbpos
    have hq1 : (a : ℚ) / (b : ℚ) ≤ 1 := (div_le_one hbpos).2 habq
    have hqlow : (2 : ℚ) ^ (-31 : Int) ≤ (a : ℚ) / (b : ℚ) := by
      rw [le_div_iff₀ hbpos]
      have e : (2 : ℚ) ^ (-31 : Int) = 1 / 2 ^ 31 := by
        rw [zpow_neg]
        norm_num
      rw [e]
      calc (1 : ℚ) / 2 ^ 31 * (b : ℚ) ≤ 1 / 2 ^ 31 * 2 ^ 31 :=
            mul_le_mul_of_nonneg_left hbq (by positivity)
        _ = 1 := by norm_num
        _ ≤ (a : ℚ) := haq
    have hlogq : (-31 : Int) ≤ Int.log 2 ((a : ℚ) / (b : ℚ)) :=
      (two_zpow_le_iff_log hq0 _).1 hqlow
    have hr1 : round64 ((a : ℚ) / (b : ℚ)) = round64_pos ((a : ℚ) / (b : ℚ)) :=
      round64_of_pos hq0
    have hr1le : round64_pos ((a : ℚ) / (b : ℚ)) ≤ 1 := by
      have := round64_pos_mono hq0 hq1
      have e := round64_pos_two_zpow 0 (by norm_num)
      rw [zpow_zero] at e
      rwa [e] at this
    have hr1low : (2 : ℚ) ^ (-31 : Int) ≤ round64_pos ((a : ℚ) / (b : ℚ)) :=
      le_trans (two_zpow_mono hlogq) ((round64_pos_binade hq0).2 (by omega))
    have hr1pos : 0 < round64_pos ((a : ℚ) / (b : ℚ)) :=
      lt_of_lt_of_le (two_zpow_pos _) hr1low
    have herr1 := round64_pos_rel_err hq0 (by omega)
    have hx2pos : 0 < round64_pos ((a : ℚ) / (b : ℚ)) * 100 := by positivity
    have hx2le : round64_pos ((a : ℚ) / (b : ℚ)) * 100 ≤ ((100 : Nat) : ℚ) := by
      push_cast
      linarith
    have hx2low : (2 : ℚ) ^ (-31 : Int) ≤ round64_pos ((a : ℚ) / (b : ℚ)) * 100 := by
      linarith
    have hlogx2 : (-31 : Int) ≤ Int.log 2 (round64_pos ((a : ℚ) / (b : ℚ)) * 100) :=
      (two_zpow_le_iff_log hx2pos _).1 hx2low
    have herr2 := round64_pos_rel_err hx2pos (by omega)
    have hr2le := round64_pos_mono hx2pos hx2le
    rw [round64_pos_natCast 100 (by norm_num) (by norm_num)] at hr2le
    rw [hr1, round64_of_pos hx2pos]
    refine ⟨round64_pos_nonneg hx2pos.le, by exact_mod_cast hr2le, ?_⟩
    rw [abs_le] at herr1 herr2 ⊢
    have hu : (0 : ℚ) < 1 / 2 ^ 53 := by positivity
    constructor
    · nlinarith [herr1.1, herr1.2, herr2.1, herr2.2, hq0, hr1pos]
    · nlinarith [herr1.1, herr1.2, herr2.1, herr2.2, hq0, hr1pos]

theorem round_half_even_near (y : ℚ) (m : Int) (h1 : (m : ℚ) - 1 / 2 < y)
    (h2 : y < (m : ℚ) + 1 / 2) : round_half_even y = m := by
  have h := round_half_even_err y
  rw [abs_le] at h
  have h3 : ((round_half_even y : Int) : ℚ) < ((m + 1 : Int) : ℚ) := by
    push_cast
    linarith [h.2]
  have h4 : ((m - 1 : Int) : ℚ) < ((round_half_even y : Int) : ℚ) := by
    push_cast
    linarith [h.1]
  have h3' : round_half_even y < m + 1 := by exact_mod_cast h3
  have h4' : m - 1 < round_half_even y := by exact_mod_cast h4
  omega

/-- Evaluation of the rounding of `x` from its binade and the nearest multiple of the
unit in the last place. -/
theorem round64_pos_eval {x : ℚ} (e m : Int) (hx : 0 < x) (he : -1022 ≤ e)
    (h1 : (2 : ℚ) ^ e ≤ x) (h2 : x < 2 ^ (e + 1))
    (h3 : ((m : ℚ) - 1 / 2) * 2 ^ (e - 52) < x) (h4 : x < ((m : ℚ) + 1 / 2) * 2 ^ (e - 52)) :
    round64_pos x = (m : ℚ) * 2 ^ (e - 52) := by
  have hlog : Int.log 2 x = e := by
    have a1 := (two_zpow_le_iff_log hx e).1 h1
    have a2 : Int.log 2 x < e + 1 := by
      have := Int.lt_zpow_iff_log_lt (R := ℚ) (b := 2) (by norm_num) (x := e + 1) hx
      rw [← this]
      simpa using h2
    omega
  have hE : ulp_exp x = e - 52 := by
    unfold ulp_exp
    rw [hlog]
    omega
  have hp := two_zpow_pos (e - 52)
  unfold round64_pos
  rw [hE, round_half_even_near _ m ((lt_div_iff₀ hp).2 h3) ((div_lt_iff₀ hp).2 h4)]

/-- The `double` computed from the statistics `(1, 3)`; it is not the exact `100 / 3`. -/
theorem round64_one_third :
    round64 (round64 (((1 : Int) : ℚ) / ((3 : Int) : ℚ)) * 100) =
      2345624805922133 / 70368744177664 := by
  have e1 : round64 (((1 : Int) : ℚ) / ((3 : Int) : ℚ)) =
      6004799503160661 / 18014398509481984 := by
    rw [round64_of_pos (by norm_num)]
    rw [round64_pos_eval (-2) 6004799503160661 (by norm_num) (by norm_num) (by norm_num)
      (by norm_num) (by norm_num) (by norm_num)]
    norm_num
  have e2 : round64 ((6004799503160661 : ℚ) / 18014398509481984 * 100) =
      2345624805922133 / 70368744177664 := by
    rw [round64_of_pos (by norm_num)]
    rw [round64_pos_eval 5 4691249611844266 (by norm_num) (by norm_num) (by norm_num)
      (by norm_num) (by norm_num) (by norm_num)]
    norm_num
  rw [e1, e2]

theorem print_results_miss_rate_eq (stats : Int × Int) :
    pagestats.print_results_miss_rate stats = pagesim.main_miss_rate stats := rfl

theorem abs_le_of_int_range (n : Int) (h1 : -INT_MAX - 1 ≤ n) (h2 : n ≤ INT_MAX) :
    |n| ≤ 2 ^ 31 := by
  unfold INT_MAX at h1 h2
  rw [abs_le]
  constructor <;> norm_num <;> omega

/-- C17: in `print_results` of pagestats.c and in `main` of pagesim.c, for statistics that
are `int`s, the miss rate is not-a-number exactly when `stats[1] = 0`, so that the
division is never made with a zero divisor; otherwise it is the finite `double` that
`stats[0] / stats[1] * 100` evaluates to, the correctly rounded quotient times 100,
correctly rounded.  For the statistics returned by `fifo`, `lru` or `extra` that `double`
lies between 0 and 100, and it differs from the exact value of `stats[0] / stats[1] * 100`
by at most `2 ^ (-51)` of that value. -/
theorem C17_miss_rate (trace : List Int) (frame_num : Nat)
    (hpos : ∀ p ∈ trace, 0 ≤ p) (hn : 1 ≤ frame_num)
    (hlen : (trace.length : Int) ≤ INT_MAX) :
    (∀ (algo : String) (f : Int) (stats : Int × Int),
      -INT_MAX - 1 ≤ stats.1 → stats.1 ≤ INT_MAX →
      -INT_MAX - 1 ≤ stats.2 → stats.2 ≤ INT_MAX →
      ((pagestats.print_results algo f stats).2.2.2.2 = F64.nan ↔ stats.2 = 0) ∧
      (pagesim.main_miss_rate stats = F64.nan ↔ stats.2 = 0) ∧
      (stats.2 ≠ 0 →
        (pagestats.print_results algo f stats).2.2.2.2 =
          F64.fin (round64 (round64 ((stats.1 : ℚ) / (stats.2 : ℚ)) * 100)) ∧
        pagesim.main_miss_rate stats =
          F64.fin (round64 (round64 ((stats.1 : ℚ) / (stats.2 : ℚ)) * 100)))) ∧
    (∀ (algo : String) (f : Int) (stats : Int × Int),
      stats = fifo trace trace.length frame_num ∨ stats = lru trace trace.length frame_num ∨
        stats = extra trace trace.length frame_num →
      stats.2 ≠ 0 →
      ∃ r, (pagestats.print_results algo f stats).2.2.2.2 = F64.fin r ∧
        pagesim.main_miss_rate stats = F64.fin r ∧
        0 ≤ r ∧ r ≤ 100 ∧
        |r - (stats.1 : ℚ) / (stats.2 : ℚ) * 100| ≤
          (stats.1 : ℚ) / (stats.2 : ℚ) * 100 / 2 ^ 51) := by
  have hval : ∀ stats : Int × Int, |stats.1| ≤ 2 ^ 31 → |stats.2| ≤ 2 ^ 31 → stats.2 ≠ 0 →
      pagesim.main_miss_rate stats =
        F64.fin (round64 (round64 ((stats.1 : ℚ) / (stats.2 : ℚ)) * 100)) := by
    intro stats h1 h2 h3
    exact miss_rate_value stats.1 stats.2 h1 h2 h3
  refine ⟨?_, ?_⟩
  · intro algo f stats a1 a2 b1 b2
    have ha := abs_le_of_int_range stats.1 a1 a2
    have hb := abs_le_of_int_range stats.2 b1 b2
    have hpr : (pagestats.print_results algo f stats).2.2.2.2 =
        pagesim.main_miss_rate stats := rfl
    rw [hpr]
    by_cases h : stats.2 = 0
    · have : pagesim.main_miss_rate stats = F64.nan := by
        unfold pagesim.main_miss_rate
        rw [if_pos h]
      exact ⟨⟨fun _ => h, fun _ => this⟩, ⟨fun _ => h, fun _ => this⟩, fun h' => absurd h h'⟩
    · have hv := hval stats ha hb h
      refine ⟨⟨fun e => ?_, fun e => absurd e h⟩, ⟨fun e => ?_, fun e => absurd e h⟩,
        fun _ => ⟨hv, hv⟩⟩
      · rw [hv] at e
        exact absurd e (by simp)
      · rw [hv] at e
        exact absurd e (by simp)
  · intro algo f stats hstats h
    have hb : 0 ≤ stats.1 ∧ stats.1 ≤ stats.2 ∧ stats.2 ≤ (trace.length : Int) := by
      rcases hstats with h' | h' | h'
      · have := ((fifo_reach trace frame_num hn _ (le_refl _)).1.ginv hpos hn).acct
        rw [h']
        exact ⟨this.1, this.2.1, this.2.2⟩
      · have := ((lru_reach trace frame_num hn hpos _ (le_refl _)).1.ginv hpos hn).acct
        rw [h']
        exact ⟨this.1, this.2.1, this.2.2⟩
      · have := ((extra_reach trace trace.length frame_num hn hpos _ (le_refl _)).ginv
          hpos hn).acct
        rw [h']
        exact ⟨this.1, this.2.1, this.2.2⟩
    have hmax : stats.2 ≤ 2 ^ 31 := by
      unfold INT_MAX at hlen
      norm_num
      omega
    have ha : |stats.1| ≤ 2 ^ 31 := by
      rw [abs_of_nonneg hb.1]
      omega
    have hb' : |stats.2| ≤ 2 ^ 31 := by
      rw [abs_of_nonneg (by omega)]
      exact hmax
    have hv := hval stats ha hb' h
    have hr := rate_bounds stats.1 stats.2 hb.1 hb.2.1 h hmax
    exact ⟨_, hv, hv, hr.1, hr.2.1, hr.2.2⟩

/-- Witness of C17 on the trace `[1, 2, 1, 3, 2]` with two frames: `fifo` returns the
statistics `(1, 3)`, for which the miss rate is the `double` nearest to a hundred times the
`double` nearest to a third. -/
theorem C17_miss_rate_witness :
    (∀ p ∈ [1, 2, 1, 3, 2], (0 : Int) ≤ p) ∧ 1 ≤ 2 ∧
    ((([1, 2, 1, 3, 2] : List Int).length : Nat) : Int) ≤ INT_MAX ∧
    fifo [1, 2, 1, 3, 2] ([1, 2, 1, 3, 2] : List Int).length 2 = (1, 3) ∧
    pagesim.main_miss_rate (1, 3) =
      F64.fin (round64 (round64 (((1 : Int) : ℚ) / ((3 : Int) : ℚ)) * 100)) ∧
    round64 (round64 (((1 : Int) : ℚ) / ((3 : Int) : ℚ)) * 100) =
      2345624805922133 / 70368744177664 :=
  ⟨by decide, by decide, by decide, by decide,
    (((C17_miss_rate [1, 2, 1, 3, 2] 2 (by decide) (by decide) (by decide)).1 "fifo" 2 (1, 3)
      (by decide) (by decide) (by decide) (by decide)).2.2 (by decide)).2,
    round64_one_third⟩

theorem sweep_wraps_around :
    pagestats.verify_input 2 100 2147483647 = Except.ok () ∧
    pagestats.sweep 100 2147483647 3 2 = [2, -2147483647, 0] :=
  ⟨rfl, by decide⟩

/-! ## The trace generator -/

theorem reject_loop_spec (range previous : Int) (hr : 1 ≤ range) :
    ∀ (rnd : List Nat) (current c : Int) (rest : List Nat),
      0 ≤ current → current < range →
      pagegenerator.reject_loop range previous current rnd = some (c, rest) →
      c ≠ previous ∧ 0 ≤ c ∧ c < range := by
  intro rnd
  induction rnd with
  | nil =>
    intro current c rest h0 h1 h
    unfold pagegenerator.reject_loop at h
    by_cases he : current = previous
    · rw [if_pos he] at h; exact absurd h (by simp)
    · rw [if_neg he] at h
      have := (Prod.mk.inj (Option.some.inj h)).1
      subst this
      exact ⟨he, h0, h1⟩
  | cons r rs ih =>
    intro current c rest h0 h1 h
    unfold pagegenerator.reject_loop at h
    by_cases he : current = previous
    · rw [if_pos he] at h
      exact ih _ c rest (Int.emod_nonneg _ (by omega)) (Int.emod_lt_of_pos _ (by omega)) h
    · rw [if_neg he] at h
      have := (Prod.mk.inj (Option.some.inj h)).1
      subst this
      exact ⟨he, h0, h1⟩

theorem generate_spec (range : Int) (hr : 1 ≤ range) :
    ∀ (fuel : Nat) (previous : Int) (rnd : List Nat),
      (∀ x ∈ pagegenerator.generate range fuel previous rnd, 0 ≤ x ∧ x < range) ∧
      (∀ i, i < (pagegenerator.generate range fuel previous rnd).length →
        (pagegenerator.generate range fuel previous rnd).getD i 0 ≠
          (if i = 0 then previous
           else (pagegenerator.generate range fuel previous rnd).getD (i - 1) 0)) := by
  intro fuel
  induction fuel with
  | zero =>
    intro previous rnd
    simp [pagegenerator.generate]
  | succ n ih =>
    intro previous rnd
    cases rnd with
    | nil => simp [pagegenerator.generate]
    | cons r rs =>
      unfold pagegenerator.generate
      cases hrej : pagegenerator.reject_loop range previous ((r : Int) % range) rs with
      | none => simp
      | some res =>
        obtain ⟨current, rest⟩ := res
        obtain ⟨c1, c2, c3⟩ := reject_loop_spec range previous hr rs _ current rest
          (Int.emod_nonneg _ (by omega)) (Int.emod_lt_of_pos _ (by omega)) hrej
        obtain ⟨i1, i2⟩ := ih current rest
        simp only
        refine ⟨?_, ?_⟩
        · intro x hx
          rcases List.mem_cons.1 hx with h | h
          · rw [h]; exact ⟨c2, c3⟩
          · exact i1 x h
        · intro i hi
          cases i with
          | zero => simpa using c1
          | succ i =>
            have hi' : i < (pagegenerator.generate range n current rest).length := by
              simpa using hi
            have := i2 i hi'
            cases i with
            | zero => simpa using this
            | succ i => simpa using this

/-- C18: for every `range` in `[1, 100]`, `count ≥ 1` and every sequence of values of
`random()`, every value that pagegenerator writes lies in `[0, range)` and differs from the
value written immediately before it. -/
theorem C18_generator_output (range count : Int) (rnd : List Nat)
    (hr1 : 1 ≤ range) (hr2 : range ≤ 100) (hc : 1 ≤ count) :
    ∃ out, pagegenerator.main range count rnd = Except.ok out ∧
      (∀ x ∈ out, 0 ≤ x ∧ x < range) ∧
      (∀ i, i + 1 < out.length → out.getD (i + 1) 0 ≠ out.getD i 0) := by
  refine ⟨pagegenerator.generate range count.toNat 0 rnd, ?_, ?_, ?_⟩
  · unfold pagegenerator.main
    rw [if_neg (by omega), if_neg (by omega)]
  · exact (generate_spec range hr1 count.toNat 0 rnd).1
  · intro i hi
    have := (generate_spec range hr1 count.toNat 0 rnd).2 (i + 1) hi
    simpa using this

/-- Witness of C18: range 3, count 4 and nine values of `random()`. -/
theorem C18_generator_output_witness :
    (1 : Int) ≤ 3 ∧ (3 : Int) ≤ 100 ∧ (1 : Int) ≤ 4 ∧
    ∃ out, pagegenerator.main 3 4 [0, 3, 4, 4, 7, 2, 2, 5, 9] = Except.ok out ∧
      (∀ x ∈ out, 0 ≤ x ∧ x < 3) ∧
      (∀ i, i + 1 < out.length → out.getD (i + 1) 0 ≠ out.getD i 0) :=
  ⟨by decide, by decide, by decide,
    C18_generator_output 3 4 [0, 3, 4, 4, 7, 2, 2, 5, 9] (by decide) (by decide) (by decide)⟩


/-! ## FIFO evicts in the order of loading -/

theorem getD_set_nat (l : List Nat) (i j : Nat) (v : Nat) :
    (l.set i v).getD j 0 = if i = j ∧ j < l.length then v else l.getD j 0 := by
  by_cases hj : j < l.length
  · have hj' : j < (l.set i v).length := by simpa using hj
    rw [List.getD_eq_getElem _ _ hj', List.getD_eq_getElem _ _ hj, List.getElem_set]
    by_cases hij : i = j <;> simp [hij, hj]
  · have hj' : (l.set i v).length ≤ j := by simpa using hj
    rw [List.getD_eq_default _ _ hj', List.getD_eq_default _ _ (by omega)]
    simp [hj]

theorem fifo_body_hit (arr : List Int) (n i : Nat) (s : FifoState) (hlen : s.frames.length = n)
    (hp : arr.getD i 0 ∈ s.frames) :
    (fifo_body arr n i s).frames = s.frames ∧ (fifo_body arr n i s).pointer = s.pointer ∧
      (fifo_body arr n i s).num_allocated = s.num_allocated := by
  have hne : search s.frames n (arr.getD i 0) ≠ -1 := by
    rw [← hlen, Ne, search_eq_neg_one_iff]; exact fun h => h hp
  simp [fifo_body, hne, -List.getD_eq_getElem?_getD]

theorem fifo_body_miss (arr : List Int) (n i : Nat) (s : FifoState) (hlen : s.frames.length = n)
    (hp : arr.getD i 0 ∉ s.frames) :
    (fifo_body arr n i s).frames = s.frames.set s.pointer (arr.getD i 0) ∧
      (fifo_body arr n i s).pointer = (s.pointer + 1) % n ∧
      (fifo_body arr n i s).num_allocated = s.num_allocated + 1 := by
  have he : search s.frames n (arr.getD i 0) = -1 := by
    rw [← hlen, search_eq_neg_one_iff]; exact hp
  simp [fifo_body, he, -List.getD_eq_getElem?_getD]

theorem fifo_load_times_succ (arr : List Int) (n k : Nat)
    (hlen : (fifo_run arr n k).frames.length = n) :
    fifo_load_times arr n (k + 1) =
      if arr.getD k 0 ∈ (fifo_run arr n k).frames then fifo_load_times arr n k
      else (fifo_load_times arr n k).set (fifo_run arr n k).pointer (k + 1) := by
  have h := search_eq_neg_one_iff (fifo_run arr n k).frames (arr.getD k 0)
  rw [hlen] at h
  show (if search (fifo_run arr n k).frames n (arr.getD k 0) = -1 then _ else _) = _
  by_cases hp : arr.getD k 0 ∈ (fifo_run arr n k).frames
  · rw [if_pos hp, if_neg (fun e => (h.1 e) hp)]
  · rw [if_neg hp, if_pos (h.2 hp)]

theorem fifo_load_times_length (arr : List Int) (n : Nat) :
    ∀ k, (fifo_load_times arr n k).length = n := by
  intro k
  induction k with
  | zero => simp [fifo_load_times]
  | succ k ih =>
    unfold fifo_load_times
    split
    · rw [List.length_set]; exact ih
    · exact ih

/-- A positive load time names a step that missed, wrote the slot, and whose page the
slot still holds. -/
theorem fifo_load_times_sound (arr : List Int) (n : Nat) (hn : 1 ≤ n)
    (hpos : ∀ p ∈ arr, 0 ≤ p) :
    ∀ k, k ≤ arr.length → ∀ j, j < n → ∀ t,
      (fifo_load_times arr n k).getD j 0 = t + 1 →
      t < k ∧ arr.getD t 0 ∉ (fifo_run arr n t).frames ∧ (fifo_run arr n t).pointer = j ∧
        (fifo_run arr n k).frames.getD j 0 = arr.getD t 0 := by
  intro k
  induction k with
  | zero =>
    intro _ j hj t ht
    simp only [fifo_load_times] at ht
    rw [List.getD_eq_getElem _ _ (by simpa using hj), List.getElem_replicate] at ht
    omega
  | succ k ih =>
    intro hk j hj t ht
    have hg := (fifo_reach arr n hn k (by omega)).1.ginv hpos hn
    have hlen : (fifo_run arr n k).frames.length = n := hg.len
    rw [fifo_load_times_succ arr n k hlen] at ht
    rw [fifo_run_succ]
    by_cases hp : arr.getD k 0 ∈ (fifo_run arr n k).frames
    · rw [if_pos hp] at ht
      obtain ⟨h1, h2, h3, h4⟩ := ih (by omega) j hj t ht
      rw [(fifo_body_hit arr n k _ hlen hp).1]
      exact ⟨by omega, h2, h3, h4⟩
    · rw [if_neg hp, getD_set_nat, fifo_load_times_length] at ht
      rw [(fifo_body_miss arr n k _ hlen hp).1, getD_set_eq, hlen]
      by_cases hc : (fifo_run arr n k).pointer = j ∧ j < n
      · rw [if_pos hc] at ht
        have : t = k := by omega
        subst this
        rw [if_pos hc]
        exact ⟨by omega, hp, hc.1, rfl⟩
      · rw [if_neg hc] at ht
        rw [if_neg hc]
        obtain ⟨h1, h2, h3, h4⟩ := ih (by omega) j hj t ht
        exact ⟨by omega, h2, h3, h4⟩

/-- The load times increase along the slots from the cursor round to the slot before
it. -/
theorem fifo_load_times_order (arr : List Int) (n : Nat) (hn : 1 ≤ n)
    (hpos : ∀ p ∈ arr, 0 ≤ p) :
    ∀ k, k ≤ arr.length →
      (∀ j, j < n → (fifo_load_times arr n k).getD j 0 ≤ k) ∧
      (∀ i j, i < j → j < (fifo_run arr n k).pointer →
        (fifo_load_times arr n k).getD i 0 < (fifo_load_times arr n k).getD j 0) ∧
      (∀ i j, i < (fifo_run arr n k).pointer → (fifo_run arr n k).pointer ≤ j → j < n →
        (fifo_load_times arr n k).getD j 0 < (fifo_load_times arr n k).getD i 0) ∧
      (n ≤ (fifo_run arr n k).num_allocated →
        ∀ i j, (fifo_run arr n k).pointer ≤ i → i < j → j < n →
          (fifo_load_times arr n k).getD i 0 < (fifo_load_times arr n k).getD j 0) ∧
      (n ≤ (fifo_run arr n k).num_allocated →
        ∀ j, j < n → 0 < (fifo_load_times arr n k).getD j 0) := by
  intro k
  induction k with
  | zero =>
    intro _
    have hp : (fifo_run arr n 0).pointer = 0 := rfl
    have ha : (fifo_run arr n 0).num_allocated = 0 := rfl
    refine ⟨?_, ?_, ?_, ?_, ?_⟩
    · intro j hj
      simp only [fifo_load_times]
      rw [List.getD_eq_getElem _ _ (by simpa using hj), List.getElem_replicate]
    · intro i j _ hj; rw [hp] at hj; omega
    · intro i j hi; rw [hp] at hi; omega
    · intro h; rw [ha] at h; omega
    · intro h; rw [ha] at h; omega
  | succ k ih =>
    intro hk
    obtain ⟨hD, hA, hB, hC, hE⟩ := ih (by omega)
    obtain ⟨hr, hptr⟩ := fifo_reach arr n hn k (by omega)
    have hg := hr.ginv hpos hn
    have hlen : (fifo_run arr n k).frames.length = n := hg.len
    have hplt : (fifo_run arr n k).pointer < n := by
      rw [hptr]; exact Nat.mod_lt _ (by omega)
    rw [fifo_load_times_succ arr n k hlen, fifo_run_succ]
    by_cases hp : arr.getD k 0 ∈ (fifo_run arr n k).frames
    · obtain ⟨_, h2, h3⟩ := fifo_body_hit arr n k _ hlen hp
      rw [if_pos hp, h2, h3]
      exact ⟨fun j hj => by have := hD j hj; omega, hA, hB, hC, hE⟩
    · obtain ⟨_, h2, h3⟩ := fifo_body_miss arr n k _ hlen hp
      rw [if_neg hp, h2, h3]
      have hL : ∀ j, ((fifo_load_times arr n k).set (fifo_run arr n k).pointer (k + 1)).getD j 0 =
          if (fifo_run arr n k).pointer = j ∧ j < n then k + 1
          else (fifo_load_times arr n k).getD j 0 := by
        intro j
        rw [getD_set_nat, fifo_load_times_length]
      have hsmall : (fifo_run arr n k).num_allocated < n →
          (fifo_run arr n k).pointer = (fifo_run arr n k).num_allocated := by
        intro h; rw [hptr]; exact Nat.mod_eq_of_lt h
      generalize (fifo_run arr n k).pointer = p at *
      generalize (fifo_run arr n k).num_allocated = a at *
      generalize fifo_load_times arr n k = L at *
      by_cases hwrap : p + 1 < n
      · rw [Nat.mod_eq_of_lt hwrap]
        refine ⟨?_, ?_, ?_, ?_, ?_⟩
        · intro j hj
          rw [hL]
          split
          · omega
          · have := hD j hj; omega
        · intro i j hij hj
          rw [hL, hL]
          have hi : ¬ (p = i ∧ i < n) := by omega
          rw [if_neg hi]
          by_cases hjp : j = p
          · subst hjp
            rw [if_pos ⟨rfl, hplt⟩]
            have := hD i (by omega); omega
          · rw [if_neg (by omega)]
            exact hA i j hij (by omega)
        · intro i j hi hj hjn
          rw [hL, hL]
          have hj' : ¬ (p = j ∧ j < n) := by omega
          rw [if_neg hj']
          by_cases hip : i = p
          · subst hip
            rw [if_pos ⟨rfl, hplt⟩]
            have := hD j hjn; omega
          · rw [if_neg (by omega)]
            exact hB i j (by omega) (by omega) hjn
        · intro hfull i j hi hij hjn
          have hfull' : n ≤ a := by
            by_contra hlt
            have := hsmall (by omega)
            omega
          rw [hL, hL, if_neg (by omega), if_neg (by omega)]
          exact hC hfull' i j (by omega) hij hjn
        · intro hfull j hj
          have hfull' : n ≤ a := by
            by_contra hlt
            have := hsmall (by omega)
            omega
          rw [hL]
          split
          · omega
          · exact hE hfull' j hj
      · have hpn : p + 1 = n := by omega
        rw [hpn, Nat.mod_self]
        refine ⟨?_, ?_, ?_, ?_, ?_⟩
        · intro j hj
          rw [hL]
          split
          · omega
          · have := hD j hj; omega
        · intro i j _ hj; omega
        · intro i j hi; omega
        · intro _ i j _ hij hjn
          rw [hL, hL, if_neg (by omega)]
          by_cases hjp : j = p
          · subst hjp
            rw [if_pos ⟨rfl, hplt⟩]
            have := hD i (by omega); omega
          · rw [if_neg (by omega)]
            exact hA i j hij (by omega)
        · intro _ j hj
          rw [hL]
          by_cases hjp : j = p
          · subst hjp
            rw [if_pos ⟨rfl, hplt⟩]
            omega
          · rw [if_neg (by omega)]
            have := hB j p (by omega) (le_refl _) hplt
            omega

/-- C19: a hit of `fifo` changes neither the frame table nor the cursor; at a miss made
once the table is full, `fifo` overwrites the slot under the cursor, whose page was loaded
earlier than the page of every other slot, whatever hits were made since; the loading step
of a slot is the step that last missed and wrote the slot, and the slot still holds the
page of that step. -/
theorem C19_fifo_insertion_order (trace : List Int) (frame_num : Nat)
    (hpos : ∀ p ∈ trace, 0 ≤ p) (hn : 1 ≤ frame_num) (k : Nat) (hk : k < trace.length) :
    (trace.getD k 0 ∈ (fifo_run trace frame_num k).frames →
      (fifo_run trace frame_num (k + 1)).frames = (fifo_run trace frame_num k).frames ∧
      (fifo_run trace frame_num (k + 1)).pointer = (fifo_run trace frame_num k).pointer ∧
      fifo_load_times trace frame_num (k + 1) = fifo_load_times trace frame_num k) ∧
    (trace.getD k 0 ∉ (fifo_run trace frame_num k).frames →
      frame_num ≤ (fifo_run trace frame_num k).num_allocated →
      (fifo_run trace frame_num k).pointer < frame_num ∧
      (fifo_run trace frame_num (k + 1)).frames =
        (fifo_run trace frame_num k).frames.set (fifo_run trace frame_num k).pointer
          (trace.getD k 0) ∧
      ∀ j, j < frame_num → j ≠ (fifo_run trace frame_num k).pointer →
        0 < (fifo_load_times trace frame_num k).getD (fifo_run trace frame_num k).pointer 0 ∧
        (fifo_load_times trace frame_num k).getD (fifo_run trace frame_num k).pointer 0 <
          (fifo_load_times trace frame_num k).getD j 0) ∧
    (∀ j, j < frame_num → ∀ t, (fifo_load_times trace frame_num k).getD j 0 = t + 1 →
      t < k ∧ trace.getD t 0 ∉ (fifo_run trace frame_num t).frames ∧
      (fifo_run trace frame_num t).pointer = j ∧
      (fifo_run trace frame_num k).frames.getD j 0 = trace.getD t 0) := by
  obtain ⟨hr, hptr⟩ := fifo_reach trace frame_num hn k (by omega)
  have hg := hr.ginv hpos hn
  have hlen : (fifo_run trace frame_num k).frames.length = frame_num := hg.len
  have hplt : (fifo_run trace frame_num k).pointer < frame_num := by
    rw [hptr]; exact Nat.mod_lt _ (by omega)
  obtain ⟨_, _, hB, hC, hE⟩ := fifo_load_times_order trace frame_num hn hpos k (by omega)
  refine ⟨?_, ?_, fifo_load_times_sound trace frame_num hn hpos k (by omega)⟩
  · intro hp
    rw [fifo_run_succ, fifo_load_times_succ trace frame_num k hlen, if_pos hp]
    exact ⟨(fifo_body_hit trace frame_num k _ hlen hp).1,
      (fifo_body_hit trace frame_num k _ hlen hp).2.1, rfl⟩
  · intro hp hfull
    rw [fifo_run_succ]
    refine ⟨hplt, (fifo_body_miss trace frame_num k _ hlen hp).1, ?_⟩
    intro j hj hjp
    refine ⟨hE hfull _ hplt, ?_⟩
    rcases Nat.lt_or_gt_of_ne hjp with h | h
    · exact hB j _ h (le_refl _) hplt
    · exact hC hfull _ j (le_refl _) h hj

/-- Witness of C19 at step 6 of the trace `[1,2,3,4,1,2,5,1,2,3,4,5]` with three frames:
the reference to page 5 misses a full table. -/
theorem C19_fifo_insertion_order_witness :
    (∀ p ∈ [1, 2, 3, 4, 1, 2, 5, 1, 2, 3, 4, 5], (0 : Int) ≤ p) ∧ 1 ≤ 3 ∧
    6 < ([1, 2, 3, 4, 1, 2, 5, 1, 2, 3, 4, 5] : List Int).length ∧
    ([1, 2, 3, 4, 1, 2, 5, 1, 2, 3, 4, 5] : List Int).getD 6 0 ∉
        (fifo_run [1, 2, 3, 4, 1, 2, 5, 1, 2, 3, 4, 5] 3 6).frames ∧
    3 ≤ (fifo_run [1, 2, 3, 4, 1, 2, 5, 1, 2, 3, 4, 5] 3 6).num_allocated ∧
    ((fifo_run [1, 2, 3, 4, 1, 2, 5, 1, 2, 3, 4, 5] 3 6).pointer < 3 ∧
      (fifo_run [1, 2, 3, 4, 1, 2, 5, 1, 2, 3, 4, 5] 3 (6 + 1)).frames =
        (fifo_run [1, 2, 3, 4, 1, 2, 5, 1, 2, 3, 4, 5] 3 6).frames.set
          (fifo_run [1, 2, 3, 4, 1, 2, 5, 1, 2, 3, 4, 5] 3 6).pointer
          (([1, 2, 3, 4, 1, 2, 5, 1, 2, 3, 4, 5] : List Int).getD 6 0) ∧
      ∀ j, j < 3 → j ≠ (fifo_run [1, 2, 3, 4, 1, 2, 5, 1, 2, 3, 4, 5] 3 6).pointer →
        0 < (fifo_load_times [1, 2, 3, 4, 1, 2, 5, 1, 2, 3, 4, 5] 3 6).getD
          (fifo_run [1, 2, 3, 4, 1, 2, 5, 1, 2, 3, 4, 5] 3 6).pointer 0 ∧
        (fifo_load_times [1, 2, 3, 4, 1, 2, 5, 1, 2, 3, 4, 5] 3 6).getD
          (fifo_run [1, 2, 3, 4, 1, 2, 5, 1, 2, 3, 4, 5] 3 6).pointer 0 <
          (fifo_load_times [1, 2, 3, 4, 1, 2, 5, 1, 2, 3, 4, 5] 3 6).getD j 0) :=
  ⟨by decide, by decide, by decide, by decide, by decide,
    (C19_fifo_insertion_order [1, 2, 3, 4, 1, 2, 5, 1, 2, 3, 4, 5] 3 (by decide) (by decide) 6
      (by decide)).2.1 (by decide) (by decide)⟩

/-! ## LRU evicts the page referenced longest ago -/

theorem indexOf_first : ∀ (l : List Int) (x : Int), x ∈ l →
    l.getD (l.indexOf x) 0 = x ∧ ∀ t, t < l.indexOf x → l.getD t 0 ≠ x := by
  intro l
  induction l with
  | nil => intro x hx; simp at hx
  | cons a l ih =>
    intro x hx
    by_cases hax : a = x
    · subst hax
      rw [List.indexOf_cons_self]
      exact ⟨by simp, fun t ht => by omega⟩
    · have hin : x ∈ l := by
        rcases List.mem_cons.1 hx with h | h
        · exact absurd h.symm hax
        · exact h
      obtain ⟨h1, h2⟩ := ih x hin
      rw [List.indexOf_cons_ne _ hax]
      refine ⟨by simpa using h1, ?_⟩
      intro t ht
      cases t with
      | zero => simpa using hax
      | succ t => simpa using h2 t (by omega)

theorem getD_reverse_take (arr : List Int) (k t : Nat) (hk : k ≤ arr.length) (ht : t < k) :
    (arr.take k).reverse.getD t 0 = arr.getD (k - 1 - t) 0 := by
  have hl : (arr.take k).length = k := List.length_take_of_le hk
  rw [List.getD_eq_getElem _ _ (by rw [List.length_reverse, hl]; exact ht),
    List.getD_eq_getElem _ _ (by omega), List.getElem_reverse, List.getElem_take]
  congr 1
  rw [hl]

/-- The meaning of the ages of `lru`: the age `a` of an occupied slot after `k` steps says
that the page of the slot was referenced `a` steps before the last step made, and not
since. -/
theorem lru_age_meaning (arr : List Int) (n : Nat) (hn : 1 ≤ n) (hpos : ∀ p ∈ arr, 0 ≤ p)
    (k : Nat) (hk : k ≤ arr.length) (j : Nat) (hj : j < n)
    (hocc : (lru_run arr n k).frames.getD j 0 ≠ -1) :
    ∃ a : Nat, (lru_run arr n k).last_used.getD j 0 = (a : Int) ∧ a < k ∧
      arr.getD (k - 1 - a) 0 = (lru_run arr n k).frames.getD j 0 ∧
      ∀ t, t < a → arr.getD (k - 1 - t) 0 ≠ (lru_run arr n k).frames.getD j 0 := by
  obtain ⟨hr, _, hage⟩ := lru_reach arr n hn hpos k hk
  have hg := hr.ginv hpos hn
  have hlen : (lru_run arr n k).frames.length = n := hg.len
  have hmem : (lru_run arr n k).frames.getD j 0 ∈ (arr.take k).reverse := by
    rcases hg.sub _ (getD_mem (lru_run arr n k).frames j (by omega)) with h | h
    · exact absurd h hocc
    · simpa using h
  have hidx : (arr.take k).reverse.indexOf ((lru_run arr n k).frames.getD j 0) < k := by
    have := List.indexOf_lt_length.2 hmem
    rwa [List.length_reverse, List.length_take_of_le hk] at this
  obtain ⟨f1, f2⟩ := indexOf_first _ _ hmem
  refine ⟨_, (hage j (by omega)).2 hocc, hidx, ?_, ?_⟩
  · rw [← getD_reverse_take arr k _ hk hidx]; exact f1
  · intro t ht
    rw [← getD_reverse_take arr k t hk (by omega)]
    exact f2 t ht

/-- C20: after each step of `lru` the age of every occupied slot is the number of steps
since the page in the slot was last referenced, and it is 0 for the slot of the page just
referenced; at a miss made once the table is full `lru` overwrites the slot of greatest age,
that is the resident page whose most recent reference is the earliest. -/
theorem C20_lru_victim (trace : List Int) (frame_num : Nat)
    (hpos : ∀ p ∈ trace, 0 ≤ p) (hn : 1 ≤ frame_num) (k : Nat) (hk : k < trace.length) :
    (∀ j, j < frame_num → (lru_run trace frame_num (k + 1)).frames.getD j 0 ≠ -1 →
      ∃ a : Nat, (lru_run trace frame_num (k + 1)).last_used.getD j 0 = (a : Int) ∧ a ≤ k ∧
        trace.getD (k - a) 0 = (lru_run trace frame_num (k + 1)).frames.getD j 0 ∧
        ∀ t, t < a → trace.getD (k - t) 0 ≠ (lru_run trace frame_num (k + 1)).frames.getD j 0) ∧
    (∃ j, j < frame_num ∧ (lru_run trace frame_num (k + 1)).frames.getD j 0 = trace.getD k 0 ∧
      (lru_run trace frame_num (k + 1)).last_used.getD j 0 = 0) ∧
    (trace.getD k 0 ∉ (lru_run trace frame_num k).frames →
      frame_num ≤ (lru_run trace frame_num k).num_allocated →
      find_max (increment_arr (lru_run trace frame_num k).last_used frame_num) frame_num
        < frame_num ∧
      (lru_run trace frame_num (k + 1)).frames =
        (lru_run trace frame_num k).frames.set
          (find_max (increment_arr (lru_run trace frame_num k).last_used frame_num) frame_num)
          (trace.getD k 0) ∧
      ∀ j, j < frame_num →
        (lru_run trace frame_num k).frames.getD j 0 ≠ -1 ∧
        (j ≠ find_max (increment_arr (lru_run trace frame_num k).last_used frame_num)
            frame_num →
          (lru_run trace frame_num k).last_used.getD j 0 <
            (lru_run trace frame_num k).last_used.getD
              (find_max (increment_arr (lru_run trace frame_num k).last_used frame_num)
                frame_num) 0)) := by
  obtain ⟨hr, hl, hage⟩ := lru_reach trace frame_num hn hpos k (by omega)
  have hg := hr.ginv hpos hn
  have hlen : (lru_run trace frame_num k).frames.length = frame_num := hg.len
  have hp0 := hpos _ (getD_mem trace k hk)
  refine ⟨?_, ?_, ?_⟩
  · intro j hj hocc
    obtain ⟨a, h1, h2, h3, h4⟩ :=
      lru_age_meaning trace frame_num hn hpos (k + 1) (by omega) j hj hocc
    refine ⟨a, h1, by omega, ?_, ?_⟩
    · rw [show k - a = k + 1 - 1 - a by omega]; exact h3
    · intro t ht
      rw [show k - t = k + 1 - 1 - t by omega]; exact h4 t ht
  · -- the slot of the page just referenced
    obtain ⟨hr', hl', hage'⟩ := lru_reach trace frame_num hn hpos (k + 1) (by omega)
    have hg' := hr'.ginv hpos hn
    have hlen' : (lru_run trace frame_num (k + 1)).frames.length = frame_num := hg'.len
    have hin : trace.getD k 0 ∈ (lru_run trace frame_num (k + 1)).frames := by
      rw [lru_run_succ]
      by_cases hp : trace.getD k 0 ∈ (lru_run trace frame_num k).frames
      · obtain ⟨_, _, _, hF, _⟩ := lru_body_hit trace frame_num k _ hlen hp
        rw [hF]; exact hp
      · rw [(lru_body_miss trace frame_num k _ hlen hp).1]
        exact List.mem_set _ _
          (by rw [hlen]; exact (find_max_spec _ frame_num hn).1) _
    obtain ⟨j, hj, he⟩ := (mem_iff_getD _ _).1 hin
    refine ⟨j, by omega, he, ?_⟩
    rw [(hage' j hj).2 (by rw [he]; omega), he, reverse_take_succ trace k hk,
      List.indexOf_cons_self]
    rfl
  · intro hp hfull
    have hv := find_max_spec (increment_arr (lru_run trace frame_num k).last_used frame_num)
      frame_num hn
    refine ⟨hv.1, by rw [lru_run_succ]; exact (lru_body_miss trace frame_num k _ hlen hp).1, ?_⟩
    have hnofree : (-1 : Int) ∉ (lru_run trace frame_num k).frames :=
      hg.full (hg.alloc_ge_iff.1 hfull)
    have hocc : ∀ i, i < frame_num → (lru_run trace frame_num k).frames.getD i 0 ≠ -1 :=
      fun i hi e => hnofree (e ▸ getD_mem _ i (by omega))
    have hlu : (lru_run trace frame_num k).last_used.length = frame_num := by
      rw [hl, hlen]
    have hinc : ∀ i, i < frame_num →
        (increment_arr (lru_run trace frame_num k).last_used frame_num).getD i 0 =
          (lru_run trace frame_num k).last_used.getD i 0 + 1 := by
      intro i hi
      have := increment_arr_getD (lru_run trace frame_num k).last_used i (by omega)
      rw [hlu] at this; exact this
    generalize find_max (increment_arr (lru_run trace frame_num k).last_used frame_num)
      frame_num = v at hv ⊢
    intro j hj
    refine ⟨hocc j hj, ?_⟩
    intro hjv
    have hle := hv.2.1 j hj
    rw [hinc j hj, hinc v hv.1] at hle
    have hne : (lru_run trace frame_num k).last_used.getD j 0 ≠
        (lru_run trace frame_num k).last_used.getD v 0 := by
      intro e
      rw [(hage j (by omega)).2 (hocc j hj), (hage v (by omega)).2 (hocc v hv.1)] at e
      have hmem : ∀ i, i < frame_num →
          (lru_run trace frame_num k).frames.getD i 0 ∈ (trace.take k).reverse := by
        intro i hi
        rcases hg.sub _ (getD_mem (lru_run trace frame_num k).frames i (by omega)) with h | h
        · exact absurd h (hocc i hi)
        · simpa using h
      have e' := (List.indexOf_inj (hmem j hj) (hmem v hv.1)).1 (by exact_mod_cast e)
      exact hocc j hj
        (uniq_index_ne (lru_run trace frame_num k).frames hg.uniq j v hjv (by omega)
          (by omega) e')
    omega

/-- Witness of C20 at step 6 of the trace `[1,2,3,4,1,2,5,1,2,3,4,5]` with three frames. -/
theorem C20_lru_victim_witness :
    (∀ p ∈ [1, 2, 3, 4, 1, 2, 5, 1, 2, 3, 4, 5], (0 : Int) ≤ p) ∧ 1 ≤ 3 ∧
    6 < ([1, 2, 3, 4, 1, 2, 5, 1, 2, 3, 4, 5] : List Int).length ∧
    (∃ j, j < 3 ∧ (lru_run [1, 2, 3, 4, 1, 2, 5, 1, 2, 3, 4, 5] 3 (6 + 1)).frames.getD j 0 =
        ([1, 2, 3, 4, 1, 2, 5, 1, 2, 3, 4, 5] : List Int).getD 6 0 ∧
      (lru_run [1, 2, 3, 4, 1, 2, 5, 1, 2, 3, 4, 5] 3 (6 + 1)).last_used.getD j 0 = 0) :=
  ⟨by decide, by decide, by decide,
    (C20_lru_victim [1, 2, 3, 4, 1, 2, 5, 1, 2, 3, 4, 5] 3 (by decide) (by decide) 6
      (by decide)).2.1⟩


/-! ## Distinct ages, sequential warm-up and the accounting state machine -/

/-- C21: in `lru`, after any number of steps, two different slots with the same age are
both empty (the ages of the occupied slots are pairwise distinct and differ from the age of
the empty slots); the same holds of the incremented ages that `find_max` receives, so a tie
in `find_max` can occur only among empty slots. -/
theorem C21_lru_ages_distinct (trace : List Int) (frame_num : Nat)
    (hpos : ∀ p ∈ trace, 0 ≤ p) (hn : 1 ≤ frame_num) (k : Nat) (hk : k ≤ trace.length) :
    (∀ i j, i < frame_num → j < frame_num → i ≠ j →
      (lru_run trace frame_num k).last_used.getD i 0 =
        (lru_run trace frame_num k).last_used.getD j 0 →
      (lru_run trace frame_num k).frames.getD i 0 = -1 ∧
        (lru_run trace frame_num k).frames.getD j 0 = -1) ∧
    (∀ i j, i < frame_num → j < frame_num → i ≠ j →
      (increment_arr (lru_run trace frame_num k).last_used frame_num).getD i 0 =
        (increment_arr (lru_run trace frame_num k).last_used frame_num).getD j 0 →
      (lru_run trace frame_num k).frames.getD i 0 = -1 ∧
        (lru_run trace frame_num k).frames.getD j 0 = -1) := by
  obtain ⟨hr, hl, hage⟩ := lru_reach trace frame_num hn hpos k hk
  have hg := hr.ginv hpos hn
  have hlen : (lru_run trace frame_num k).frames.length = frame_num := hg.len
  have hlu : (lru_run trace frame_num k).last_used.length = frame_num := by rw [hl, hlen]
  have hmem : ∀ i, i < frame_num → (lru_run trace frame_num k).frames.getD i 0 ≠ -1 →
      (lru_run trace frame_num k).frames.getD i 0 ∈ (trace.take k).reverse := by
    intro i hi hne
    rcases hg.sub _ (getD_mem (lru_run trace frame_num k).frames i (by omega)) with h | h
    · exact absurd h hne
    · simpa using h
  have hlt : ∀ i, i < frame_num → (lru_run trace frame_num k).frames.getD i 0 ≠ -1 →
      (lru_run trace frame_num k).last_used.getD i 0 < (k : Int) := by
    intro i hi hne
    have := List.indexOf_lt_length.2 (hmem i hi hne)
    rw [List.length_reverse, List.length_take_of_le hk] at this
    rw [(hage i (by omega)).2 hne]
    exact_mod_cast this
  have key : ∀ i j, i < frame_num → j < frame_num → i ≠ j →
      (lru_run trace frame_num k).last_used.getD i 0 =
        (lru_run trace frame_num k).last_used.getD j 0 →
      (lru_run trace frame_num k).frames.getD i 0 = -1 ∧
        (lru_run trace frame_num k).frames.getD j 0 = -1 := by
    intro i j hi hj hij he
    by_cases h1 : (lru_run trace frame_num k).frames.getD i 0 = -1
    · by_cases h2 : (lru_run trace frame_num k).frames.getD j 0 = -1
      · exact ⟨h1, h2⟩
      · have := hlt j hj h2
        rw [← he, (hage i (by omega)).1 h1] at this
        omega
    · by_cases h2 : (lru_run trace frame_num k).frames.getD j 0 = -1
      · have := hlt i hi h1
        rw [he, (hage j (by omega)).1 h2] at this
        omega
      · rw [(hage i (by omega)).2 h1, (hage j (by omega)).2 h2] at he
        have e' := (List.indexOf_inj (hmem i hi h1) (hmem j hj h2)).1 (by exact_mod_cast he)
        exact absurd
          (uniq_index_ne (lru_run trace frame_num k).frames hg.uniq i j hij (by omega)
            (by omega) e') h1
  refine ⟨key, ?_⟩
  intro i j hi hj hij he
  have e1 := increment_arr_getD (lru_run trace frame_num k).last_used i (by omega)
  have e2 := increment_arr_getD (lru_run trace frame_num k).last_used j (by omega)
  rw [hlu] at e1 e2
  rw [e1, e2] at he
  exact key i j hi hj hij (by omega)

/-- Witness of C21 after seven steps of `[1,2,3,4,1,2,5,1,2,3,4,5]` with three frames. -/
theorem C21_lru_ages_distinct_witness :
    (∀ p ∈ [1, 2, 3, 4, 1, 2, 5, 1, 2, 3, 4, 5], (0 : Int) ≤ p) ∧ 1 ≤ 3 ∧
    7 ≤ ([1, 2, 3, 4, 1, 2, 5, 1, 2, 3, 4, 5] : List Int).length ∧
    (∀ i j, i < 3 → j < 3 → i ≠ j →
      (lru_run [1, 2, 3, 4, 1, 2, 5, 1, 2, 3, 4, 5] 3 7).last_used.getD i 0 =
        (lru_run [1, 2, 3, 4, 1, 2, 5, 1, 2, 3, 4, 5] 3 7).last_used.getD j 0 →
      (lru_run [1, 2, 3, 4, 1, 2, 5, 1, 2, 3, 4, 5] 3 7).frames.getD i 0 = -1 ∧
        (lru_run [1, 2, 3, 4, 1, 2, 5, 1, 2, 3, 4, 5] 3 7).frames.getD j 0 = -1) :=
  ⟨by decide, by decide, by decide,
    (C21_lru_ages_distinct [1, 2, 3, 4, 1, 2, 5, 1, 2, 3, 4, 5] 3 (by decide) (by decide) 7
      (by decide)).1⟩


theorem core_step_warm (n : Nat) (p : Int) (idx : Nat) (c : Core)
    (hf : c.is_filled = false) (hlt : c.num_allocated < n) :
    (core_step n p idx c).is_filled = false ∧
    (core_step n p idx c).num_refs = c.num_refs ∧
    (core_step n p idx c).num_faults = c.num_faults := by
  have : ¬ n ≤ c.num_allocated := by omega
  simp [core_step, hf, this]

theorem core_step_counted (n : Nat) (p : Int) (idx : Nat) (c : Core)
    (h : n ≤ c.num_allocated) :
    (core_step n p idx c).is_filled = true ∧
    (core_step n p idx c).num_refs = c.num_refs + 1 := by
  simp [core_step, h]

theorem core_step_filled_mono (n : Nat) (p : Int) (idx : Nat) (c : Core)
    (h : c.is_filled = true) : (core_step n p idx c).is_filled = true := by
  simp [core_step, h]

theorem core_step_alloc_mono (n : Nat) (p : Int) (idx : Nat) (c : Core) :
    c.num_allocated ≤ (core_step n p idx c).num_allocated := by
  simp only [core_step]
  split <;> omega

/-- The flag `is_filled` is set only once `num_allocated` has reached `frame_num`, and no
reference or fault is counted before it is set; this needs no assumption on the trace. -/
theorem core_step_flag_inv (n : Nat) (p : Int) (idx : Nat) (c : Core)
    (h : (c.is_filled = true → n ≤ c.num_allocated) ∧
      (c.is_filled = false → c.num_refs = 0 ∧ c.num_faults = 0)) :
    ((core_step n p idx c).is_filled = true → n ≤ (core_step n p idx c).num_allocated) ∧
    ((core_step n p idx c).is_filled = false →
      (core_step n p idx c).num_refs = 0 ∧ (core_step n p idx c).num_faults = 0) := by
  have hm := core_step_alloc_mono n p idx c
  constructor
  · intro hf
    rw [core_step_is_filled] at hf
    simp only [Bool.or_eq_true, decide_eq_true_eq] at hf
    rcases hf with hf | hf
    · have := h.1 hf; omega
    · omega
  · intro hf
    rw [core_step_is_filled] at hf
    simp only [Bool.or_eq_false_iff, decide_eq_false_iff_not] at hf
    obtain ⟨w1, w2, w3⟩ := core_step_warm n p idx c hf.1 (by omega)
    rw [w2, w3]
    exact h.2 hf.1

theorem fifo_flag_inv (arr : List Int) (n : Nat) :
    ∀ k, ((fifo_run arr n k).is_filled = true → n ≤ (fifo_run arr n k).num_allocated) ∧
      ((fifo_run arr n k).is_filled = false →
        (fifo_run arr n k).num_refs = 0 ∧ (fifo_run arr n k).num_faults = 0) := by
  intro k
  induction k with
  | zero => exact ⟨fun h => by simp [fifo_run, fifo_loop, fifo_init] at h, fun _ => ⟨rfl, rfl⟩⟩
  | succ k ih =>
    rw [fifo_run_succ]
    exact core_step_flag_inv n (arr.getD k 0) (fifo_run arr n k).pointer (fifo_run arr n k).core ih

theorem lru_flag_inv (arr : List Int) (n : Nat) :
    ∀ k, ((lru_run arr n k).is_filled = true → n ≤ (lru_run arr n k).num_allocated) ∧
      ((lru_run arr n k).is_filled = false →
        (lru_run arr n k).num_refs = 0 ∧ (lru_run arr n k).num_faults = 0) := by
  intro k
  induction k with
  | zero => exact ⟨fun h => by simp [lru_run, lru_loop, lru_init] at h, fun _ => ⟨rfl, rfl⟩⟩
  | succ k ih =>
    rw [lru_run_succ]
    exact core_step_flag_inv n (arr.getD k 0)
      (find_max (increment_arr (lru_run arr n k).last_used n) n) (lru_run arr n k).core ih

theorem extra_flag_inv (arr : List Int) (sz n : Nat) :
    ∀ k, ((extra_run arr sz n k).is_filled = true → n ≤ (extra_run arr sz n k).num_allocated) ∧
      ((extra_run arr sz n k).is_filled = false →
        (extra_run arr sz n k).num_refs = 0 ∧ (extra_run arr sz n k).num_faults = 0) := by
  intro k
  induction k with
  | zero =>
    exact ⟨fun h => by simp [extra_run, extra_loop, extra_init] at h, fun _ => ⟨rfl, rfl⟩⟩
  | succ k ih =>
    rw [extra_run_succ]
    exact core_step_flag_inv n (arr.getD k 0)
      (extra_index arr sz n (extra_run arr sz n k)) (extra_run arr sz n k).core ih

/-- The three facts of C23 for one step of the shared loop body. -/
theorem core_step_machine (n : Nat) (p : Int) (idx : Nat) (c : Core)
    (h : (c.is_filled = true → n ≤ c.num_allocated) ∧
      (c.is_filled = false → c.num_refs = 0 ∧ c.num_faults = 0)) :
    (c.is_filled = true → (core_step n p idx c).is_filled = true) ∧
    (c.num_allocated < n →
      (core_step n p idx c).is_filled = false ∧ (core_step n p idx c).num_refs = 0 ∧
        (core_step n p idx c).num_faults = 0) ∧
    (n ≤ c.num_allocated →
      (core_step n p idx c).is_filled = true ∧
        (core_step n p idx c).num_refs = c.num_refs + 1) := by
  refine ⟨core_step_filled_mono n p idx c, ?_, core_step_counted n p idx c⟩
  intro hlt
  have hf : c.is_filled = false := by
    by_contra hf
    have := h.1 (by simpa using hf)
    omega
  obtain ⟨w1, w2, w3⟩ := core_step_warm n p idx c hf hlt
  exact ⟨w1, by rw [w2]; exact (h.2 hf).1, by rw [w3]; exact (h.2 hf).2⟩

/-- C23: for each of `fifo`, `lru` and `extra`, `is_filled` never reverts from 1 to 0; a
step entered with `num_allocated < frame_num` (every step up to and including the one whose
miss brings `num_allocated` to `frame_num`) leaves `is_filled`, the references and the
faults at 0; every step entered with `num_allocated ≥ frame_num` has `is_filled` set and
counts exactly one reference. -/
theorem C23_accounting_state_machine (trace : List Int) (frame_num : Nat)
    (_hn : 1 ≤ frame_num) (k : Nat) (_hk : k < trace.length) :
    (((fifo_run trace frame_num k).is_filled = true →
        (fifo_run trace frame_num (k + 1)).is_filled = true) ∧
      ((fifo_run trace frame_num k).num_allocated < frame_num →
        (fifo_run trace frame_num (k + 1)).is_filled = false ∧
        (fifo_run trace frame_num (k + 1)).num_refs = 0 ∧
        (fifo_run trace frame_num (k + 1)).num_faults = 0) ∧
      (frame_num ≤ (fifo_run trace frame_num k).num_allocated →
        (fifo_run trace frame_num (k + 1)).is_filled = true ∧
        (fifo_run trace frame_num (k + 1)).num_refs =
          (fifo_run trace frame_num k).num_refs + 1)) ∧
    (((lru_run trace frame_num k).is_filled = true →
        (lru_run trace frame_num (k + 1)).is_filled = true) ∧
      ((lru_run trace frame_num k).num_allocated < frame_num →
        (lru_run trace frame_num (k + 1)).is_filled = false ∧
        (lru_run trace frame_num (k + 1)).num_refs = 0 ∧
        (lru_run trace frame_num (k + 1)).num_faults = 0) ∧
      (frame_num ≤ (lru_run trace frame_num k).num_allocated →
        (lru_run trace frame_num (k + 1)).is_filled = true ∧
        (lru_run trace frame_num (k + 1)).num_refs =
          (lru_run trace frame_num k).num_refs + 1)) ∧
    (((extra_run trace trace.length frame_num k).is_filled = true →
        (extra_run trace trace.length frame_num (k + 1)).is_filled = true) ∧
      ((extra_run trace trace.length frame_num k).num_allocated < frame_num →
        (extra_run trace trace.length frame_num (k + 1)).is_filled = false ∧
        (extra_run trace trace.length frame_num (k + 1)).num_refs = 0 ∧
        (extra_run trace trace.length frame_num (k + 1)).num_faults = 0) ∧
      (frame_num ≤ (extra_run trace trace.length frame_num k).num_allocated →
        (extra_run trace trace.length frame_num (k + 1)).is_filled = true ∧
        (extra_run trace trace.length frame_num (k + 1)).num_refs =
          (extra_run trace trace.length frame_num k).num_refs + 1)) := by
  refine ⟨?_, ?_, ?_⟩
  · rw [fifo_run_succ]
    exact core_step_machine frame_num (trace.getD k 0) (fifo_run trace frame_num k).pointer
      (fifo_run trace frame_num k).core (fifo_flag_inv trace frame_num k)
  · rw [lru_run_succ]
    exact core_step_machine frame_num (trace.getD k 0)
      (find_max (increment_arr (lru_run trace frame_num k).last_used frame_num) frame_num)
      (lru_run trace frame_num k).core (lru_flag_inv trace frame_num k)
  · rw [extra_run_succ]
    exact core_step_machine frame_num (trace.getD k 0)
      (extra_index trace trace.length frame_num (extra_run trace trace.length frame_num k))
      (extra_run trace trace.length frame_num k).core
      (extra_flag_inv trace trace.length frame_num k)

/-- Witness of C23 at step 1 of `[3, 5, 3, 7, 5]` with two frames: the step fills the
table and counts nothing. -/
theorem C23_accounting_state_machine_witness :
    1 ≤ 2 ∧ 1 < ([3, 5, 3, 7, 5] : List Int).length ∧
    (fifo_run [3, 5, 3, 7, 5] 2 1).num_allocated < 2 ∧
    ((fifo_run [3, 5, 3, 7, 5] 2 (1 + 1)).is_filled = false ∧
      (fifo_run [3, 5, 3, 7, 5] 2 (1 + 1)).num_refs = 0 ∧
      (fifo_run [3, 5, 3, 7, 5] 2 (1 + 1)).num_faults = 0) :=
  ⟨by decide, by decide, by decide,
    (C23_accounting_state_machine [3, 5, 3, 7, 5] 2 (by decide) 1 (by decide)).1.2.1
      (by decide)⟩

theorem warm_slot_empty {arr : List Int} {n k : Nat} {c : Core} (g : GInv arr n k c)
    (hlt : c.num_allocated < n) : c.frames.getD c.num_allocated 0 = -1 := by
  have hd := g.dle
  obtain ⟨w1, w2, _⟩ := g.wu (by omega)
  rw [w2, List.getD_append_right _ _ _ _ (by omega), getD_replicate_lt _ _ _ (by omega)]

theorem empty_slot_alloc_lt {arr : List Int} {n k : Nat} {c : Core} (g : GInv arr n k c)
    (h : (-1 : Int) ∈ c.frames) : c.num_allocated < n := by
  by_contra hge
  exact g.full (g.alloc_ge_iff.1 (by omega)) h

theorem warm_frames_eq {arr : List Int} {n k : Nat} {c c' : Core} (g : GInv arr n k c)
    (g' : GInv arr n k c') (h : c.num_allocated ≤ n) : c'.frames = c.frames := by
  have hd := g.dle
  rw [(g.wu (by omega)).2.1, (g'.wu (by omega)).2.1]

theorem extra_index_warm (arr : List Int) (sz n : Nat) (s : ExtraState)
    (hf : s.is_filled = true → n ≤ s.num_allocated) (hlt : s.num_allocated < n) :
    extra_index arr sz n s = s.num_allocated := by
  have hnf : s.is_filled = false := by
    by_contra h
    have := hf (by simpa using h)
    omega
  have : ¬ (n ≤ s.num_allocated) := by omega
  simp [extra_index, hnf, this]

/-- C22: in `fifo`, `lru` and `extra`, a miss made while `num_allocated < frame_num` (the
miss number `num_allocated + 1`) writes the page into slot `num_allocated`, which is empty
at that moment; an empty slot remains only while `num_allocated < frame_num`, so no resident
page is overwritten while an empty slot remains; and as long as `num_allocated ≤ frame_num`
the frame tables of `lru`, `extra` and `fifo` are identical. -/
theorem C22_warmup_sequential (trace : List Int) (frame_num : Nat)
    (hpos : ∀ p ∈ trace, 0 ≤ p) (hn : 1 ≤ frame_num) (k : Nat) (hk : k < trace.length) :
    (trace.getD k 0 ∉ (fifo_run trace frame_num k).frames →
      (fifo_run trace frame_num k).num_allocated < frame_num →
      (fifo_run trace frame_num k).frames.getD (fifo_run trace frame_num k).num_allocated 0 = -1 ∧
      (fifo_run trace frame_num (k + 1)).frames =
        (fifo_run trace frame_num k).frames.set (fifo_run trace frame_num k).num_allocated
          (trace.getD k 0) ∧
      (fifo_run trace frame_num (k + 1)).num_allocated =
        (fifo_run trace frame_num k).num_allocated + 1) ∧
    (trace.getD k 0 ∉ (lru_run trace frame_num k).frames →
      (lru_run trace frame_num k).num_allocated < frame_num →
      (lru_run trace frame_num k).frames.getD (lru_run trace frame_num k).num_allocated 0 = -1 ∧
      (lru_run trace frame_num (k + 1)).frames =
        (lru_run trace frame_num k).frames.set (lru_run trace frame_num k).num_allocated
          (trace.getD k 0) ∧
      (lru_run trace frame_num (k + 1)).num_allocated =
        (lru_run trace frame_num k).num_allocated + 1) ∧
    (trace.getD k 0 ∉ (extra_run trace trace.length frame_num k).frames →
      (extra_run trace trace.length frame_num k).num_allocated < frame_num →
      (extra_run trace trace.length frame_num k).frames.getD
        (extra_run trace trace.length frame_num k).num_allocated 0 = -1 ∧
      (extra_run trace trace.length frame_num (k + 1)).frames =
        (extra_run trace trace.length frame_num k).frames.set
          (extra_run trace trace.length frame_num k).num_allocated (trace.getD k 0) ∧
      (extra_run trace trace.length frame_num (k + 1)).num_allocated =
        (extra_run trace trace.length frame_num k).num_allocated + 1) ∧
    (((-1 : Int) ∈ (fifo_run trace frame_num k).frames →
        (fifo_run trace frame_num k).num_allocated < frame_num) ∧
      ((-1 : Int) ∈ (lru_run trace frame_num k).frames →
        (lru_run trace frame_num k).num_allocated < frame_num) ∧
      ((-1 : Int) ∈ (extra_run trace trace.length frame_num k).frames →
        (extra_run trace trace.length frame_num k).num_allocated < frame_num)) ∧
    ((lru_run trace frame_num k).num_allocated ≤ frame_num →
      (lru_run trace frame_num k).frames = (fifo_run trace frame_num k).frames ∧
      (extra_run trace trace.length frame_num k).frames = (fifo_run trace frame_num k).frames) ∧
    ((lru_run trace frame_num (k + 1)).num_allocated ≤ frame_num →
      (lru_run trace frame_num (k + 1)).frames = (fifo_run trace frame_num (k + 1)).frames ∧
      (extra_run trace trace.length frame_num (k + 1)).frames =
        (fifo_run trace frame_num (k + 1)).frames) := by
  obtain ⟨rf, hptr⟩ := fifo_reach trace frame_num hn k (by omega)
  obtain ⟨rl, al⟩ := lru_reach trace frame_num hn hpos k (by omega)
  have re := extra_reach trace trace.length frame_num hn hpos k (by omega)
  have gf := rf.ginv hpos hn
  have gl := rl.ginv hpos hn
  have ge := re.ginv hpos hn
  have gf' := (fifo_reach trace frame_num hn (k + 1) (by omega)).1.ginv hpos hn
  have gl' := (lru_reach trace frame_num hn hpos (k + 1) (by omega)).1.ginv hpos hn
  have ge' := (extra_reach trace trace.length frame_num hn hpos (k + 1) (by omega)).ginv hpos hn
  have lf : (fifo_run trace frame_num k).frames.length = frame_num := gf.len
  have ll : (lru_run trace frame_num k).frames.length = frame_num := gl.len
  have le : (extra_run trace trace.length frame_num k).frames.length = frame_num := ge.len
  refine ⟨?_, ?_, ?_, ⟨empty_slot_alloc_lt gf, empty_slot_alloc_lt gl, empty_slot_alloc_lt ge⟩,
    ?_, ?_⟩
  · intro hp hlt
    obtain ⟨h1, _, h3⟩ := fifo_body_miss trace frame_num k _ lf hp
    have hpe : (fifo_run trace frame_num k).pointer = (fifo_run trace frame_num k).num_allocated := by
      rw [hptr]; exact Nat.mod_eq_of_lt hlt
    refine ⟨warm_slot_empty gf hlt, ?_, ?_⟩
    · rw [fifo_run_succ, h1, hpe]
    · rw [fifo_run_succ, h3]
  · intro hp hlt
    have h1 := (lru_body_miss trace frame_num k _ ll hp).1
    have hidx := lru_warm_index trace frame_num k _ (by omega) hn hpos gl al hlt
    refine ⟨warm_slot_empty gl hlt, ?_, ?_⟩
    · rw [lru_run_succ, h1, hidx]
    · rw [lru_run_succ]
      have := core_step_num_allocated frame_num (trace.getD k 0)
        (find_max (increment_arr (lru_run trace frame_num k).last_used frame_num) frame_num)
        (lru_run trace frame_num k).core ll
      have hp' : trace.getD k 0 ∉ (lru_run trace frame_num k).core.frames := hp
      rw [if_neg hp'] at this
      exact this
  · intro hp hlt
    have hidx := extra_index_warm trace trace.length frame_num
      (extra_run trace trace.length frame_num k) ge.filled_le hlt
    have hF := core_step_frames frame_num (trace.getD k 0)
      (extra_index trace trace.length frame_num (extra_run trace trace.length frame_num k))
      (extra_run trace trace.length frame_num k).core le
    have hA := core_step_num_allocated frame_num (trace.getD k 0)
      (extra_index trace trace.length frame_num (extra_run trace trace.length frame_num k))
      (extra_run trace trace.length frame_num k).core le
    have hp' : trace.getD k 0 ∉ (extra_run trace trace.length frame_num k).core.frames := hp
    rw [if_neg hp'] at hF hA
    have hF2 : (extra_body trace trace.length frame_num k
        (extra_run trace trace.length frame_num k)).frames =
        (extra_run trace trace.length frame_num k).frames.set
          (extra_index trace trace.length frame_num (extra_run trace trace.length frame_num k))
          (trace.getD k 0) := hF
    refine ⟨warm_slot_empty ge hlt, ?_, ?_⟩
    · rw [extra_run_succ, hF2, hidx]
    · rw [extra_run_succ]; exact hA
  · intro h
    exact ⟨(warm_frames_eq gl gf h).symm, (warm_frames_eq gl ge h).trans
      (warm_frames_eq gl gf h).symm⟩
  · intro h
    exact ⟨(warm_frames_eq gl' gf' h).symm, (warm_frames_eq gl' ge' h).trans
      (warm_frames_eq gl' gf' h).symm⟩

/-- Witness of C22 at step 3 of `[4, 7, 4, 9, 1]` with three frames: the third miss. -/
theorem C22_warmup_sequential_witness :
    (∀ p ∈ [4, 7, 4, 9, 1], (0 : Int) ≤ p) ∧ 1 ≤ 3 ∧
    3 < ([4, 7, 4, 9, 1] : List Int).length ∧
    ([4, 7, 4, 9, 1] : List Int).getD 3 0 ∉ (lru_run [4, 7, 4, 9, 1] 3 3).frames ∧
    (lru_run [4, 7, 4, 9, 1] 3 3).num_allocated < 3 ∧
    ((lru_run [4, 7, 4, 9, 1] 3 3).frames.getD (lru_run [4, 7, 4, 9, 1] 3 3).num_allocated 0 = -1 ∧
      (lru_run [4, 7, 4, 9, 1] 3 (3 + 1)).frames =
        (lru_run [4, 7, 4, 9, 1] 3 3).frames.set (lru_run [4, 7, 4, 9, 1] 3 3).num_allocated
          (([4, 7, 4, 9, 1] : List Int).getD 3 0) ∧
      (lru_run [4, 7, 4, 9, 1] 3 (3 + 1)).num_allocated =
        (lru_run [4, 7, 4, 9, 1] 3 3).num_allocated + 1) :=
  ⟨by decide, by decide, by decide, by decide, by decide,
    (C22_warmup_sequential [4, 7, 4, 9, 1] 3 (by decide) (by decide) 3 (by decide)).2.1
      (by decide) (by decide)⟩

/-! ## Index safety -/

theorem core_step_frames_length (n : Nat) (p : Int) (idx : Nat) (c : Core) :
    (core_step n p idx c).frames.length = c.frames.length := by
  simp only [core_step]
  split
  · rw [List.length_set]
  · rfl

theorem fifo_frames_length (arr : List Int) (n : Nat) :
    ∀ k, (fifo_run arr n k).frames.length = n := by
  intro k
  induction k with
  | zero => simp [fifo_run, fifo_loop, fifo_init]
  | succ k ih =>
    rw [fifo_run_succ]
    exact (core_step_frames_length n (arr.getD k 0) (fifo_run arr n k).pointer
      (fifo_run arr n k).core).trans ih

theorem lru_frames_length (arr : List Int) (n : Nat) :
    ∀ k, (lru_run arr n k).frames.length = n ∧ (lru_run arr n k).last_used.length = n := by
  intro k
  induction k with
  | zero => simp [lru_run, lru_loop, lru_init]
  | succ k ih =>
    rw [lru_run_succ]
    refine ⟨(core_step_frames_length n (arr.getD k 0)
      (find_max (increment_arr (lru_run arr n k).last_used n) n)
      (lru_run arr n k).core).trans ih.1, ?_⟩
    simp only [lru_body]
    split <;> rw [List.length_set, increment_arr_length] <;> exact ih.2

theorem extra_frames_length (arr : List Int) (sz n : Nat) :
    ∀ k, (extra_run arr sz n k).frames.length = n := by
  intro k
  induction k with
  | zero => simp [extra_run, extra_loop, extra_init]
  | succ k ih =>
    rw [extra_run_succ]
    exact (core_step_frames_length n (arr.getD k 0)
      (extra_index arr sz n (extra_run arr sz n k)) (extra_run arr sz n k).core).trans ih

theorem find_opt_scan_reads_bound (pages : List Int) (x : Int) :
    ∀ fuel j, ∀ idx ∈ find_opt_scan_reads pages x fuel j, j ≤ idx ∧ idx < j + fuel := by
  intro fuel
  induction fuel with
  | zero => intro j idx h; simp [find_opt_scan_reads] at h
  | succ f ih =>
    intro j idx h
    unfold find_opt_scan_reads at h
    split at h
    · have : idx = j := by simpa using h
      omega
    · rcases List.mem_cons.1 h with h | h
      · omega
      · have := ih (j + 1) idx h
        omega

/-- The scan of `find_opt` reads consecutive positions from `j` on and stops at the first
match; its result is the number of positions read before the match, or `INT_MAX`. -/
theorem find_opt_scan_reads_coherent (pages : List Int) (x : Int) :
    ∀ fuel j dist,
      find_opt_scan_reads pages x fuel j =
        List.range' j (find_opt_scan_reads pages x fuel j).length ∧
      (find_opt_scan pages x fuel j dist = INT_MAX ∨
        find_opt_scan pages x fuel j dist + 1 =
          dist + ((find_opt_scan_reads pages x fuel j).length : Int)) := by
  intro fuel
  induction fuel with
  | zero => intro j dist; exact ⟨rfl, Or.inl rfl⟩
  | succ f ih =>
    intro j dist
    unfold find_opt_scan_reads find_opt_scan
    by_cases h : pages.getD j 0 = x
    · rw [if_pos h, if_pos h]
      exact ⟨rfl, Or.inr (by simp)⟩
    · rw [if_neg h, if_neg h]
      obtain ⟨h1, h2⟩ := ih (j + 1) (dist + 1)
      refine ⟨?_, ?_⟩
      · rw [List.length_cons, List.range'_succ]
        exact congrArg _ h1
      · rcases h2 with h2 | h2
        · exact Or.inl h2
        · right
          rw [h2, List.length_cons]
          push_cast
          ring

/-- C27: for every trace and every `frame_num ≥ 1`, the frame-table indices used at any
step are below `frame_num`, the size of `frames` and `last_used`: the cursor of `fifo`
(which equals `num_allocated mod frame_num`), the slot that `search` reports on a hit, the
result of `find_max` in `lru`, and in `extra` the warm-up index `num_allocated` (used only
while `num_allocated < frame_num`) and the result of `find_opt`; and `find_opt` reads
`pages` at indices in `[num_read-1, num_pages)` only. -/
theorem C27_index_safety (trace : List Int) (frame_num : Nat) (hn : 1 ≤ frame_num)
    (k : Nat) (hk : k < trace.length) :
    ((fifo_run trace frame_num k).frames.length = frame_num ∧
      (fifo_run trace frame_num k).pointer =
        (fifo_run trace frame_num k).num_allocated % frame_num ∧
      (fifo_run trace frame_num k).pointer < frame_num) ∧
    ((lru_run trace frame_num k).frames.length = frame_num ∧
      (lru_run trace frame_num k).last_used.length = frame_num ∧
      find_max (increment_arr (lru_run trace frame_num k).last_used frame_num) frame_num
        < frame_num ∧
      (search (lru_run trace frame_num k).frames frame_num (trace.getD k 0) ≠ -1 →
        0 ≤ search (lru_run trace frame_num k).frames frame_num (trace.getD k 0) ∧
        search (lru_run trace frame_num k).frames frame_num (trace.getD k 0) < frame_num)) ∧
    ((extra_run trace trace.length frame_num k).frames.length = frame_num ∧
      extra_index trace trace.length frame_num (extra_run trace trace.length frame_num k)
        < frame_num ∧
      (((extra_run trace trace.length frame_num k).is_filled ||
          decide (frame_num ≤ (extra_run trace trace.length frame_num k).num_allocated)) = false →
        extra_index trace trace.length frame_num (extra_run trace trace.length frame_num k) =
          (extra_run trace trace.length frame_num k).num_allocated ∧
        (extra_run trace trace.length frame_num k).num_allocated < frame_num) ∧
      1 ≤ (extra_run trace trace.length frame_num k).count + 1 ∧
      find_opt trace trace.length (extra_run trace trace.length frame_num k).frames frame_num
        ((extra_run trace trace.length frame_num k).count + 1) < frame_num) ∧
    (∀ (pages : List Int) (num_pages num_read : Nat) (frame : Int), 1 ≤ num_read →
      ∀ idx ∈ find_opt_scan_reads pages frame (num_pages - (num_read - 1)) (num_read - 1),
        num_read - 1 ≤ idx ∧ idx < num_pages) := by
  refine ⟨⟨fifo_frames_length trace frame_num k, (fifo_reach trace frame_num hn k (by omega)).2, ?_⟩,
    ⟨(lru_frames_length trace frame_num k).1, (lru_frames_length trace frame_num k).2,
      (find_max_spec _ frame_num hn).1, ?_⟩, ⟨extra_frames_length trace trace.length frame_num k,
      ?_, ?_, by omega, find_opt_lt _ _ _ _ _ hn⟩, ?_⟩
  · rw [(fifo_reach trace frame_num hn k (by omega)).2]; exact Nat.mod_lt _ (by omega)
  · intro hne
    obtain ⟨j, h1, _, h3, _, _⟩ := search_loop_found _ _ frame_num 0 hne
    rw [show search (lru_run trace frame_num k).frames frame_num (trace.getD k 0) = (j : Int)
      from h1]
    omega
  · unfold extra_index
    split
    · rename_i h
      simp only [Bool.not_eq_true', Bool.or_eq_false_iff, decide_eq_false_iff_not] at h
      omega
    · exact find_opt_lt _ _ _ _ _ hn
  · intro h
    have h' := h
    simp only [Bool.or_eq_false_iff, decide_eq_false_iff_not] at h'
    refine ⟨?_, by omega⟩
    unfold extra_index
    simp [h]
  · intro pages num_pages num_read frame hr idx hidx
    have := find_opt_scan_reads_bound pages frame _ _ idx hidx
    omega

/-- Witness of C27 at step 3 of `[1, 2, 3, 1]` with two frames: the cursor of `fifo`, the
victim of `lru` and the victim of `extra` are all below 2. -/
theorem C27_index_safety_witness :
    1 ≤ 2 ∧ 3 < ([1, 2, 3, 1] : List Int).length ∧
    (fifo_run [1, 2, 3, 1] 2 3).pointer < 2 ∧
    find_max (increment_arr (lru_run [1, 2, 3, 1] 2 3).last_used 2) 2 < 2 ∧
    extra_index [1, 2, 3, 1] ([1, 2, 3, 1] : List Int).length 2
      (extra_run [1, 2, 3, 1] ([1, 2, 3, 1] : List Int).length 2 3) < 2 :=
  ⟨by decide, by decide,
    (C27_index_safety [1, 2, 3, 1] 2 (by decide) 3 (by decide)).1.2.2,
    (C27_index_safety [1, 2, 3, 1] 2 (by decide) 3 (by decide)).2.1.2.2.1,
    (C27_index_safety [1, 2, 3, 1] 2 (by decide) 3 (by decide)).2.2.1.2.1⟩

/-! ## The accounting formula -/

theorem miss_count_succ (f : Nat → List Int) (arr : List Int) (n k : Nat) :
    miss_count f arr n (k + 1) =
      miss_count f arr n k + if search (f k) n (arr.getD k 0) = -1 then 1 else 0 := by
  unfold miss_count
  rw [List.range_succ, List.countP_append]
  simp only [List.countP_cons, List.countP_nil, decide_eq_true_eq, Nat.zero_add]

theorem core_step_alloc_search (n : Nat) (p : Int) (idx : Nat) (c : Core) :
    (core_step n p idx c).num_allocated =
      c.num_allocated + if search c.frames n p = -1 then 1 else 0 := by
  simp only [core_step]
  by_cases h : search c.frames n p = -1
  · simp [h]
  · simp [h]

theorem fifo_alloc_miss_count (arr : List Int) (n : Nat) :
    ∀ k, (fifo_run arr n k).num_allocated =
      miss_count (fun i => (fifo_run arr n i).frames) arr n k := by
  intro k
  induction k with
  | zero => rfl
  | succ k ih =>
    rw [miss_count_succ, ← ih, fifo_run_succ]
    exact core_step_alloc_search n (arr.getD k 0) (fifo_run arr n k).pointer
      (fifo_run arr n k).core

theorem lru_alloc_miss_count (arr : List Int) (n : Nat) :
    ∀ k, (lru_run arr n k).num_allocated =
      miss_count (fun i => (lru_run arr n i).frames) arr n k := by
  intro k
  induction k with
  | zero => rfl
  | succ k ih =>
    rw [miss_count_succ, ← ih, lru_run_succ]
    exact core_step_alloc_search n (arr.getD k 0)
      (find_max (increment_arr (lru_run arr n k).last_used n) n) (lru_run arr n k).core

theorem extra_alloc_miss_count (arr : List Int) (sz n : Nat) :
    ∀ k, (extra_run arr sz n k).num_allocated =
      miss_count (fun i => (extra_run arr sz n i).frames) arr n k := by
  intro k
  induction k with
  | zero => rfl
  | succ k ih =>
    rw [miss_count_succ, ← ih, extra_run_succ]
    exact core_step_alloc_search n (arr.getD k 0)
      (extra_index arr sz n (extra_run arr sz n k)) (extra_run arr sz n k).core

theorem distinctPages_append_exists (t : List Int) :
    ∀ l : List Int, ∃ s, distinctPages (l ++ t) = distinctPages l ++ s := by
  induction t with
  | nil => intro l; exact ⟨[], by simp⟩
  | cons a t ih =>
    intro l
    obtain ⟨s, hs⟩ := ih (l ++ [a])
    rw [List.append_assoc, List.singleton_append] at hs
    rw [hs, distinctPages_snoc]
    split
    · exact ⟨s, rfl⟩
    · exact ⟨a :: s, by simp⟩

theorem distinctPages_take_exists (arr : List Int) (j i : Nat) (hji : j ≤ i) :
    ∃ s, distinctPages (arr.take i) = distinctPages (arr.take j) ++ s := by
  have h := distinctPages_append_exists ((arr.take i).drop j) ((arr.take i).take j)
  rw [List.take_append_drop, List.take_take, Nat.min_eq_left hji] at h
  exact h

theorem distinctPages_take_mono (arr : List Int) (j i : Nat) (hji : j ≤ i) :
    (distinctPages (arr.take j)).length ≤ (distinctPages (arr.take i)).length := by
  obtain ⟨s, hs⟩ := distinctPages_take_exists arr j i hji
  rw [hs, List.length_append]
  omega

theorem distinctPages_take_succ_le (arr : List Int) (k : Nat) (hk : k < arr.length) :
    (distinctPages (arr.take (k + 1))).length ≤ (distinctPages (arr.take k)).length + 1 := by
  rw [take_succ_getD arr k hk, distinctPages_snoc]
  split
  · omega
  · rw [List.length_append]; simp

/-- The step at which the table becomes full: `fill_index + 1` is the first number of
references after which `frame_num` distinct pages have been seen. -/
theorem fill_index_spec (arr : List Int) (n : Nat) (hn : 1 ≤ n)
    (hd : n ≤ (distinctPages arr).length) :
    fill_index arr n < arr.length ∧
    ∀ j, j ≤ arr.length →
      (n ≤ (distinctPages (arr.take j)).length ↔ fill_index arr n + 1 ≤ j) := by
  have hlt : n - 1 < (distinctPages arr).length := by omega
  have hx : (distinctPages arr).getD (n - 1) 0 ∈ distinctPages arr := getD_mem _ _ hlt
  have hxa : (distinctPages arr).getD (n - 1) 0 ∈ arr := (mem_distinctPages arr _).1 hx
  have hfirst := indexOf_first arr _ hxa
  have hilt : fill_index arr n < arr.length := List.indexOf_lt_length.2 hxa
  refine ⟨hilt, ?_⟩
  intro j hj
  obtain ⟨s, hs⟩ := distinctPages_take_exists arr j arr.length hj
  rw [List.take_length] at hs
  constructor
  · intro hge
    have hmem : (distinctPages arr).getD (n - 1) 0 ∈ arr.take j := by
      rw [← mem_distinctPages, hs, List.getD_append _ _ _ _ (by omega)]
      exact getD_mem _ _ (by omega)
    obtain ⟨i, hi, he⟩ := (mem_take_iff_getD arr j _ hj).1 hmem
    by_contra hcon
    have : i < arr.indexOf ((distinctPages arr).getD (n - 1) 0) := by
      unfold fill_index at hcon
      omega
    exact hfirst.2 i this he
  · intro hge
    by_contra hcon
    have hmem : (distinctPages arr).getD (n - 1) 0 ∈ arr.take j := by
      rw [mem_take_iff_getD arr j _ hj]
      exact ⟨fill_index arr n, by omega, hfirst.1⟩
    have hmem1 : (distinctPages arr).getD (n - 1) 0 ∈ distinctPages (arr.take j) :=
      (mem_distinctPages _ _).2 hmem
    have hmem2 : (distinctPages arr).getD (n - 1) 0 ∈ s := by
      have hlen : (distinctPages arr).length = (distinctPages (arr.take j)).length + s.length := by
        rw [hs, List.length_append]
      rw [hs, List.getD_append_right _ _ _ _ (by omega)]
      exact getD_mem _ _ (by omega)
    have hnd := nodup_distinctPages arr
    rw [hs] at hnd
    exact (List.nodup_append.1 hnd).2.2 hmem1 hmem2

/-- Counting starts at step `F`, the first number of references after which `frame_num`
distinct pages have been seen: from then on every reference is counted, and every miss
but the `frame_num` misses of the warm-up is counted as a fault. -/
theorem Reach.accounting {arr : List Int} {n : Nat} (hpos : ∀ p ∈ arr, 0 ≤ p) (hn : 1 ≤ n)
    (F : Nat)
    (hF : ∀ j, j ≤ arr.length → (n ≤ (distinctPages (arr.take j)).length ↔ F ≤ j)) :
    ∀ {k : Nat} {c : Core}, Reach arr n k c →
      ((distinctPages (arr.take k)).length < n → c.num_refs = 0 ∧ c.num_faults = 0) ∧
      (n ≤ (distinctPages (arr.take k)).length →
        c.num_refs + (F : Int) = (k : Int) ∧ c.num_faults + (n : Int) = (c.num_allocated : Int)) := by
  intro k c h
  induction h with
  | init =>
    refine ⟨fun _ => ⟨rfl, rfl⟩, ?_⟩
    intro h
    simp [distinctPages_nil] at h
    omega
  | step k c idx hr hk hidx hseq ih =>
    have g := hr.ginv hpos hn
    have g' := (Reach.step k c idx hr hk hidx hseq).ginv hpos hn
    have hsucc := distinctPages_take_succ_le arr k hk
    have hmono := distinctPages_take_mono arr k (k + 1) (by omega)
    have hFk := hF k (by omega)
    have hFk1 := hF (k + 1) (by omega)
    have hcnt := g.filled_iff
    have hrefs := core_step_num_refs n (arr.getD k 0) idx c
    have hfaults := core_step_num_faults n (arr.getD k 0) idx c g.len
    have halloc := core_step_num_allocated n (arr.getD k 0) idx c g.len
    by_cases hd : n ≤ (distinctPages (arr.take k)).length
    · have hc := hcnt.2 hd
      obtain ⟨i1, i2⟩ := ih.2 hd
      rw [if_pos hc] at hrefs
      refine ⟨fun h => by omega, fun _ => ?_⟩
      rw [hrefs]
      refine ⟨by push_cast; omega, ?_⟩
      rw [hfaults, halloc]
      by_cases hp : arr.getD k 0 ∈ c.frames
      · rw [if_neg (fun h => h.2 hp), if_pos hp]; exact i2
      · rw [if_pos ⟨hc, hp⟩, if_neg hp]; push_cast; omega
    · have hc : ¬ (c.is_filled = true ∨ n ≤ c.num_allocated) := fun h => hd (hcnt.1 h)
      obtain ⟨i1, i2⟩ := ih.1 (by omega)
      rw [if_neg hc] at hrefs
      rw [if_neg (fun h => hc h.1)] at hfaults
      refine ⟨fun _ => ⟨by rw [hrefs]; exact i1, by rw [hfaults]; exact i2⟩, fun h => ?_⟩
      have hFeq : F = k + 1 := by
        have h1 := hFk1.1 h
        have h2 : ¬ F ≤ k := fun h => hd (hFk.2 h)
        omega
      have hw := (g'.wu (by omega)).1
      rw [hrefs, hfaults, i1, i2, hFeq]
      refine ⟨by push_cast; omega, ?_⟩
      rw [hw]
      have : (distinctPages (arr.take (k + 1))).length = n := by omega
      rw [this]
      simp

/-- The counters of a demand-paging run at the end of the trace. -/
theorem Reach.final_counts {arr : List Int} {n : Nat} (hpos : ∀ p ∈ arr, 0 ≤ p) (hn : 1 ≤ n)
    {c : Core} (h : Reach arr n arr.length c) :
    (n ≤ arr.dedup.length →
      c.num_faults = (c.num_allocated : Int) - (n : Int) ∧
      c.num_refs = (arr.length : Int) - 1 - (fill_index arr n : Int)) ∧
    (arr.dedup.length < n → c.num_faults = 0 ∧ c.num_refs = 0) := by
  rw [← distinctPages_length]
  constructor
  · intro hd
    obtain ⟨_, hF⟩ := fill_index_spec arr n hn hd
    have := (Reach.accounting hpos hn (fill_index arr n + 1) hF h).2
      (by rw [List.take_length]; exact hd)
    push_cast at this
    omega
  · intro hd
    have hF : ∀ j, j ≤ arr.length →
        (n ≤ (distinctPages (arr.take j)).length ↔ arr.length + 1 ≤ j) := by
      intro j hj
      have := distinctPages_take_mono arr j arr.length hj
      rw [List.take_length] at this
      omega
    have := (Reach.accounting hpos hn (arr.length + 1) hF h).1
      (by rw [List.take_length]; exact hd)
    exact ⟨this.2, this.1⟩

/-- C28: for a trace of non-negative page numbers and `frame_num ≥ 1`, each of `fifo`,
`lru` and `extra` reports, if the trace has at least `frame_num` distinct pages, a number
of faults equal to its total number of misses over the whole trace minus `frame_num`, and
a number of references equal to `length - 1 -` the index of the first occurrence of the
`frame_num`-th distinct page; otherwise it reports 0 and 0.  Hence the three policies
report the same number of references. -/
theorem C28_accounting_formula (trace : List Int) (frame_num : Nat)
    (hpos : ∀ p ∈ trace, 0 ≤ p) (hn : 1 ≤ frame_num) :
    (frame_num ≤ trace.dedup.length →
      (fifo trace trace.length frame_num =
        ((miss_count (fun i => (fifo_run trace frame_num i).frames) trace frame_num
            trace.length : Int) - (frame_num : Int),
          (trace.length : Int) - 1 - (fill_index trace frame_num : Int))) ∧
      (lru trace trace.length frame_num =
        ((miss_count (fun i => (lru_run trace frame_num i).frames) trace frame_num
            trace.length : Int) - (frame_num : Int),
          (trace.length : Int) - 1 - (fill_index trace frame_num : Int))) ∧
      (extra trace trace.length frame_num =
        ((miss_count (fun i => (extra_run trace trace.length frame_num i).frames) trace
            frame_num trace.length : Int) - (frame_num : Int),
          (trace.length : Int) - 1 - (fill_index trace frame_num : Int)))) ∧
    (trace.dedup.length < frame_num →
      fifo trace trace.length frame_num = (0, 0) ∧
      lru trace trace.length frame_num = (0, 0) ∧
      extra trace trace.length frame_num = (0, 0)) ∧
    ((fifo trace trace.length frame_num).2 = (lru trace trace.length frame_num).2 ∧
      (lru trace trace.length frame_num).2 = (extra trace trace.length frame_num).2) := by
  have hf := Reach.final_counts hpos hn
    (fifo_reach trace frame_num hn trace.length (le_refl _)).1
  have hl := Reach.final_counts hpos hn
    (lru_reach trace frame_num hn hpos trace.length (le_refl _)).1
  have he := Reach.final_counts hpos hn
    (extra_reach trace trace.length frame_num hn hpos trace.length (le_refl _))
  have af := fifo_alloc_miss_count trace frame_num trace.length
  have al := lru_alloc_miss_count trace frame_num trace.length
  have ae := extra_alloc_miss_count trace trace.length frame_num trace.length
  have hf1 : (fifo_run trace frame_num trace.length).core.num_allocated =
      (fifo_run trace frame_num trace.length).num_allocated := rfl
  have hl1 : (lru_run trace frame_num trace.length).core.num_allocated =
      (lru_run trace frame_num trace.length).num_allocated := rfl
  have he1 : (extra_run trace trace.length frame_num trace.length).core.num_allocated =
      (extra_run trace trace.length frame_num trace.length).num_allocated := rfl
  rw [hf1, af] at hf
  rw [hl1, al] at hl
  rw [he1, ae] at he
  refine ⟨fun h => ⟨?_, ?_, ?_⟩, fun h => ⟨?_, ?_, ?_⟩, ?_⟩
  · exact Prod.ext (hf.1 h).1 (hf.1 h).2
  · exact Prod.ext (hl.1 h).1 (hl.1 h).2
  · exact Prod.ext (he.1 h).1 (he.1 h).2
  · exact Prod.ext (hf.2 h).1 (hf.2 h).2
  · exact Prod.ext (hl.2 h).1 (hl.2 h).2
  · exact Prod.ext (he.2 h).1 (he.2 h).2
  · rcases Nat.lt_or_ge trace.dedup.length frame_num with h | h
    · exact ⟨(hf.2 h).2.trans (hl.2 h).2.symm, (hl.2 h).2.trans (he.2 h).2.symm⟩
    · exact ⟨(hf.1 h).2.trans (hl.1 h).2.symm, (hl.1 h).2.trans (he.1 h).2.symm⟩

/-- Witness of C28 on `[1, 2, 1, 3, 2, 4]` with two frames: `fifo` misses four times and
reports 2 faults and 4 references, counted from index 2 on. -/
theorem C28_accounting_formula_witness :
    (∀ p ∈ [1, 2, 1, 3, 2, 4], (0 : Int) ≤ p) ∧ 1 ≤ 2 ∧
    2 ≤ ([1, 2, 1, 3, 2, 4] : List Int).dedup.length ∧
    fifo [1, 2, 1, 3, 2, 4] ([1, 2, 1, 3, 2, 4] : List Int).length 2 =
      ((miss_count (fun i => (fifo_run [1, 2, 1, 3, 2, 4] 2 i).frames) [1, 2, 1, 3, 2, 4] 2
          ([1, 2, 1, 3, 2, 4] : List Int).length : Int) - ((2 : Nat) : Int),
        (([1, 2, 1, 3, 2, 4] : List Int).length : Int) - 1 -
          (fill_index [1, 2, 1, 3, 2, 4] 2 : Int)) ∧
    miss_count (fun i => (fifo_run [1, 2, 1, 3, 2, 4] 2 i).frames) [1, 2, 1, 3, 2, 4] 2 6 = 4 ∧
    fill_index [1, 2, 1, 3, 2, 4] 2 = 1 ∧
    fifo [1, 2, 1, 3, 2, 4] 6 2 = (2, 4) :=
  ⟨by decide, by decide, by decide,
    ((C28_accounting_formula [1, 2, 1, 3, 2, 4] 2 (by decide) (by decide)).1 (by decide)).1,
    by decide, by decide, by decide⟩

/-! ## The first value of the generator and the range 1 -/

theorem reject_loop_one : ∀ (rs : List Nat) (current : Int), current = 0 →
    pagegenerator.reject_loop 1 0 current rs = none := by
  intro rs
  induction rs with
  | nil =>
    intro current h
    unfold pagegenerator.reject_loop
    rw [if_pos h]
  | cons r rs ih =>
    intro current h
    unfold pagegenerator.reject_loop
    rw [if_pos h]
    exact ih _ (Int.emod_one _)

theorem generate_one (fuel : Nat) (rnd : List Nat) :
    pagegenerator.generate 1 fuel 0 rnd = [] := by
  cases fuel with
  | zero => cases rnd <;> rfl
  | succ f =>
    cases rnd with
    | nil => rfl
    | cons r rs =>
      unfold pagegenerator.generate
      rw [reject_loop_one rs _ (Int.emod_one _)]

/-- C29: whenever pagegenerator passes its argument check and emits a value, the first
emitted value is not 0 (it is drawn until it differs from `previous`, which starts at 0).
The check accepts `range = 1`, and then, whatever values `random()` returns and however
many of them are drawn, the rejection loop of the first iteration has not exited, so
nothing is ever emitted. -/
theorem C29_first_value_nonzero :
    (∀ (range count : Int) (rnd : List Nat) (out : List Int),
      pagegenerator.main range count rnd = Except.ok out →
      ∀ x, out.head? = some x → x ≠ 0) ∧
    (∀ (count : Int) (rnd : List Nat), 1 ≤ count →
      pagegenerator.main 1 count rnd = Except.ok []) ∧
    (∀ (r : Nat) (rs : List Nat),
      pagegenerator.reject_loop 1 0 ((r : Int) % 1) rs = none) := by
  refine ⟨?_, ?_, ?_⟩
  · intro range count rnd out h x hx
    unfold pagegenerator.main at h
    split at h
    · exact absurd h (by simp)
    · rename_i hr
      split at h
      · exact absurd h (by simp)
      · have hr1 : 1 ≤ range := by omega
        have hout : pagegenerator.generate range count.toNat 0 rnd = out := by
          injection h
        have hs := (generate_spec range hr1 count.toNat 0 rnd).2 0
        rw [hout] at hs
        cases out with
        | nil => simp at hx
        | cons a t =>
          have := hs (by simp)
          simp only [List.head?_cons, Option.some.injEq] at hx
          subst hx
          simpa using this
  · intro count rnd hc
    unfold pagegenerator.main
    rw [if_neg (by omega), if_neg (by omega), generate_one]
  · intro r rs
    exact reject_loop_one rs _ (Int.emod_one _)

/-- Witness of C29: with range 3 and count 4 the values `0, 3` of `random()` are rejected
and the first emitted value is 1; with range 1 nothing is emitted. -/
theorem C29_first_value_nonzero_witness :
    pagegenerator.main 3 4 [0, 3, 4, 4, 7, 2, 2, 5, 9] = Except.ok [1, 2, 0] ∧
    ([1, 2, 0] : List Int).head? = some 1 ∧ (1 : Int) ≠ 0 ∧
    pagegenerator.main 1 4 [0, 3, 4, 4, 7, 2, 2, 5, 9] = Except.ok [] :=
  ⟨rfl, rfl,
    C29_first_value_nonzero.1 3 4 [0, 3, 4, 4, 7, 2, 2, 5, 9] [1, 2, 0] rfl 1 rfl,
    C29_first_value_nonzero.2.1 4 [0, 3, 4, 4, 7, 2, 2, 5, 9] (by decide)⟩


/-! ## The cache lab: checked memory accesses -/

theorem mem_read_lt {α : Type} (m : List α) (k : Nat) (h : k < m.length) :
    mem_read m k = Except.ok (m.get ⟨k, h⟩) := by
  unfold mem_read
  rw [List.getElem?_eq_getElem h]
  rfl

theorem mem_read_ge {α : Type} (m : List α) (k : Nat) (h : m.length ≤ k) :
    mem_read m k = Except.error k := by
  unfold mem_read
  rw [List.getElem?_eq_none h]

theorem mem_write_lt {α : Type} (m : List α) (k : Nat) (v : α) (h : k < m.length) :
    mem_write m k v = Except.ok (m.set k v) := by
  unfold mem_write
  rw [if_pos h]

theorem mem_write_ge {α : Type} (m : List α) (k : Nat) (v : α) (h : m.length ≤ k) :
    mem_write m k v = Except.error k := by
  unfold mem_write
  rw [if_neg (by omega)]

/-! ## `level_3` of optimized.c -/

theorem level_3_body_ok (n i j : Nat) (c : List Int) (hi : i + 1 < n) (hj : j < n)
    (hc : c.length = n * n) :
    ∃ c1, optimized.level_3_body n i j c = Except.ok c1 ∧ c1.length = n * n := by
  have h1 : (i + 1) * n < n * n := Nat.mul_lt_mul_of_pos_right hi (by omega)
  have h1' : (i + 1) * n = i * n + n := by ring
  have ha : i * n + j < c.length := by omega
  have hb : i * n + (n - j) < c.length := by omega
  unfold optimized.level_3_body
  rw [mem_read_lt c _ ha, mem_read_lt c _ hb]
  simp only [Except.bind]
  rw [mem_write_lt _ _ _ ha]
  simp only [Except.bind]
  rw [mem_write_lt _ _ _ (by rw [List.length_set]; exact hb)]
  exact ⟨_, rfl, by rw [List.length_set, List.length_set]; exact hc⟩

theorem level_3_inner_ok (n i : Nat) (hi : i + 1 < n) :
    ∀ (fuel j : Nat) (c : List Int), j + fuel ≤ n → c.length = n * n →
      ∃ c1, optimized.level_3_inner n i fuel j c = Except.ok c1 ∧ c1.length = n * n := by
  intro fuel
  induction fuel with
  | zero => intro j c _ hc; exact ⟨c, rfl, hc⟩
  | succ f ih =>
    intro j c hj hc
    obtain ⟨c1, h1, l1⟩ := level_3_body_ok n i j c hi (by omega) hc
    unfold optimized.level_3_inner
    rw [h1]
    exact ih (j + 1) c1 (by omega) l1

theorem level_3_body_err (n : Nat) (c : List Int) (hn : 1 ≤ n) (hc : c.length = n * n) :
    optimized.level_3_body n (n - 1) 0 c = Except.error (n * n) := by
  have h1 : (n - 1) * n + n = n * n := by
    have : (n - 1 + 1) * n = (n - 1) * n + n := by ring
    rw [← this, Nat.sub_add_cancel hn]
  have ha : (n - 1) * n + 0 < c.length := by
    have : 0 < n := hn
    omega
  unfold optimized.level_3_body
  rw [mem_read_lt c _ ha]
  simp only [Except.bind]
  rw [mem_read_ge c _ (by rw [Nat.sub_zero, h1, hc]), Nat.sub_zero, h1]

theorem level_3_outer_err (n : Nat) (hn : 2 ≤ n) :
    ∀ (fuel i : Nat) (c : List Int), 1 ≤ fuel → i + fuel = n → c.length = n * n →
      optimized.level_3_outer n fuel i c = Except.error (n * n) := by
  intro fuel
  induction fuel with
  | zero => intro i c h; omega
  | succ f ih =>
    intro i c _ hi hc
    unfold optimized.level_3_outer
    by_cases hf : f = 0
    · have hi' : i = n - 1 := by omega
      have hs : n >>> 1 = (n >>> 1 - 1) + 1 := by
        rw [Nat.shiftRight_eq_div_pow]
        have : 1 ≤ n / 2 ^ 1 := by
          rw [pow_one]
          omega
        omega
      rw [hs, hi']
      unfold optimized.level_3_inner
      rw [level_3_body_err n c (by omega) hc]
      rfl
    · have hs : n >>> 1 ≤ n := by
        rw [Nat.shiftRight_eq_div_pow]
        exact Nat.div_le_self _ _
      obtain ⟨c1, h1, l1⟩ := level_3_inner_ok n i (by omega) (n >>> 1) 0 c (by omega) hc
      rw [h1]
      exact ih (i + 1) c1 (by omega) (by omega) l1

theorem level_3_err (n : Nat) (hn : 2 ≤ n) (c : List Int) (hc : c.length = n * n) :
    optimized.level_3 n c = Except.error (n * n) :=
  level_3_outer_err n hn n 0 c (by omega) (by omega) hc

/-- C26 fails on the code: `level_3` of optimized.c exchanges `c[i][j]` with `c[i][N-j]`,
not with `c[i][N-1-j]`.  For `j = 0` this is the cell after the end of row `i`, and in the
last row the cell after the end of `c`: for every content of the `N × N` matrix the run
reaches the access to cell `N * N`, outside `c`.  On a `4 × 4` matrix followed in memory
by one more cell, the rows come out with their columns `1 .. 3` reversed and the column
`0` shifted up by one row, which is not the reversal of each row. -/
theorem C26_level_3_not_row_reversal :
    (∀ c : Fin (N * N) → Int, optimized.level_3 N (List.ofFn c) = Except.error (N * N)) ∧
    optimized.level_3 4
        [0, 1, 2, 3, 10, 11, 12, 13, 20, 21, 22, 23, 30, 31, 32, 33, 99] =
      Except.ok [10, 3, 2, 1, 20, 13, 12, 11, 30, 23, 22, 21, 99, 33, 32, 31, 0] :=
  ⟨fun c => level_3_err N (by decide) (List.ofFn c) (List.length_ofFn c), rfl⟩

/-! ## `level_5` of optimized.c -/

theorem level_5_index_lt (n i j : Nat) (hi : i < n) (hj : j < n) : i + j * n < n * n := by
  have h1 : (j + 1) * n ≤ n * n := Nat.mul_le_mul_right n hj
  have h2 : (j + 1) * n = j * n + n := by ring
  omega

theorem level_5_zero_j_ok (n i : Nat) (hi : i < n) :
    ∀ (fuel j : Nat) (C : List ℚ), j + fuel ≤ n → C.length = n * n →
      ∃ C1, optimized.level_5_zero_j n i fuel j C = Except.ok C1 ∧ C1.length = n * n := by
  intro fuel
  induction fuel with
  | zero => intro j C _ hc; exact ⟨C, rfl, hc⟩
  | succ f ih =>
    intro j C hj hc
    unfold optimized.level_5_zero_j
    rw [mem_write_lt _ _ _ (by rw [hc]; exact level_5_index_lt n i j hi (by omega))]
    exact ih (j + 1) _ (by omega) (by rw [List.length_set]; exact hc)

theorem level_5_zero_i_ok (n jj jend : Nat) (hjj : jj ≤ n) (hjend : jend ≤ n) :
    ∀ (fuel i : Nat) (C : List ℚ), i + fuel ≤ n → C.length = n * n →
      ∃ C1, optimized.level_5_zero_i n jj jend fuel i C = Except.ok C1 ∧
        C1.length = n * n := by
  intro fuel
  induction fuel with
  | zero => intro i C _ hc; exact ⟨C, rfl, hc⟩
  | succ f ih =>
    intro i C hi hc
    obtain ⟨C1, h1, l1⟩ := level_5_zero_j_ok n i (by omega) (jend - jj) jj C (by omega) hc
    unfold optimized.level_5_zero_i
    rw [h1]
    exact ih (i + 1) C1 (by omega) l1

/-- The summing loop leaves `j` at the end of the block. -/
theorem level_5_sum_snd (n i k : Nat) (A B : List ℚ) :
    ∀ (fuel j : Nat) (sum : ℚ), (optimized.level_5_sum n i k A B fuel j sum).2 = j + fuel := by
  intro fuel
  induction fuel with
  | zero => intro j sum; rfl
  | succ f ih =>
    intro j sum
    unfold optimized.level_5_sum
    rw [ih]
    omega

theorem level_5_k_ok (n i jj jend : Nat) (A B : List ℚ) (hi : i < n) (hjj : jj ≤ jend)
    (hjend : jend < n) :
    ∀ (fuel k : Nat) (C : List ℚ), C.length = n * n →
      ∃ C1, optimized.level_5_k n i jj jend A B fuel k C = Except.ok C1 ∧
        C1.length = n * n := by
  intro fuel
  induction fuel with
  | zero => intro k C hc; exact ⟨C, rfl, hc⟩
  | succ f ih =>
    intro k C hc
    have hlt : i + (jj + (jend - jj)) * n < C.length := by
      rw [hc]
      exact level_5_index_lt n i _ hi (by omega)
    unfold optimized.level_5_k
    rw [level_5_sum_snd, mem_read_lt _ _ hlt]
    simp only [Except.bind]
    rw [mem_write_lt _ _ _ hlt]
    exact ih (k + 1) _ (by rw [List.length_set]; exact hc)

theorem level_5_k_err (n jj : Nat) (A B : List ℚ) (hjj : jj ≤ n) :
    ∀ (fuel k : Nat) (C : List ℚ), 1 ≤ fuel → C.length = n * n →
      optimized.level_5_k n 0 jj n A B fuel k C = Except.error (n * n) := by
  intro fuel k C hf hc
  obtain ⟨f, rfl⟩ : ∃ f, fuel = f + 1 := ⟨fuel - 1, by omega⟩
  have he : 0 + (jj + (n - jj)) * n = n * n := by
    rw [Nat.add_sub_cancel' hjj, Nat.zero_add]
  unfold optimized.level_5_k
  rw [level_5_sum_snd, he, mem_read_ge _ _ (by rw [hc])]
  rfl

theorem level_5_i_ok (n jj jend kk kend : Nat) (A B : List ℚ) (hjj : jj ≤ jend)
    (hjend : jend < n) :
    ∀ (fuel i : Nat) (C : List ℚ), i + fuel ≤ n → C.length = n * n →
      ∃ C1, optimized.level_5_i n jj jend kk kend A B fuel i C = Except.ok C1 ∧
        C1.length = n * n := by
  intro fuel
  induction fuel with
  | zero => intro i C _ hc; exact ⟨C, rfl, hc⟩
  | succ f ih =>
    intro i C hi hc
    obtain ⟨C1, h1, l1⟩ :=
      level_5_k_ok n i jj jend A B (by omega) hjj hjend (kend - kk) kk C hc
    unfold optimized.level_5_i
    rw [h1]
    exact ih (i + 1) C1 (by omega) l1

theorem level_5_kk_ok (n bsize jj : Nat) (A B : List ℚ) (hjend : jj + bsize < n) :
    ∀ (fuel kk : Nat) (C : List ℚ), C.length = n * n →
      ∃ C1, optimized.level_5_kk n bsize jj A B fuel kk C = Except.ok C1 ∧
        C1.length = n * n := by
  intro fuel
  induction fuel with
  | zero => intro kk C hc; exact ⟨C, rfl, hc⟩
  | succ f ih =>
    intro kk C hc
    have hmin : min (jj + bsize) n = jj + bsize := Nat.min_eq_left (by omega)
    obtain ⟨C1, h1, l1⟩ := level_5_i_ok n jj (jj + bsize) kk (min (kk + bsize) n) A B
      (by omega) hjend n 0 C (by omega) hc
    unfold optimized.level_5_kk
    rw [hmin, h1]
    exact ih (kk + bsize) C1 l1

theorem level_5_kk_err (n bsize jj : Nat) (A B : List ℚ) (hn : 1 ≤ n) (hb : 1 ≤ bsize)
    (hjj : jj ≤ n) (hjend : n ≤ jj + bsize) (fuel : Nat) (hf : 1 ≤ fuel) (C : List ℚ)
    (hc : C.length = n * n) :
    optimized.level_5_kk n bsize jj A B fuel 0 C = Except.error (n * n) := by
  obtain ⟨f, rfl⟩ : ∃ f, fuel = f + 1 := ⟨fuel - 1, by omega⟩
  obtain ⟨m, rfl⟩ : ∃ m, n = m + 1 := ⟨n - 1, by omega⟩
  have hmin : min (jj + bsize) (m + 1) = m + 1 := Nat.min_eq_right hjend
  unfold optimized.level_5_kk
  rw [hmin]
  unfold optimized.level_5_i
  rw [level_5_k_err (m + 1) jj A B hjj _ 0 C (by
    have : 1 ≤ min (0 + bsize) (m + 1) := Nat.le_min.2 ⟨by omega, by omega⟩
    omega) hc]
  rfl

theorem level_5_jj_err (n bsize : Nat) (A B : List ℚ) (hn : 1 ≤ n) (hb : 1 ≤ bsize) :
    ∀ (fuel jj : Nat) (C : List ℚ), 1 ≤ fuel → jj + fuel * bsize < n + bsize →
      n ≤ jj + fuel * bsize → C.length = n * n →
      optimized.level_5_jj n bsize A B fuel jj C = Except.error (n * n) := by
  have hq : 1 ≤ (n + bsize - 1) / bsize :=
    (Nat.one_le_div_iff (by omega)).2 (by omega)
  intro fuel
  induction fuel with
  | zero => intro jj C h; omega
  | succ f ih =>
    intro jj C _ h1 h2 hc
    rw [Nat.succ_mul] at h1 h2
    unfold optimized.level_5_jj
    by_cases hf : f = 0
    · subst hf
      rw [Nat.zero_mul] at h1 h2
      obtain ⟨C1, e1, l1⟩ := level_5_zero_i_ok n jj (min (jj + bsize) n) (by omega)
        (Nat.min_le_right _ _) n 0 C (by omega) hc
      rw [e1]
      simp only [Except.bind]
      rw [level_5_kk_err n bsize jj A B hn hb (by omega) (by omega) _ hq C1 l1]
    · have hfb : bsize ≤ f * bsize := Nat.le_mul_of_pos_left _ (by omega)
      obtain ⟨C1, e1, l1⟩ := level_5_zero_i_ok n jj (min (jj + bsize) n) (by omega)
        (Nat.min_le_right _ _) n 0 C (by omega) hc
      obtain ⟨C2, e2, l2⟩ := level_5_kk_ok n bsize jj A B (by omega)
        ((n + bsize - 1) / bsize) 0 C1 l1
      rw [e1]
      simp only [Except.bind]
      rw [e2]
      exact ih (jj + bsize) C2 (by omega) (by omega) (by omega) l2

theorem level_5_err (n bsize : Nat) (A B C : List ℚ) (hn : 1 ≤ n) (hb : 1 ≤ bsize)
    (hc : C.length = n * n) :
    optimized.level_5 n bsize A B C = Except.error (n * n) := by
  have hq : 1 ≤ (n + bsize - 1) / bsize :=
    (Nat.one_le_div_iff (by omega)).2 (by omega)
  have hdm := Nat.div_add_mod (n + bsize - 1) bsize
  have hmod := Nat.mod_lt (n + bsize - 1) (show 0 < bsize by omega)
  have hcomm : (n + bsize - 1) / bsize * bsize = bsize * ((n + bsize - 1) / bsize) :=
    Nat.mul_comm _ _
  exact level_5_jj_err n bsize A B hn hb _ 0 C hq (by omega) (by omega) hc

/-- C25 fails on the code: in `level_5` of optimized.c the statement `C[i + j * n] += sum`
stands after the loop over `j`, where `j` is `MIN(jj + bsize, n)`, so each block sum is
added into the column that follows the block.  In the last block that column is `n`: for
all `A` and `B` and every content of the `DIM2 × DIM2` array `C` the run reaches the
access to `C[DIM2 * DIM2]`, outside `C`.  With `n = 2`, `bsize = 1`, both matrices the
identity and `C` followed in memory by two more cells, the four cells of `C` are left at
0 and the sums land in the two cells after `C`, whereas `level_5` of refcode.c leaves the
identity in a zero-initialised `C`. -/
theorem C25_level_5_writes_after_block :
    (∀ (A B : List ℚ) (c : Fin (DIM2 * DIM2) → ℚ),
      optimized.level_5 DIM2 15 A B (List.ofFn c) = Except.error (DIM2 * DIM2)) ∧
    optimized.level_5 2 1 [1, 0, 0, 1] [1, 0, 0, 1] [7, 7, 7, 7, 5, 5] =
      Except.ok [0, 0, 0, 0, 5, 6] ∧
    refcode.level_5 2 [1, 0, 0, 1] [1, 0, 0, 1] [0, 0, 0, 0] = [1, 0, 0, 1] := by
  refine ⟨fun A B c => level_5_err DIM2 15 A B (List.ofFn c) (by decide) (by decide)
    (List.length_ofFn c), ?_, ?_⟩
  · simp [optimized.level_5, optimized.level_5_jj, optimized.level_5_zero_i,
      optimized.level_5_zero_j, optimized.level_5_kk, optimized.level_5_i,
      optimized.level_5_k, optimized.level_5_sum, mem_read, mem_write, Except.bind]
    norm_num
  · simp [refcode.level_5, refcode.level_5_i, refcode.level_5_j, refcode.level_5_k]

/-! ## `level_4`: both versions sort `list` -/

theorem swap_adj_perm : ∀ (a : Nat) (l : List Int), a + 1 < l.length →
    ((l.set a (l.getD (a + 1) 0)).set (a + 1) (l.getD a 0)).Perm l := by
  intro a
  induction a with
  | zero =>
    intro l h
    match l, h with
    | x :: y :: t, _ => exact List.Perm.swap x y t
  | succ a ih =>
    intro l h
    match l, h with
    | x :: t, h =>
      have h' : a + 1 < t.length := by simpa using h
      exact List.Perm.cons x (ih t h')

theorem cmp_swap_length (l : List Int) (a : Nat) : (cmp_swap l a).length = l.length := by
  unfold cmp_swap
  split
  · rw [List.length_set, List.length_set]
  · rfl

theorem cmp_swap_getD (l : List Int) (a t : Nat) (h : a + 1 < l.length) :
    (cmp_swap l a).getD t 0 =
      if t = a then min (l.getD a 0) (l.getD (a + 1) 0)
      else if t = a + 1 then max (l.getD a 0) (l.getD (a + 1) 0)
      else l.getD t 0 := by
  unfold cmp_swap
  by_cases hlt : l.getD (a + 1) 0 < l.getD a 0
  · rw [if_pos hlt, getD_set_eq, getD_set_eq, List.length_set]
    by_cases h1 : t = a
    · subst h1
      rw [if_neg (by omega), if_pos ⟨rfl, by omega⟩, if_pos rfl]
      omega
    · by_cases h2 : t = a + 1
      · subst h2
        rw [if_pos ⟨rfl, h⟩, if_neg h1, if_pos rfl]
        omega
      · rw [if_neg (fun hh => h2 hh.1.symm), if_neg (fun hh => h1 hh.1.symm), if_neg h1,
          if_neg h2]
  · rw [if_neg hlt]
    by_cases h1 : t = a
    · subst h1
      rw [if_pos rfl]
      omega
    · by_cases h2 : t = a + 1
      · subst h2
        rw [if_neg h1, if_pos rfl]
        omega
      · rw [if_neg h1, if_neg h2]

theorem SegPerm.refl (lo hi : Nat) (l : List Int) : SegPerm lo hi l l :=
  ⟨rfl, List.Perm.refl l, fun _ _ => rfl, fun _ h => h⟩

theorem SegPerm.trans {lo hi : Nat} {l m r : List Int} (h1 : SegPerm lo hi l m)
    (h2 : SegPerm lo hi m r) : SegPerm lo hi l r :=
  ⟨h2.1.trans h1.1, h2.2.1.trans h1.2.1,
    fun t ht => (h2.2.2.1 t ht).trans (h1.2.2.1 t ht),
    fun P hP => h2.2.2.2 P (h1.2.2.2 P hP)⟩

theorem SegPerm.mono {lo hi lo' hi' : Nat} {l r : List Int} (h : SegPerm lo hi l r)
    (hlo : lo' ≤ lo) (hhi : hi ≤ hi') : SegPerm lo' hi' l r := by
  refine ⟨h.1, h.2.1, fun t ht => h.2.2.1 t (by omega), ?_⟩
  intro P hP t h1 h2
  by_cases hin : lo ≤ t ∧ t ≤ hi
  · exact h.2.2.2 P (fun s s1 s2 => hP s (by omega) (by omega)) t hin.1 hin.2
  · rw [h.2.2.1 t (by omega)]
    exact hP t h1 h2

theorem cmp_swap_segPerm (l : List Int) (a : Nat) (h : a + 1 < l.length) :
    SegPerm a (a + 1) l (cmp_swap l a) := by
  refine ⟨cmp_swap_length l a, ?_, ?_, ?_⟩
  · unfold cmp_swap
    split
    · exact swap_adj_perm a l h
    · exact List.Perm.refl l
  · intro t ht
    rw [cmp_swap_getD l a t h, if_neg (by omega), if_neg (by omega)]
  · intro P hP t h1 h2
    have ha := hP a (le_refl _) (by omega)
    have hb := hP (a + 1) (by omega) (le_refl _)
    rw [cmp_swap_getD l a t h]
    by_cases e1 : t = a
    · rw [if_pos e1]
      rcases min_choice (l.getD a 0) (l.getD (a + 1) 0) with e | e <;> rw [e] <;> assumption
    · rw [if_neg e1, if_pos (by omega)]
      rcases max_choice (l.getD a 0) (l.getD (a + 1) 0) with e | e <;> rw [e] <;> assumption
theorem refcode_inner_succ (fuel a : Nat) (l : List Int) :
    refcode.level_4_inner (fuel + 1) (a + 1) l =
      refcode.level_4_inner fuel (a + 2) (cmp_swap l a) := by
  rw [refcode.level_4_inner]
  simp only [Nat.add_sub_cancel, gt_iff_lt]
  rfl

theorem optimized_back_succ (fuel a : Nat) (l : List Int) :
    optimized.level_4_back (fuel + 1) (a + 1) l =
      optimized.level_4_back fuel a (cmp_swap l a) := by
  rw [optimized.level_4_back]
  simp only [Nat.add_sub_cancel]
  unfold cmp_swap
  rw [List.set_comm _ _ _ (by omega : a + 1 ≠ a)]

theorem optimized_fwd_fst : ∀ (fuel j : Nat) (s : List Int × Bool),
    (optimized.level_4_fwd fuel j s).1 = refcode.level_4_inner fuel (j + 1) s.1 := by
  intro fuel
  induction fuel with
  | zero => intro j s; rfl
  | succ f ih =>
    intro j s
    rw [optimized.level_4_fwd, refcode_inner_succ, ih]
    unfold cmp_swap
    split <;> rfl

/-- An upward pass over the cells `a .. a + m` rearranges them and carries their largest
value to cell `a + m`. -/
theorem up_pass_spec : ∀ (m a : Nat) (l : List Int), a + m < l.length →
    SegPerm a (a + m) l (refcode.level_4_inner m (a + 1) l) ∧
    ∀ lo, (∀ t, lo ≤ t → t ≤ a → l.getD t 0 ≤ l.getD a 0) →
      ∀ t, lo ≤ t → t ≤ a + m →
        (refcode.level_4_inner m (a + 1) l).getD t 0 ≤
          (refcode.level_4_inner m (a + 1) l).getD (a + m) 0 := by
  intro m
  induction m with
  | zero =>
    intro a l _
    exact ⟨SegPerm.refl _ _ _, fun lo h t h1 h2 => h t h1 h2⟩
  | succ m ih =>
    intro a l h
    have hs := cmp_swap_segPerm l a (by omega)
    have hlen : (cmp_swap l a).length = l.length := cmp_swap_length l a
    obtain ⟨i1, i2⟩ := ih (a + 1) (cmp_swap l a) (by rw [hlen]; omega)
    rw [refcode_inner_succ]
    have e : a + (m + 1) = a + 1 + m := by omega
    rw [e]
    refine ⟨(hs.mono (le_refl _) (by omega)).trans (i1.mono (by omega) (le_refl _)), ?_⟩
    intro lo hlo
    apply i2 lo
    intro t h1 h2
    have hR : (cmp_swap l a).getD (a + 1) 0 = max (l.getD a 0) (l.getD (a + 1) 0) := by
      rw [cmp_swap_getD l a (a + 1) (by omega), if_neg (by omega), if_pos rfl]
    rw [hR, cmp_swap_getD l a t (by omega)]
    by_cases e1 : t = a
    · rw [if_pos e1]
      exact le_trans (min_le_left _ _) (le_max_left _ _)
    · by_cases e2 : t = a + 1
      · rw [if_neg e1, if_pos e2]
      · rw [if_neg e1, if_neg e2]
        exact le_trans (hlo t h1 (by omega)) (le_max_left _ _)

/-- A downward pass over the cells `j - m .. j` rearranges them and carries their
smallest value to cell `j - m`. -/
theorem down_pass_spec : ∀ (m j : Nat) (l : List Int), m ≤ j → j < l.length →
    SegPerm (j - m) j l (optimized.level_4_back m j l) ∧
    ∀ hi, (∀ t, j ≤ t → t ≤ hi → l.getD j 0 ≤ l.getD t 0) →
      ∀ t, j - m ≤ t → t ≤ hi →
        (optimized.level_4_back m j l).getD (j - m) 0 ≤
          (optimized.level_4_back m j l).getD t 0 := by
  intro m
  induction m with
  | zero =>
    intro j l _ _
    exact ⟨SegPerm.refl _ _ _, fun hi h t h1 h2 => h t h1 h2⟩
  | succ m ih =>
    intro j l hm h
    obtain ⟨a, rfl⟩ : ∃ a, j = a + 1 := ⟨j - 1, by omega⟩
    have hs := cmp_swap_segPerm l a h
    have hlen : (cmp_swap l a).length = l.length := cmp_swap_length l a
    obtain ⟨i1, i2⟩ := ih a (cmp_swap l a) (by omega) (by rw [hlen]; omega)
    rw [optimized_back_succ]
    have e : a + 1 - (m + 1) = a - m := by omega
    rw [e]
    refine ⟨(hs.mono (by omega) (le_refl _)).trans (i1.mono (le_refl _) (by omega)), ?_⟩
    intro hi hhi
    apply i2 hi
    intro t h1 h2
    have hL : (cmp_swap l a).getD a 0 = min (l.getD a 0) (l.getD (a + 1) 0) := by
      rw [cmp_swap_getD l a a h, if_pos rfl]
    rw [hL, cmp_swap_getD l a t h]
    by_cases e1 : t = a
    · rw [if_pos e1]
    · by_cases e2 : t = a + 1
      · rw [if_neg e1, if_pos e2]
        exact le_trans (min_le_left _ _) (le_max_left _ _)
      · rw [if_neg e1, if_neg e2]
        exact le_trans (min_le_right _ _) (hhi t (by omega) h2)

/-- If the forward pass leaves `sorted` set, it has exchanged nothing and the cells it
went over are in order. -/
theorem optimized_fwd_flag : ∀ (m j : Nat) (s : List Int × Bool),
    (optimized.level_4_fwd m j s).2 = true →
      s.2 = true ∧ (optimized.level_4_fwd m j s).1 = s.1 ∧
      ∀ t, j ≤ t → t < j + m → s.1.getD t 0 ≤ s.1.getD (t + 1) 0 := by
  intro m
  induction m with
  | zero =>
    intro j s h
    exact ⟨h, rfl, fun t h1 h2 => by omega⟩
  | succ m ih =>
    intro j s h
    rw [optimized.level_4_fwd] at h ⊢
    by_cases hlt : s.1.getD (j + 1) 0 < s.1.getD j 0
    · rw [if_pos hlt] at h
      exact absurd (ih _ _ h).1 (by simp)
    · rw [if_neg hlt] at h ⊢
      obtain ⟨i1, i2, i3⟩ := ih _ _ h
      refine ⟨i1, i2, ?_⟩
      intro t h1 h2
      by_cases e : t = j
      · subst e; omega
      · exact i3 t (by omega) (by omega)

theorem adjacent_sorted (l : List Int) (lo hi : Nat)
    (h : ∀ t, lo ≤ t → t < hi → l.getD t 0 ≤ l.getD (t + 1) 0) :
    ∀ d a, lo ≤ a → a + d ≤ hi → l.getD a 0 ≤ l.getD (a + d) 0 := by
  intro d
  induction d with
  | zero => intro a _ _; exact le_refl _
  | succ d ih =>
    intro a h1 h2
    exact le_trans (ih a h1 (by omega)) (h (a + d) (by omega) (by omega))

theorem Settled.segPerm {i k lo hi : Nat} {l r : List Int} (h : Settled i k l)
    (hs : SegPerm lo hi l r) (hlo : i ≤ lo) (hhi : hi ≤ k) (hlen : hi < l.length) :
    Settled i k r := by
  intro a b hab hb hor
  rw [hs.1] at hb
  by_cases ha : a < i
  · rw [hs.2.2.1 a (by omega)]
    by_cases hbin : lo ≤ b ∧ b ≤ hi
    · exact hs.2.2.2 (fun x => l.getD a 0 ≤ x)
        (fun t t1 t2 => h a t (by omega) (by omega) (Or.inl ha)) b hbin.1 hbin.2
    · rw [hs.2.2.1 b (by omega)]
      exact h a b hab hb hor
  · have hkb : k < b := by omega
    rw [hs.2.2.1 b (by omega)]
    by_cases hain : lo ≤ a ∧ a ≤ hi
    · exact hs.2.2.2 (fun x => x ≤ l.getD b 0)
        (fun t t1 t2 => h t b (by omega) hb (Or.inr hkb)) a hain.1 hain.2
    · rw [hs.2.2.1 a (by omega)]
      exact h a b hab hb hor

theorem Settled.left {i k : Nat} {l : List Int} (h : Settled i k l)
    (hmin : ∀ t, i ≤ t → t ≤ k → l.getD i 0 ≤ l.getD t 0) : Settled (i + 1) k l := by
  intro a b hab hb hor
  by_cases h' : a < i ∨ k < b
  · exact h a b hab hb h'
  · have : a = i := by omega
    subst this
    exact hmin b (by omega) (by omega)

theorem Settled.right {i k : Nat} {l : List Int} (h : Settled i k l) (hk : 1 ≤ k)
    (hmax : ∀ t, i ≤ t → t ≤ k → l.getD t 0 ≤ l.getD k 0) : Settled i (k - 1) l := by
  intro a b hab hb hor
  by_cases h' : a < i ∨ k < b
  · exact h a b hab hb h'
  · have : b = k := by omega
    subst this
    exact hmax a (by omega) (by omega)

theorem Settled.sorted {i k : Nat} {l : List Int} (h : Settled i k l) (hik : k ≤ i) :
    l.Sorted (fun x y => x ≤ y) := by
  unfold List.Sorted
  rw [List.pairwise_iff_getElem]
  intro a b ha hb hab
  have := h a b hab hb (by omega)
  rwa [List.getD_eq_getElem _ _ ha, List.getD_eq_getElem _ _ hb] at this
/-- The bubble sort of refcode.c: once the cells after `j - 1` are settled, the remaining
passes settle the rest. -/
theorem refcode_outer_spec : ∀ (fuel j : Nat) (l : List Int), j ≤ l.length →
    fuel = j - 1 → Settled 0 (j - 1) l →
      (refcode.level_4_outer fuel j l).Perm l ∧
      (refcode.level_4_outer fuel j l).Sorted (fun x y => x ≤ y) := by
  intro fuel
  induction fuel with
  | zero =>
    intro j l _ hf hs
    exact ⟨List.Perm.refl l, hs.sorted (by omega)⟩
  | succ f ih =>
    intro j l hj hf hs
    obtain ⟨p1, p2⟩ := up_pass_spec (j - 1) 0 l (by omega)
    rw [Nat.zero_add] at p1 p2
    have hs1 : Settled 0 (j - 1) (refcode.level_4_inner (j - 1) 1 l) :=
      hs.segPerm p1 (le_refl _) (le_refl _) (by omega)
    have hs2 : Settled 0 (j - 1 - 1) (refcode.level_4_inner (j - 1) 1 l) :=
      hs1.right (by omega) (fun t t1 t2 => p2 0 (fun s _ s2 => by
        have : s = 0 := by omega
        subst this
        exact le_refl _) t t1 t2)
    rw [refcode.level_4_outer]
    obtain ⟨i1, i2⟩ := ih (j - 1) (refcode.level_4_inner (j - 1) 1 l)
      (by rw [p1.1]; omega) (by omega) hs2
    exact ⟨i1.trans p1.2.1, i2⟩

/-- The shaker sort of optimized.c: from a state where the cells before `i` and after `k`
are settled, `k - i` iterations are enough for the loop to end, and it ends with the
cells rearranged in order. -/
theorem optimized_loop_spec : ∀ (fuel i k : Nat) (l : List Int), k ≤ l.length - 1 →
    k - i ≤ fuel → Settled i k l →
      ∃ r, optimized.level_4_loop fuel i k l = some r ∧ r.Perm l ∧
        r.Sorted (fun x y => x ≤ y) := by
  intro fuel
  induction fuel with
  | zero =>
    intro i k l _ hf hs
    refine ⟨l, ?_, List.Perm.refl l, hs.sorted (by omega)⟩
    rw [optimized.level_4_loop, if_neg (by omega)]
  | succ f ih =>
    intro i k l hk hf hs
    rw [optimized.level_4_loop]
    by_cases hik : i < k
    · rw [if_pos hik]
      obtain ⟨b1, b2⟩ := down_pass_spec (k - i) k l (by omega) (by omega)
      have e1 : k - (k - i) = i := by omega
      rw [e1] at b1 b2
      have s1 : Settled (i + 1) k (optimized.level_4_back (k - i) k l) :=
        (hs.segPerm b1 (le_refl _) (le_refl _) (by omega)).left
          (fun t t1 t2 => b2 k (fun s s1 s2 => by
            have : s = k := by omega
            subst this
            exact le_refl _) t t1 t2)
      have hlen1 : (optimized.level_4_back (k - i) k l).length = l.length := b1.1
      obtain ⟨u1, u2⟩ := up_pass_spec (k - (i + 1)) (i + 1)
        (optimized.level_4_back (k - i) k l) (by omega)
      have e2 : i + 1 + (k - (i + 1)) = k := by omega
      rw [e2] at u1 u2
      have hfst := optimized_fwd_fst (k - (i + 1)) (i + 1)
        (optimized.level_4_back (k - i) k l, true)
      simp only at hfst
      rw [← hfst] at u1 u2
      have s2 := s1.segPerm u1 (le_refl _) (le_refl _) (by omega)
      by_cases hflag : (optimized.level_4_fwd (k - (i + 1)) (i + 1)
          (optimized.level_4_back (k - i) k l, true)).2 = true
      · simp only [hflag, if_true]
        refine ⟨_, rfl, u1.2.1.trans b1.2.1, ?_⟩
        obtain ⟨_, f2, f3⟩ := optimized_fwd_flag _ _ _ hflag
        simp only at f2 f3
        unfold List.Sorted
        rw [List.pairwise_iff_getElem]
        intro a b ha hb hab
        rw [← List.getD_eq_getElem _ 0 ha, ← List.getD_eq_getElem _ 0 hb]
        by_cases hor : a < i + 1 ∨ k < b
        · exact s2 a b hab hb hor
        · rw [f2]
          have := adjacent_sorted (optimized.level_4_back (k - i) k l) (i + 1) k
            (fun t t1 t2 => f3 t t1 (by omega)) (b - a) a (by omega) (by omega)
          rwa [Nat.add_sub_cancel' (by omega)] at this
      · simp only [hflag]
        have s3 : Settled (i + 1) (k - 1) (optimized.level_4_fwd (k - (i + 1)) (i + 1)
            (optimized.level_4_back (k - i) k l, true)).1 :=
          s2.right (by omega) (fun t t1 t2 => u2 (i + 1) (fun s s1 s2 => by
            have : s = i + 1 := by omega
            subst this
            exact le_refl _) t t1 t2)
        obtain ⟨r, r1, r2, r3⟩ := ih (i + 1) (k - 1) _ (by rw [u1.1, hlen1]; omega)
          (by omega) s3
        exact ⟨r, r1, r2.trans (u1.2.1.trans b1.2.1), r3⟩
    · rw [if_neg hik]
      exact ⟨l, rfl, List.Perm.refl l, hs.sorted (by omega)⟩

/-- C24: for every content of `list` (of `large` cells, `LARGE` in the program), the loop
of `level_4` of optimized.c ends, within `large` iterations, and it leaves what `level_4`
of refcode.c leaves: the cells of the input rearranged in non-decreasing order. -/
theorem C24_level_4_sorts (large : Nat) (list : List Int) (fuel : Nat)
    (hlen : list.length = large) (hfuel : large ≤ fuel) :
    optimized.level_4 large fuel list = some (refcode.level_4 large list) ∧
    (refcode.level_4 large list).Perm list ∧
    (refcode.level_4 large list).Sorted (fun x y => x ≤ y) := by
  have hinit : Settled 0 (large - 1) list := by
    intro a b _ hb hor
    omega
  obtain ⟨p1, p2⟩ := refcode_outer_spec (large - 1) large list (by omega) rfl hinit
  obtain ⟨r, r1, r2, r3⟩ := optimized_loop_spec fuel 0 (large - 1) list (by omega)
    (by omega) hinit
  have heq : r = refcode.level_4_outer (large - 1) large list :=
    List.eq_of_perm_of_sorted (r2.trans p1.symm) r3 p2
  unfold optimized.level_4 refcode.level_4
  rw [r1, heq]
  exact ⟨rfl, p1, p2⟩

/-- Witness of C24 on a list of five cells. -/
theorem C24_level_4_sorts_witness :
    ([3, 1, 2, 5, 4] : List Int).length = 5 ∧ 5 ≤ 5 ∧
    refcode.level_4 5 [3, 1, 2, 5, 4] = [1, 2, 3, 4, 5] ∧
    optimized.level_4 5 5 [3, 1, 2, 5, 4] = some (refcode.level_4 5 [3, 1, 2, 5, 4]) :=
  ⟨by decide, by decide, by decide,
    (C24_level_4_sorts 5 [3, 1, 2, 5, 4] 5 (by decide) (by decide)).1⟩

end PageSim
